import Mathlib

/-!
# Verification of the aria indexing pipeline

A shallow embedding of the core of the `aria` source indexer (Rust) and
proofs about it.  The embedding follows the source files
`src/summarizer.rs`, `src/embeddings.rs`, `src/resolver.rs`, `src/topo.rs`
and `src/commands/index.rs`.

Modelling conventions:
* Rust `HashMap`/`HashSet` are modelled as association lists / plain lists;
  iteration order of a hash map is unspecified in Rust, so the list order
  is one admissible determinization.  All theorems below are insensitive
  to that order.
* `f32` values are modelled by their 32-bit patterns (`Nat` below `2^32`);
  byte I/O is little-endian, as in the source.
* The external LLM executor (`call_claude`) is a parameter
  `String → Except SummarizerError String`.
* Thread spawning plus channel collection in `summarize_batch` is
  serialized in batch order; this only fixes the order in which results
  arrive, never their contents.
-/

namespace Aria

/-! ## Generic list helpers (Rust std behaviour) -/

/-- Lookup in an association list (first match), modelling `HashMap::get`. -/
def lookupKV {β : Type} (m : List (String × β)) (k : String) : Option β :=
  match m with
  | [] => none
  | (k0, v) :: rest => if k0 = k then some v else lookupKV rest k

/-- `HashMap::insert` (replace an existing binding, else append). -/
def insertKV {β : Type} (m : List (String × β)) (k : String) (v : β) :
    List (String × β) :=
  match m with
  | [] => [(k, v)]
  | (k0, v0) :: rest =>
    if k0 = k then (k0, v) :: rest else (k0, v0) :: insertKV rest k v

/-- `HashMap::contains_key`. -/
def containsKV {β : Type} (m : List (String × β)) (k : String) : Bool :=
  (lookupKV m k).isSome

/-- `map.entry(k).or_default().push(v)` for `HashMap<String, Vec<β>>`. -/
def pushKV {β : Type} (m : List (String × List β)) (k : String) (v : β) :
    List (String × List β) :=
  match m with
  | [] => [(k, [v])]
  | (k0, vs) :: rest =>
    if k0 = k then (k0, vs ++ [v]) :: rest else (k0, vs) :: pushKV rest k v

/-- Split a character list on a separator character, keeping empty pieces:
this is Rust `str::split(sep)` (always returns at least one piece). -/
def splitSepChars (sep : Char) : List Char → List (List Char)
  | [] => [[]]
  | c :: cs =>
    match splitSepChars sep cs with
    | [] => [[]]
    | piece :: rest =>
      if c = sep then [] :: piece :: rest else (c :: piece) :: rest

/-- Rust `str::split(sep)` producing strings. -/
def splitSep (sep : Char) (s : String) : List String :=
  (splitSepChars sep s.toList).map List.asString

/-- Strip one trailing carriage return, as Rust line splitting does for
terminated lines. -/
def stripCR (piece : List Char) : List Char :=
  match piece.reverse with
  | '\r' :: rest => rest.reverse
  | _ => piece

/-- Rust `str::lines` / `BufRead::lines`: split on a line feed, strip a
carriage return from terminated pieces, and drop a final empty piece
produced by a trailing line feed. -/
def linesOfChars : List Char → List (List Char)
  | [] => []
  | c :: cs =>
    if c = '\n' then [] :: linesOfChars cs
    else
      match linesOfChars cs with
      | [] => [[c]]
      | piece :: rest => (c :: piece) :: rest

/-- Lines of a string, in Rust semantics (see `linesOfChars`; the split
keeps unterminated final lines verbatim). -/
def linesOf (s : String) : List String :=
  match (splitSepChars '\n' s.toList).map stripCR with
  | [] => []
  | pieces =>
    if pieces.getLast? = some [] then (pieces.dropLast).map List.asString
    else pieces.map List.asString

/-- `Vec::dedup`: remove consecutive duplicate elements. -/
def dedupAdj : List String → List String
  | [] => []
  | [a] => [a]
  | a :: b :: rest =>
    if a = b then dedupAdj (b :: rest) else a :: dedupAdj (b :: rest)

/-- `slice::chunks` with a positive chunk size (the summarizer clamps its
batch size to at least 1 before using it). -/
def toChunks {α : Type} (n : Nat) : List α → List (List α)
  | [] => []
  | x :: xs =>
    (x :: xs).take (n.max 1) :: toChunks n ((x :: xs).drop (n.max 1))
termination_by l => l.length
decreasing_by
  have h1 : 1 ≤ n.max 1 := Nat.le_max_right n 1
  simp only [List.length_drop, List.length_cons]
  omega

/-! ## Summarizer (`src/summarizer.rs`) -/

/-- `SummarizerError` from `src/summarizer.rs`. -/
inductive SummarizerError : Type
  | CommandFailed (msg : String)
  | IoError (msg : String)
deriving DecidableEq, Repr

/-- `SummaryRequest` from `src/summarizer.rs`. -/
structure SummaryRequest : Type where
  id : Nat
  signature : String
  body : String
  callee_context : List (String × String)
deriving DecidableEq, Repr

/-- `SummaryResult` from `src/summarizer.rs`. -/
structure SummaryResult : Type where
  id : Nat
  summary : Except SummarizerError String
deriving Repr

/-- The `Summarizer` configuration struct. -/
structure Summarizer : Type where
  batch_size : Nat
  parallel : Nat
  debug : Bool
deriving Repr

/-- `Summarizer::new`: clamps both `batch_size` and `parallel` to `≥ 1`. -/
def Summarizer.new (batch_size parallel : Nat) (debug : Bool) : Summarizer :=
  { batch_size := batch_size.max 1, parallel := parallel.max 1, debug := debug }

/-- `build_single_prompt` from `src/summarizer.rs`. -/
def build_single_prompt (signature body : String)
    (callee_context : List (String × String)) : String :=
  let base := "Summarize what this function does in 1-2 sentences. Focus on behavior, not implementation details. Do not repeat documentation comments. Reply with ONLY the summary, no preamble.\n\n"
  let ctx :=
    if callee_context.isEmpty then ""
    else
      "This function calls:\n" ++
        (callee_context.foldl
          (fun acc nv => acc ++ "- " ++ nv.1 ++ "(): \x22" ++ nv.2 ++ "\x22\n") "")
        ++ "\n"
  base ++ ctx ++ "Function: " ++ signature ++ "\nBody:\n" ++ body

/-- One numbered section of the batch prompt. -/
def batchSection (idx : Nat) (req : SummaryRequest) : String :=
  let ctx :=
    if req.callee_context.isEmpty then ""
    else
      "This function calls:\n" ++
        (req.callee_context.foldl
          (fun acc nv => acc ++ "- " ++ nv.1 ++ "(): \x22" ++ nv.2 ++ "\x22\n") "")
        ++ "\n"
  "=== Function " ++ toString (idx + 1) ++ " ===\n" ++ ctx ++
    req.signature ++ "\n" ++ req.body ++ "\n\n"

/-- `build_batch_prompt` from `src/summarizer.rs`. -/
def build_batch_prompt (batch : List SummaryRequest) : String :=
  let base := "Summarize what each function does in 1-2 sentences. Focus on behavior, not implementation details. Do not repeat documentation comments.\n\nReply in this exact format for each function:\n[N]: <summary>\n\nWhere N is the function number.\n\n"
  base ++ String.join ((batch.enum).map fun p => batchSection p.1 p.2)

/-- The `[k]:` marker searched for in a batch response. -/
def marker (k : Nat) : String := "[" ++ toString k ++ "]:"

/-- The placeholder summary used when a `[k]:` marker is missing. -/
def missingMarkerSummary (k : Nat) : String :=
  "(failed to parse summary for function " ++ toString k ++ ")"

/-- The summary extracted for request number `k` (1-indexed) from a batch
response: the trimmed remainder of the first line starting with `[k]:`,
or a placeholder if no such line exists. -/
def summaryForIndex (response : String) (k : Nat) : String :=
  match (linesOf response).find? (fun line => line.startsWith (marker k)) with
  | some line => ((line.toList.drop (marker k).length).asString).trim
  | none => missingMarkerSummary k

/-- `parse_batch_response` from `src/summarizer.rs`. -/
def parse_batch_response (batch : List SummaryRequest) (response : String) :
    List SummaryResult :=
  (batch.enum).map fun p =>
    { id := p.2.id, summary := .ok (summaryForIndex response (p.1 + 1)) }

/-- `process_batch` from `src/summarizer.rs`, with the external executor
passed in as `claude`.  The progress counter and debug printing do not
affect the returned results and are omitted. -/
def process_batch (claude : String → Except SummarizerError String)
    (batch : List SummaryRequest) : List SummaryResult :=
  match batch with
  | [req] =>
    [{ id := req.id, summary := claude (build_single_prompt req.signature req.body req.callee_context) }]
  | _ =>
    match claude (build_batch_prompt batch) with
    | .ok response => parse_batch_response batch response
    | .error e =>
      batch.map fun req =>
        { id := req.id, summary := .error (.CommandFailed (toString (repr e))) }

/-- `Summarizer::summarize_batch`: chunk the requests into batches and
process each batch.  Thread spawning and the result channel are
serialized in batch order (the result multiset is unaffected). -/
def Summarizer.summarize_batch (s : Summarizer)
    (claude : String → Except SummarizerError String)
    (requests : List SummaryRequest) : List SummaryResult :=
  if requests.isEmpty then []
  else ((toChunks s.batch_size requests).map (process_batch claude)).flatten

/-! ## Lemmas about the summarizer -/

theorem toChunks_flatten {α : Type} (n : Nat) (l : List α) :
    (toChunks n l).flatten = l := by
  induction l using toChunks.induct n with
  | case1 => rw [toChunks]; rfl
  | case2 x xs ih =>
    rw [toChunks, List.flatten_cons, ih, List.take_append_drop]

theorem parse_batch_response_ids (batch : List SummaryRequest) (r : String) :
    (parse_batch_response batch r).map (fun res => res.id)
      = batch.map (fun req => req.id) := by
  unfold parse_batch_response
  rw [List.map_map]
  have h : (fun p : Nat × SummaryRequest => p.2.id)
      = (fun req : SummaryRequest => req.id) ∘ Prod.snd := rfl
  calc (batch.enum.map ((fun res : SummaryResult => res.id) ∘
          fun p => { id := p.2.id, summary := .ok (summaryForIndex r (p.1 + 1)) }))
      = batch.enum.map ((fun req : SummaryRequest => req.id) ∘ Prod.snd) := rfl
    _ = (batch.enum.map Prod.snd).map (fun req => req.id) := by rw [List.map_map]
    _ = batch.map (fun req => req.id) := by rw [List.enum_map_snd]

theorem process_batch_ids (claude : String → Except SummarizerError String)
    (batch : List SummaryRequest) :
    (process_batch claude batch).map (fun res => res.id)
      = batch.map (fun req => req.id) := by
  match batch with
  | [req] => rfl
  | [] =>
    unfold process_batch
    match claude (build_batch_prompt []) with
    | .ok r => simp [parse_batch_response]
    | .error e => simp
  | a :: b :: rest =>
    unfold process_batch
    match claude (build_batch_prompt (a :: b :: rest)) with
    | .ok r => exact parse_batch_response_ids (a :: b :: rest) r
    | .error e => rw [List.map_map]; rfl

theorem getElem?_parse_batch_response (batch : List SummaryRequest)
    (response : String) (k : Nat) :
    (parse_batch_response batch response)[k]? =
      (batch[k]?).map fun req =>
        { id := req.id, summary := .ok (summaryForIndex response (k + 1)) } := by
  unfold parse_batch_response
  rw [List.getElem?_map, List.getElem?_enum]
  cases batch[k]? with
  | none => rfl
  | some req => rfl

theorem length_parse_batch_response (batch : List SummaryRequest)
    (response : String) :
    (parse_batch_response batch response).length = batch.length := by
  unfold parse_batch_response
  rw [List.length_map, List.enum_length]

/-- Claim C7: for a batch of `K` requests and any response string,
`parse_batch_response` returns exactly `K` results; result `k` (1-indexed)
is `Ok` of the trimmed remainder of the first response line starting with
the marker `[k]:`, or `Ok` of a placeholder summary when no such line
exists (see `summaryForIndex`); a missing marker never yields an error
result. -/
theorem parse_batch_response_total (batch : List SummaryRequest)
    (response : String) :
    (parse_batch_response batch response).length = batch.length ∧
    ∀ k, k < batch.length →
      ∃ req, batch[k]? = some req ∧
        (parse_batch_response batch response)[k]? =
          some { id := req.id,
                 summary := .ok (summaryForIndex response (k + 1)) } := by
  refine ⟨length_parse_batch_response batch response,
    fun k hk => ⟨batch.get ⟨k, hk⟩, ?_, ?_⟩⟩
  · exact List.getElem?_eq_getElem hk
  · rw [getElem?_parse_batch_response, List.getElem?_eq_getElem hk]
    rfl

/-- Witness for `parse_batch_response_total` on a concrete two-request
batch and a response carrying only the first marker. -/
theorem parse_batch_response_total_witness :
    0 < ([⟨5, "sigA", "bodyA", []⟩,
          ⟨7, "sigB", "bodyB", []⟩] : List SummaryRequest).length ∧
    ∃ req,
      ([⟨5, "sigA", "bodyA", []⟩,
        ⟨7, "sigB", "bodyB", []⟩] : List SummaryRequest)[0]? = some req ∧
      (parse_batch_response
          [⟨5, "sigA", "bodyA", []⟩, ⟨7, "sigB", "bodyB", []⟩]
          "[1]: Does A ")[0]? =
        some { id := req.id,
               summary := .ok (summaryForIndex "[1]: Does A " 1) } :=
  ⟨by decide,
    (parse_batch_response_total
      [⟨5, "sigA", "bodyA", []⟩, ⟨7, "sigB", "bodyB", []⟩]
      "[1]: Does A ").2 0 (by decide)⟩

/-- Claim C9: `Summarizer::summarize_batch` returns exactly one result per
input request (the multiset of result ids equals the multiset of request
ids, whatever the executor returns), and the empty request list yields the
empty result list. -/
theorem summarize_batch_one_result_per_request (bs par : Nat) (dbg : Bool)
    (claude : String → Except SummarizerError String)
    (requests : List SummaryRequest) :
    List.Perm
      (((Summarizer.new bs par dbg).summarize_batch claude requests).map
        (fun res => res.id))
      (requests.map (fun req => req.id)) ∧
    (Summarizer.new bs par dbg).summarize_batch claude [] = [] := by
  constructor
  · unfold Summarizer.summarize_batch
    by_cases hreq : requests.isEmpty
    · rw [if_pos hreq]
      rw [List.isEmpty_iff.mp hreq]
      exact .refl _
    · rw [if_neg hreq]
      have key : (((toChunks (Summarizer.new bs par dbg).batch_size requests).map
          (process_batch claude)).flatten).map (fun res => res.id)
          = requests.map (fun req => req.id) := by
        rw [List.map_flatten, List.map_map]
        have hcomp : (List.map (fun res : SummaryResult => res.id) ∘
            process_batch claude)
            = fun chunk => chunk.map (fun req : SummaryRequest => req.id) :=
          funext (process_batch_ids claude)
        rw [hcomp, ← List.map_flatten, toChunks_flatten]
      rw [key]
  · rfl

/-! ## Embedding store (`src/embeddings.rs`)

Vectors are stored as lists of 32-bit patterns (`Nat` below `2^32`); the
two on-disk files are modelled as the list of index lines and the list of
bytes of the binary file. -/

/-- `EMBEDDING_DIM` from `src/embeddings.rs`. -/
def EMBEDDING_DIM : Nat := 768

/-- `f32::to_le_bytes` on a 32-bit pattern. -/
def encodeLE4 (v : Nat) : List Nat :=
  [v % 256, v / 256 % 256, v / 65536 % 256, v / 16777216 % 256]

/-- `f32::from_le_bytes`. -/
def decodeLE4 (b0 b1 b2 b3 : Nat) : Nat :=
  b0 + 256 * b1 + 65536 * b2 + 16777216 * b3

/-- Little-endian byte stream of one embedding vector. -/
def encodeVec (vec : List Nat) : List Nat :=
  (vec.map encodeLE4).flatten

/-- `chunks_exact(4)` + `from_le_bytes`: decode a byte stream into 32-bit
patterns, dropping an incomplete trailing chunk. -/
def bytesToF32s : List Nat → List Nat
  | b0 :: b1 :: b2 :: b3 :: rest => decodeLE4 b0 b1 b2 b3 :: bytesToF32s rest
  | _ => []

/-- An in-memory `EmbeddingStore`: `qualified_name → vector`.  The Rust
`HashMap` keys are unique; theorems that need this carry a `Nodup`
hypothesis on the key list. -/
abbrev Store := List (String × List Nat)

/-- Sort qualified names lexicographically, as `names.sort()` does. -/
def sortStrings (l : List String) : List String :=
  l.insertionSort (· ≤ ·)

/-- The index-file content `save` writes: one `writeln!` per name, so
every name is followed by a line feed. -/
def writeLines (names : List String) : String :=
  String.join (names.map fun n => n ++ "\n")

/-- `EmbeddingStore::save`: the pair (index-file content, binary-file
bytes).  Names are sorted and written one per line; each vector is
written in name order as little-endian 4-byte floats. -/
def save (store : Store) : String × List Nat :=
  let names := sortStrings (store.map Prod.fst)
  (writeLines names,
    (names.map (fun n => encodeVec ((lookupKV store n).getD []))).flatten)

/-- The per-name vector decoding loop of `EmbeddingStore::load`: for each
name read `EMBEDDING_DIM * 4` bytes and decode them. -/
def loadVecs : List String → List Nat → Store
  | [], _ => []
  | n :: ns, bytes =>
    (n, bytesToF32s (bytes.take (EMBEDDING_DIM * 4))) ::
      loadVecs ns (bytes.drop (EMBEDDING_DIM * 4))

/-- `EmbeddingStore::load`: `none` models a missing file.  If either file
is missing the store is empty; otherwise the binary size must be exactly
`count × D × 4`. -/
def load (idxFile : Option (List String)) (binFile : Option (List Nat)) :
    Except String Store :=
  match idxFile, binFile with
  | some names, some bytes =>
    if bytes.length ≠ names.length * (EMBEDDING_DIM * 4) then
      .error ("embeddings.bin size mismatch: expected " ++
        toString (names.length * (EMBEDDING_DIM * 4)) ++ " bytes, got " ++
        toString bytes.length)
    else
      .ok ((loadVecs names bytes).foldl (fun m p => insertKV m p.1 p.2) [])
  | _, _ => .ok []

/-! ### Association list lemmas -/

theorem lookupKV_eq_none {β : Type} (m : List (String × β)) (k : String) :
    lookupKV m k = none ↔ k ∉ m.map Prod.fst := by
  induction m with
  | nil => simp [lookupKV]
  | cons p rest ih =>
    obtain ⟨k0, v⟩ := p
    by_cases h : k0 = k
    · subst h
      simp [lookupKV]
    · simp only [lookupKV, if_neg h, List.map_cons, List.mem_cons]
      rw [ih]
      constructor
      · intro hn hor
        rcases hor with h1 | h2
        · exact h h1.symm
        · exact hn h2
      · intro hn
        intro hmem
        exact hn (Or.inr hmem)

theorem lookupKV_of_mem {β : Type} (m : List (String × β)) (k : String)
    (v : β) (hnd : (m.map Prod.fst).Nodup) (hmem : (k, v) ∈ m) :
    lookupKV m k = some v := by
  induction m with
  | nil => cases hmem
  | cons p rest ih =>
    obtain ⟨k0, v0⟩ := p
    rw [List.map_cons, List.nodup_cons] at hnd
    rcases List.mem_cons.mp hmem with h1 | h2
    · cases h1
      simp [lookupKV]
    · have hne : k0 ≠ k := by
        intro he
        subst he
        exact hnd.1 (List.mem_map.mpr ⟨(k0, v), h2, rfl⟩)
      simp only [lookupKV, if_neg hne]
      exact ih hnd.2 h2

theorem lookupKV_map_graph (g : String → List Nat) (l : List String)
    (k : String) :
    lookupKV (l.map fun n => (n, g n)) k =
      if k ∈ l then some (g k) else none := by
  induction l with
  | nil => simp [lookupKV]
  | cons n ns ih =>
    by_cases h : n = k
    · subst h
      simp [lookupKV]
    · simp only [List.map_cons, lookupKV, if_neg h, ih, List.mem_cons]
      by_cases hk : k ∈ ns
      · simp [hk]
      · have hkn : ¬k = n := fun he => h he.symm
        simp [hk, hkn]

theorem insertKV_fresh {β : Type} (m : List (String × β)) (k : String)
    (v : β) (h : lookupKV m k = none) : insertKV m k v = m ++ [(k, v)] := by
  induction m with
  | nil => rfl
  | cons p rest ih =>
    obtain ⟨k0, v0⟩ := p
    by_cases he : k0 = k
    · subst he
      simp [lookupKV] at h
    · simp only [lookupKV, if_neg he] at h
      simp [insertKV, if_neg he, ih h]

theorem foldl_insertKV_nodup {β : Type} (pairs : List (String × β))
    (hnd : (pairs.map Prod.fst).Nodup) :
    pairs.foldl (fun m p => insertKV m p.1 p.2) [] = pairs := by
  suffices h : ∀ acc : List (String × β),
      (∀ p ∈ pairs, lookupKV acc p.1 = none) →
      pairs.foldl (fun m p => insertKV m p.1 p.2) acc = acc ++ pairs by
    simpa using h [] (fun p _ => rfl)
  induction pairs with
  | nil => intro acc _; simp
  | cons q rest ih =>
    intro acc hfresh
    rw [List.map_cons, List.nodup_cons] at hnd
    rw [List.foldl_cons, insertKV_fresh acc q.1 q.2 (hfresh q (by simp)),
      ih hnd.2]
    · simp
    · intro p hp
      rw [lookupKV_eq_none, List.map_append]
      intro hmem
      rcases List.mem_append.mp hmem with h1 | h2
      · exact (lookupKV_eq_none acc p.1).mp (hfresh p (by simp [hp])) h1
      · simp only [List.map_cons, List.mem_singleton, List.map_nil] at h2
        exact hnd.1 (h2 ▸ List.mem_map.mpr ⟨p, hp, rfl⟩)

/-! ### Round-trip lemmas -/

theorem bytesToF32s_encodeVec (vec : List Nat) (hb : ∀ v ∈ vec, v < 2 ^ 32) :
    bytesToF32s (encodeVec vec) = vec := by
  induction vec with
  | nil => rfl
  | cons v vs ih =>
    have hv : v < 2 ^ 32 := hb v (by simp)
    have htail : bytesToF32s (encodeVec vs) = vs :=
      ih fun x hx => hb x (by simp [hx])
    show bytesToF32s (encodeLE4 v ++ encodeVec vs) = v :: vs
    simp only [encodeLE4, List.cons_append, List.nil_append, bytesToF32s,
      htail, decodeLE4]
    congr 1
    omega

theorem length_encodeVec (vec : List Nat) :
    (encodeVec vec).length = vec.length * 4 := by
  induction vec with
  | nil => rfl
  | cons v vs ih =>
    show (encodeLE4 v ++ encodeVec vs).length = (vs.length + 1) * 4
    rw [List.length_append, ih]
    simp [encodeLE4]
    omega

theorem flatten_length_const {α : Type} (l : List α) (f : α → List Nat)
    (c : Nat) (h : ∀ x ∈ l, (f x).length = c) :
    ((l.map f).flatten).length = l.length * c := by
  induction l with
  | nil => simp
  | cons x xs ih =>
    rw [List.map_cons, List.flatten_cons, List.length_append,
      h x (by simp), ih fun y hy => h y (by simp [hy]), List.length_cons]
    ring

theorem loadVecs_encode (names : List String) (g : String → List Nat)
    (h768 : ∀ n ∈ names, (g n).length = EMBEDDING_DIM)
    (hb : ∀ n ∈ names, ∀ v ∈ g n, v < 2 ^ 32) :
    loadVecs names ((names.map fun n => encodeVec (g n)).flatten) =
      names.map fun n => (n, g n) := by
  induction names with
  | nil => rfl
  | cons n ns ih =>
    rw [List.map_cons, List.flatten_cons]
    have hlen : (encodeVec (g n)).length = EMBEDDING_DIM * 4 := by
      rw [length_encodeVec, h768 n (by simp)]
    show (n, bytesToF32s ((encodeVec (g n) ++
        ((ns.map fun m => encodeVec (g m)).flatten)).take (EMBEDDING_DIM * 4)))
        :: loadVecs ns ((encodeVec (g n) ++
          ((ns.map fun m => encodeVec (g m)).flatten)).drop (EMBEDDING_DIM * 4))
      = (n, g n) :: (ns.map fun m => (m, g m))
    rw [← hlen, List.take_left, List.drop_left,
      bytesToF32s_encodeVec (g n) (hb n (by simp)),
      ih (fun m hm => h768 m (by simp [hm]))
        (fun m hm => hb m (by simp [hm]))]

theorem mem_keys_lookup (store : Store) (n : String)
    (hknd : (store.map Prod.fst).Nodup) (hn : n ∈ store.map Prod.fst) :
    ∃ v, lookupKV store n = some v ∧ (n, v) ∈ store := by
  obtain ⟨p, hp, hfst⟩ := List.mem_map.mp hn
  exact ⟨p.2, lookupKV_of_mem store n p.2 hknd (by
    have : p = (n, p.2) := by
      cases p
      simp at hfst
      simp [hfst]
    exact this ▸ hp), by
    have : p = (n, p.2) := by
      cases p
      simp at hfst
      simp [hfst]
    exact this ▸ hp⟩

theorem splitSepChars_ne_nil (sep : Char) (cs : List Char) :
    splitSepChars sep cs ≠ [] := by
  cases cs with
  | nil => simp [splitSepChars]
  | cons c cs =>
    rw [splitSepChars]
    cases splitSepChars sep cs with
    | nil => simp
    | cons piece rest =>
      by_cases hc : c = sep
      · simp [hc]
      · simp [hc]

theorem splitSepChars_append_sep (sep : Char) (l rest : List Char)
    (h : sep ∉ l) :
    splitSepChars sep (l ++ sep :: rest) = l :: splitSepChars sep rest := by
  induction l with
  | nil =>
    rw [List.nil_append, splitSepChars]
    cases hs : splitSepChars sep rest with
    | nil => exact absurd hs (splitSepChars_ne_nil sep rest)
    | cons piece r => simp
  | cons c cs ih =>
    have hc : c ≠ sep := fun he => h (he ▸ List.mem_cons_self c cs)
    have hcs : sep ∉ cs := fun hm => h (List.mem_cons_of_mem c hm)
    rw [List.cons_append, splitSepChars, ih hcs]
    simp only [if_neg hc]

theorem foldl_append_str (l : List String) (a : String) :
    l.foldl (fun r s => r ++ s) a = a ++ l.foldl (fun r s => r ++ s) "" := by
  induction l generalizing a with
  | nil => exact (String.append_empty a).symm
  | cons x xs ih =>
    rw [List.foldl_cons, List.foldl_cons, ih (a ++ x), ih ("" ++ x)]
    rw [show ("" ++ x : String) = x from rfl, String.append_assoc]

theorem writeLines_cons (n : String) (ns : List String) :
    writeLines (n :: ns) = n ++ "\n" ++ writeLines ns := by
  show String.join (((n :: ns).map fun m => m ++ "\n")) = _
  rw [List.map_cons]
  show ((ns.map fun m => m ++ "\n").foldl (fun r s => r ++ s)
    ("" ++ (n ++ "\n"))) = _
  rw [foldl_append_str]
  rfl

theorem splitSep_writeLines (names : List String)
    (h : ∀ n ∈ names, '\n' ∉ n.toList) :
    splitSepChars '\n' (writeLines names).toList =
      names.map String.toList ++ [[]] := by
  induction names with
  | nil => rfl
  | cons n ns ih =>
    have hchars : (writeLines (n :: ns)).toList =
        n.toList ++ '\n' :: (writeLines ns).toList := by
      rw [writeLines_cons]
      rw [show ∀ s t : String, (s ++ t).toList = s.toList ++ t.toList from
        String.data_append, show ∀ s t : String,
          (s ++ t).toList = s.toList ++ t.toList from String.data_append,
        List.append_assoc]
      rfl
    rw [hchars, splitSepChars_append_sep '\n' _ _ (h n (by simp)),
      ih fun m hm => h m (by simp [hm]), List.map_cons, List.cons_append]

/-- Decoding the index file that `save` writes (splitting on the line
feeds, as `BufRead::lines` does) recovers the written names, provided no
name contains a line feed or ends in a carriage return. -/
theorem linesOf_writeLines (names : List String)
    (h : ∀ n ∈ names, '\n' ∉ n.toList ∧ stripCR n.toList = n.toList) :
    linesOf (writeLines names) = names := by
  have hsplit : (splitSepChars '\n' (writeLines names).toList).map stripCR =
      names.map String.toList ++ [[]] := by
    rw [splitSep_writeLines names fun n hn => (h n hn).1, List.map_append,
      List.map_map]
    congr 1
    exact List.map_congr_left fun n hn => (h n hn).2
  show (match (splitSepChars '\n' (writeLines names).toList).map stripCR with
    | [] => []
    | pieces =>
      if pieces.getLast? = some [] then (pieces.dropLast).map List.asString
      else pieces.map List.asString) = names
  rw [hsplit]
  split
  · next heq => simp at heq
  · next _ _ =>
    rw [List.getLast?_concat, if_pos rfl, List.dropLast_concat, List.map_map]
    exact (List.map_congr_left fun m _ => String.asString_toList m).trans
      (List.map_id names)

/-- Claim C6 counterexample: a store holding one vector of length 1 does
not round-trip; decoding the written index file into its lines and
re-loading reports a size mismatch instead of returning the store. -/
theorem save_load_fails_on_short_vector :
    ∃ e, load (some (linesOf (save [("a", [0])]).1))
      (some (save [("a", [0])]).2) = .error e :=
  ⟨_, rfl⟩

/-- Claim C6 (amended): for every `EmbeddingStore` whose vectors all have
length `EMBEDDING_DIM` (with 32-bit entries and unique keys, the
`HashMap` invariants) and whose names contain no line feed and do not
end in a carriage return, saving and re-loading (decoding the written
index file into its lines, as `BufRead::lines` does) returns a store
with the same lookups (same key set, bitwise-identical vectors); the
binary file holds exactly `count × D × 4` bytes and the index file's
lines are in lexicographic order. -/
theorem save_load_round_trip (store : Store)
    (hlen : ∀ p ∈ store, (p.2 : List Nat).length = EMBEDDING_DIM)
    (hval : ∀ p ∈ store, ∀ v ∈ p.2, v < 2 ^ 32)
    (hkeys : (store.map Prod.fst).Nodup)
    (hname : ∀ p ∈ store, '\n' ∉ (p.1 : String).toList ∧
      stripCR (p.1 : String).toList = (p.1 : String).toList) :
    (save store).2.length = store.length * (EMBEDDING_DIM * 4) ∧
    List.Sorted (fun a b => a ≤ b) (linesOf (save store).1) ∧
    ∃ s2, load (some (linesOf (save store).1)) (some (save store).2) = .ok s2 ∧
      ∀ n, lookupKV s2 n = lookupKV store n := by
  have hperm : List.Perm (sortStrings (store.map Prod.fst))
      (store.map Prod.fst) := List.perm_insertionSort _ _
  have hlines : linesOf (save store).1 = sortStrings (store.map Prod.fst) := by
    show linesOf (writeLines (sortStrings (store.map Prod.fst))) = _
    refine linesOf_writeLines _ ?_
    intro n hn
    obtain ⟨p, hp, hfst⟩ := List.mem_map.mp (hperm.mem_iff.mp hn)
    exact hfst ▸ hname p hp
  have hnames_nd : (sortStrings (store.map Prod.fst)).Nodup :=
    hperm.nodup_iff.mpr hkeys
  have hg : ∀ n ∈ sortStrings (store.map Prod.fst),
      ∃ v, lookupKV store n = some v ∧ (n, v) ∈ store := fun n hn =>
    mem_keys_lookup store n hkeys (hperm.mem_iff.mp hn)
  have hglen : ∀ n ∈ sortStrings (store.map Prod.fst),
      ((lookupKV store n).getD []).length = EMBEDDING_DIM := by
    intro n hn
    obtain ⟨v, hv, hmem⟩ := hg n hn
    rw [hv]
    exact hlen (n, v) hmem
  have hgval : ∀ n ∈ sortStrings (store.map Prod.fst),
      ∀ x ∈ (lookupKV store n).getD [], x < 2 ^ 32 := by
    intro n hn x hx
    obtain ⟨v, hv, hmem⟩ := hg n hn
    rw [hv] at hx
    exact hval (n, v) hmem x hx
  have hbinlen : (save store).2.length = store.length * (EMBEDDING_DIM * 4) := by
    show ((sortStrings (store.map Prod.fst)).map
      (fun n => encodeVec ((lookupKV store n).getD []))).flatten.length = _
    rw [flatten_length_const _ _ (EMBEDDING_DIM * 4) (by
      intro n hn
      rw [length_encodeVec, hglen n hn])]
    rw [hperm.length_eq, List.length_map]
  refine ⟨hbinlen, ?_, ?_⟩
  · rw [hlines]
    exact List.sorted_insertionSort _ _
  · have hload : load (some (linesOf (save store).1)) (some (save store).2) =
        .ok ((loadVecs (sortStrings (store.map Prod.fst))
          (save store).2).foldl (fun m p => insertKV m p.1 p.2) []) := by
      rw [hlines]
      have heq : (save store).2.length =
          (sortStrings (store.map Prod.fst)).length * (EMBEDDING_DIM * 4) := by
        rw [hbinlen, hperm.length_eq, List.length_map]
      simp only [load]
      rw [if_neg (not_ne_iff.mpr heq)]
    have hvecs : loadVecs (sortStrings (store.map Prod.fst)) (save store).2 =
        (sortStrings (store.map Prod.fst)).map
          fun n => (n, (lookupKV store n).getD []) :=
      loadVecs_encode _ _ hglen hgval
    have hfold : (loadVecs (sortStrings (store.map Prod.fst))
        (save store).2).foldl (fun m p => insertKV m p.1 p.2) [] =
        (sortStrings (store.map Prod.fst)).map
          fun n => (n, (lookupKV store n).getD []) := by
      rw [hvecs]
      refine foldl_insertKV_nodup _ ?_
      have hk : ((sortStrings (store.map Prod.fst)).map
          (fun n => (n, (lookupKV store n).getD []))).map Prod.fst
          = sortStrings (store.map Prod.fst) := by
        rw [List.map_map]
        exact List.map_id _
      rw [hk]
      exact hnames_nd
    refine ⟨_, hload, ?_⟩
    intro n
    rw [hfold, lookupKV_map_graph]
    by_cases hn : n ∈ sortStrings (store.map Prod.fst)
    · rw [if_pos hn]
      obtain ⟨v, hv, _⟩ := hg n hn
      rw [hv]
      rfl
    · rw [if_neg hn]
      have : n ∉ store.map Prod.fst := fun hmem =>
        hn (hperm.mem_iff.mpr hmem)
      exact ((lookupKV_eq_none store n).mpr this).symm

/-- Witness for `save_load_round_trip` on a store with a single
768-dimensional zero vector. -/
theorem save_load_round_trip_witness :
    (save [("a", List.replicate EMBEDDING_DIM 0)]).2.length =
      ([("a", List.replicate EMBEDDING_DIM 0)] : Store).length *
        (EMBEDDING_DIM * 4) ∧
    List.Sorted (fun a b => a ≤ b)
      (linesOf (save [("a", List.replicate EMBEDDING_DIM 0)]).1) ∧
    ∃ s2, load
        (some (linesOf (save [("a", List.replicate EMBEDDING_DIM 0)]).1))
        (some (save [("a", List.replicate EMBEDDING_DIM 0)]).2) = .ok s2 ∧
      ∀ n, lookupKV s2 n =
        lookupKV [("a", List.replicate EMBEDDING_DIM 0)] n :=
  save_load_round_trip [("a", List.replicate EMBEDDING_DIM 0)]
    (by intro p hp; simp at hp; simp [hp])
    (by intro p hp v hv
        simp at hp
        subst hp
        have := List.eq_of_mem_replicate hv
        omega)
    (by simp)
    (by intro p hp
        simp at hp
        subst hp
        exact ⟨by decide, by decide⟩)

/-- Claim C10: `EmbeddingStore::load` returns `Ok` with an empty store
whenever either of the two files is missing; when both exist, the hard
error is raised exactly when the binary size differs from
`count × D × 4`. -/
theorem load_missing_or_size_mismatch :
    (∀ b, load none b = .ok []) ∧ (∀ i, load i none = .ok []) ∧
    ∀ names bytes,
      (∃ e, load (some names) (some bytes) = .error e) ↔
        bytes.length ≠ names.length * (EMBEDDING_DIM * 4) := by
  refine ⟨fun b => by cases b <;> rfl, fun i => by cases i <;> rfl, ?_⟩
  intro names bytes
  constructor
  · intro ⟨e, he⟩
    intro hlen
    simp only [load] at he
    rw [if_neg (not_ne_iff.mpr hlen)] at he
    cases he
  · intro hlen
    refine ⟨"embeddings.bin size mismatch: expected " ++
      toString (names.length * (EMBEDDING_DIM * 4)) ++ " bytes, got " ++
      toString bytes.length, ?_⟩
    simp only [load]
    rw [if_pos hlen]

/-! ## Data model (`src/index.rs`)

`Index.version`, `commit` and `indexed_at` are metadata never touched by
the verified operations and are omitted; `files` is the `HashMap` of file
paths to entries, as an association list. -/

/-- `Scope` from `src/index.rs`. -/
inductive Scope : Type
  | public
  | static
  | internal
deriving DecidableEq, Repr

/-- `TypeKind` from `src/index.rs`. -/
inductive TypeKind : Type
  | struct
  | interface
  | typedef
  | enum
deriving DecidableEq, Repr

/-- `CallSite` from `src/index.rs`. -/
structure CallSite : Type where
  target : String
  raw : String
  line : Nat
deriving DecidableEq, Repr

/-- `Function` from `src/index.rs` (the `embedding` vector is stored as
32-bit patterns). -/
structure Function : Type where
  name : String
  qualified_name : String
  ast_hash : String
  line_start : Nat
  line_end : Nat
  signature : String
  summary : Option String
  embedding : Option (List Nat)
  receiver : Option String
  scope : Scope
  calls : List CallSite
  called_by : List String
deriving DecidableEq, Repr

/-- `TypeDef` from `src/index.rs`. -/
structure TypeDef : Type where
  name : String
  qualified_name : String
  kind : TypeKind
  line_start : Nat
  line_end : Nat
  summary : Option String
  methods : List String
deriving DecidableEq, Repr

/-- `FileEntry` from `src/index.rs`. -/
structure FileEntry : Type where
  ast_hash : String
  functions : List Function
  types : List TypeDef
deriving DecidableEq, Repr

/-- The `files` map of an `Index`. -/
abbrev Files := List (String × FileEntry)

/-- All `(file_path, function)` pairs of an index, in iteration order. -/
def allFunctionsWithPath (files : Files) : List (String × Function) :=
  files.flatMap fun pe => pe.2.functions.map fun f => (pe.1, f)

/-- All functions of an index. -/
def allFunctions (files : Files) : List Function :=
  (allFunctionsWithPath files).map Prod.snd

/-- All qualified names of an index. -/
def qualifiedNames (files : Files) : List String :=
  (allFunctions files).map fun f => f.qualified_name

/-! ## Resolver (`src/resolver.rs`) -/

/-- The `Resolver` struct: `symbol_table` maps a simple name or a
`receiver.name` key to the `(qualified_name, file_path)` candidates;
`qualified_to_file` maps qualified names to file paths. -/
structure Resolver : Type where
  symbol_table : List (String × List (String × String))
  qualified_to_file : List (String × String)
deriving DecidableEq, Repr

/-- `Resolver::new`. -/
def Resolver.new : Resolver := ⟨[], []⟩

/-- The body of the `build_symbol_table` loop for one function. -/
def addFunction (r : Resolver) (file_path : String) (f : Function) :
    Resolver :=
  let r1 : Resolver :=
    { r with qualified_to_file :=
        insertKV r.qualified_to_file f.qualified_name file_path }
  let r2 : Resolver :=
    { r1 with symbol_table :=
        pushKV r1.symbol_table f.name (f.qualified_name, file_path) }
  match f.receiver with
  | some recv =>
    let key := recv ++ "." ++ f.name
    { r2 with symbol_table := pushKV r2.symbol_table key (f.qualified_name, file_path) }
  | none => r2

/-- `Resolver::build_symbol_table` (building from a cleared resolver). -/
def build_symbol_table (files : Files) : Resolver :=
  files.foldl
    (fun r pe => pe.2.functions.foldl (fun r2 f => addFunction r2 pe.1 f) r)
    Resolver.new

/-- `Resolver::find_single_match`: the single candidate, else
`[unresolved]`. -/
def find_single_match (r : Resolver) (key : String) : String :=
  match lookupKV r.symbol_table key with
  | some [m] => m.1
  | _ => "[unresolved]"

/-- Split at the last dot: `some (before, after)` when the string has a
dot (Rust `rfind('.')`). -/
def splitAtLastDot : List Char → Option (List Char × List Char)
  | [] => none
  | c :: cs =>
    match splitAtLastDot cs with
    | some (b, a) => some (c :: b, a)
    | none => if c = '.' then some ([], cs) else none

/-- `extract_package` from `src/resolver.rs`.  (`char::is_uppercase` is
modelled by `Char.isUpper`; the package value is opaque to every theorem
below.) -/
def extract_package (qualified_name : String) : String :=
  match splitAtLastDot qualified_name.toList with
  | none => qualified_name
  | some (pre, _) =>
    match splitAtLastDot pre with
    | some (pre2, potential_type) =>
      if (potential_type.head?.map Char.isUpper).getD false then
        pre2.asString
      else pre.asString
    | none => pre.asString

/-- The `match parts.len()` body of `Resolver::resolve_call`. -/
def resolveParts (r : Resolver) (pkg : String) (parts : List String) :
    String :=
  match parts with
  | [name] =>
    if containsKV r.qualified_to_file (pkg ++ "." ++ name) then
      pkg ++ "." ++ name
    else find_single_match r name
  | [first, second] =>
    if containsKV r.qualified_to_file (first ++ "." ++ second) then
      first ++ "." ++ second
    else if containsKV r.qualified_to_file
        (pkg ++ "." ++ first ++ "." ++ second) then
      pkg ++ "." ++ first ++ "." ++ second
    else find_single_match r (first ++ "." ++ second)
  | _ =>
    find_single_match r
      ((parts.getD (parts.length - 2) "") ++ "." ++ ((parts.getLast?).getD ""))

/-- `Resolver::resolve_call`: split `raw` on a dot and apply the
parts-count rules.  (`splitSep` never returns `[]`, so the wildcard arm
of `resolveParts` is only ever reached with at least three parts.) -/
def resolve_call (r : Resolver) (raw pkg : String) : String :=
  resolveParts r pkg (splitSep '.' raw)

/-- The package of a file entry: extracted from the first function's
qualified name, or empty. -/
def entryPkg (e : FileEntry) : String :=
  ((e.functions.head?).map fun f => extract_package f.qualified_name).getD ""

/-- First pass of `Resolver::resolve` on one file entry: the package is
extracted from the first function, and every call target is rewritten. -/
def resolveEntry (r : Resolver) (e : FileEntry) : FileEntry :=
  { e with functions := e.functions.map fun f =>
      { f with calls := f.calls.map fun c =>
          { c with target := resolve_call r c.raw (entryPkg e) } } }

/-- First pass of `Resolver::resolve` over the whole index. -/
def resolveTargets (r : Resolver) (files : Files) : Files :=
  files.map fun pe => (pe.1, resolveEntry r pe.2)

/-- The `(target, caller_qualified_name)` pairs collected into
`calls_to_targets` (its grouping by key is recovered by `callersOf`). -/
def calledPairs (files : Files) : List (String × String) :=
  files.flatMap fun pe => pe.2.functions.flatMap fun f =>
    f.calls.filterMap fun c =>
      if c.target = "[unresolved]" then none
      else some (c.target, f.qualified_name)

/-- The callers recorded for one target. -/
def callersOf (pairs : List (String × String)) (qn : String) : List String :=
  (pairs.filter fun p => p.1 = qn).map Prod.snd

/-- Second pass of `Resolver::resolve`: functions that have at least one
recorded caller get `called_by` replaced by the sorted, deduplicated
caller list; other functions are untouched. -/
def applyCalledBy (pairs : List (String × String)) (files : Files) : Files :=
  files.map fun pe => (pe.1, { pe.2 with
    functions := pe.2.functions.map fun f =>
      let callers := callersOf pairs f.qualified_name
      if callers.isEmpty then f
      else { f with called_by := dedupAdj (sortStrings callers) } })

/-- `Resolver::resolve`. -/
def Resolver.resolve (r : Resolver) (files : Files) : Files :=
  let files1 := resolveTargets r files
  applyCalledBy (calledPairs files1) files1

/-- The resolution stage of `commands::index::run`: build the symbol
table from the index and resolve the same index. -/
def resolveIndex (files : Files) : Files :=
  (build_symbol_table files).resolve files

/-! ### Resolver lemmas -/

theorem lookupKV_insertKV {β : Type} (m : List (String × β)) (k : String)
    (v : β) (k2 : String) :
    lookupKV (insertKV m k v) k2 =
      if k = k2 then some v else lookupKV m k2 := by
  induction m with
  | nil =>
    by_cases h : k = k2 <;> simp [insertKV, lookupKV, h]
  | cons p rest ih =>
    obtain ⟨k0, v0⟩ := p
    by_cases h0 : k0 = k
    · subst h0
      by_cases h2 : k0 = k2 <;> simp [insertKV, lookupKV, h2]
    · by_cases h2 : k0 = k2
      · subst h2
        have hk : ¬k = k0 := fun he => h0 he.symm
        simp [insertKV, lookupKV, h0, hk]
      · simp [insertKV, lookupKV, h0, h2, ih]

theorem lookupKV_pushKV {β : Type} (m : List (String × List β)) (k : String)
    (v : β) (k2 : String) :
    lookupKV (pushKV m k v) k2 =
      if k = k2 then some ((lookupKV m k).getD [] ++ [v])
      else lookupKV m k2 := by
  induction m with
  | nil =>
    by_cases h : k = k2 <;> simp [pushKV, lookupKV, h]
  | cons p rest ih =>
    obtain ⟨k0, vs⟩ := p
    by_cases h0 : k0 = k
    · subst h0
      by_cases h2 : k0 = k2 <;> simp [pushKV, lookupKV, h2]
    · by_cases h2 : k0 = k2
      · subst h2
        have hk : ¬k = k0 := fun he => h0 he.symm
        simp [pushKV, lookupKV, h0, hk]
      · simp [pushKV, lookupKV, h0, h2, ih]

theorem foldl_preserve {α β : Type} (P : β → Prop) (g : β → α → β) :
    ∀ (l : List α) (init : β), P init →
      (∀ b a, a ∈ l → P b → P (g b a)) → P (l.foldl g init)
  | [], init, hinit, _ => hinit
  | x :: xs, init, hinit, hstep =>
    foldl_preserve P g xs (g init x) (hstep init x (by simp) hinit)
      (fun b a ha hb => hstep b a (by simp [ha]) hb)

/-- The resolver invariant: every `qualified_to_file` key and every
qualified name stored in `symbol_table` belongs to `qns`. -/
def ResolverOK (r : Resolver) (qns : List String) : Prop :=
  (∀ k, containsKV r.qualified_to_file k → k ∈ qns) ∧
  (∀ key m, m ∈ (lookupKV r.symbol_table key).getD [] →
    (m : String × String).1 ∈ qns)

theorem addFunction_ok (r : Resolver) (qns : List String) (p : String)
    (f : Function) (hq : f.qualified_name ∈ qns) (h : ResolverOK r qns) :
    ResolverOK (addFunction r p f) qns := by
  have hqtf : ∀ k,
      containsKV (insertKV r.qualified_to_file f.qualified_name p) k →
      k ∈ qns := by
    intro k hk
    unfold containsKV at hk
    rw [lookupKV_insertKV] at hk
    by_cases he : f.qualified_name = k
    · exact he ▸ hq
    · rw [if_neg he] at hk
      exact h.1 k hk
  have hpush : ∀ (st : List (String × List (String × String))) (key : String)
      (v : String × String),
      (∀ key2 m, m ∈ (lookupKV st key2).getD [] →
        (m : String × String).1 ∈ qns) →
      v.1 ∈ qns →
      ∀ key2 m, m ∈ (lookupKV (pushKV st key v) key2).getD [] →
        (m : String × String).1 ∈ qns := by
    intro st key v hst hv key2 m hm
    rw [lookupKV_pushKV] at hm
    by_cases he : key = key2
    · rw [if_pos he] at hm
      simp only [Option.getD_some] at hm
      rcases List.mem_append.mp hm with h1 | h2
      · exact hst key m h1
      · rw [List.mem_singleton.mp h2]
        exact hv
    · rw [if_neg he] at hm
      exact hst key2 m hm
  unfold addFunction
  cases hrecv : f.receiver with
  | none =>
    exact ⟨hqtf, hpush _ f.name (f.qualified_name, p) h.2 hq⟩
  | some recv =>
    refine ⟨hqtf, ?_⟩
    exact hpush _ (recv ++ "." ++ f.name) (f.qualified_name, p)
      (hpush _ f.name (f.qualified_name, p) h.2 hq) hq

theorem mem_qualifiedNames (files : Files) (pe : String × FileEntry)
    (f : Function) (hpe : pe ∈ files) (hf : f ∈ pe.2.functions) :
    f.qualified_name ∈ qualifiedNames files := by
  unfold qualifiedNames allFunctions allFunctionsWithPath
  rw [List.map_map, List.mem_map]
  exact ⟨(pe.1, f), List.mem_flatMap.mpr ⟨pe, hpe,
    List.mem_map.mpr ⟨f, hf, rfl⟩⟩, rfl⟩

theorem build_symbol_table_ok (files : Files) :
    ResolverOK (build_symbol_table files) (qualifiedNames files) := by
  unfold build_symbol_table
  refine foldl_preserve (fun r => ResolverOK r (qualifiedNames files)) _
    files Resolver.new ?_ ?_
  · constructor
    · intro k hk
      cases hk
    · intro key m hm
      cases hm
  · intro r pe hpe hr
    refine foldl_preserve (fun r2 => ResolverOK r2 (qualifiedNames files)) _
      pe.2.functions r hr ?_
    intro r2 f hf hr2
    exact addFunction_ok r2 _ pe.1 f (mem_qualifiedNames files pe f hpe hf) hr2

theorem find_single_match_ok (r : Resolver) (qns : List String)
    (h : ∀ key m, m ∈ (lookupKV r.symbol_table key).getD [] →
      (m : String × String).1 ∈ qns) (key : String) :
    find_single_match r key = "[unresolved]" ∨
      find_single_match r key ∈ qns := by
  unfold find_single_match
  cases hl : lookupKV r.symbol_table key with
  | none => exact Or.inl rfl
  | some ms =>
    match ms with
    | [] => exact Or.inl rfl
    | [m] =>
      refine Or.inr (h key m ?_)
      rw [hl]
      simp
    | m1 :: m2 :: rest => exact Or.inl rfl

theorem resolveParts_ok (r : Resolver) (qns : List String)
    (h : ResolverOK r qns) (pkg : String) (parts : List String) :
    resolveParts r pkg parts = "[unresolved]" ∨
      resolveParts r pkg parts ∈ qns := by
  unfold resolveParts
  split
  · split
    · next hc => exact Or.inr (h.1 _ hc)
    · exact find_single_match_ok r qns h.2 _
  · split
    · next hc => exact Or.inr (h.1 _ hc)
    · split
      · next hc => exact Or.inr (h.1 _ hc)
      · exact find_single_match_ok r qns h.2 _
  · exact find_single_match_ok r qns h.2 _

theorem resolve_call_ok (r : Resolver) (qns : List String)
    (h : ResolverOK r qns) (raw pkg : String) :
    resolve_call r raw pkg = "[unresolved]" ∨
      resolve_call r raw pkg ∈ qns :=
  resolveParts_ok r qns h pkg (splitSep '.' raw)

/-! ### Shape lemmas for the two passes of `resolve` -/

theorem allFunctions_nil : allFunctions [] = [] := rfl

theorem allFunctions_cons (pe : String × FileEntry) (rest : Files) :
    allFunctions (pe :: rest) = pe.2.functions ++ allFunctions rest := by
  unfold allFunctions allFunctionsWithPath
  rw [List.flatMap_cons, List.map_append, List.map_map]
  congr 1
  exact List.map_id _

theorem qualifiedNames_cons (pe : String × FileEntry) (rest : Files) :
    qualifiedNames (pe :: rest) =
      pe.2.functions.map (fun f => f.qualified_name) ++ qualifiedNames rest := by
  unfold qualifiedNames
  rw [allFunctions_cons, List.map_append]

theorem mem_allFunctions (files : Files) (f2 : Function) :
    f2 ∈ allFunctions files ↔ ∃ pe ∈ files, f2 ∈ pe.2.functions := by
  induction files with
  | nil => simp [allFunctions_nil]
  | cons pe rest ih =>
    rw [allFunctions_cons, List.mem_append, ih]
    constructor
    · intro hc
      rcases hc with h1 | ⟨pe2, hpe2, hf⟩
      · exact ⟨pe, by simp, h1⟩
      · exact ⟨pe2, by simp [hpe2], hf⟩
    · intro ⟨pe2, hpe2, hf⟩
      rcases List.mem_cons.mp hpe2 with h1 | h2
      · exact Or.inl (h1 ▸ hf)
      · exact Or.inr ⟨pe2, h2, hf⟩

theorem qualifiedNames_mapShape (files : Files)
    (g : String × FileEntry → Function → Function)
    (h : ∀ pe f, (g pe f).qualified_name = f.qualified_name) :
    qualifiedNames (files.map fun pe =>
      (pe.1, { pe.2 with functions := pe.2.functions.map (g pe) })) =
      qualifiedNames files := by
  induction files with
  | nil => rfl
  | cons pe rest ih =>
    rw [List.map_cons, qualifiedNames_cons, qualifiedNames_cons, ih]
    congr 1
    show (pe.2.functions.map (g pe)).map (fun f => f.qualified_name) = _
    rw [List.map_map]
    exact List.map_congr_left fun f _ => h pe f

theorem mem_allFunctions_mapShape (files : Files)
    (g : String × FileEntry → Function → Function) (f2 : Function) :
    f2 ∈ allFunctions (files.map fun pe =>
      (pe.1, { pe.2 with functions := pe.2.functions.map (g pe) })) ↔
      ∃ pe ∈ files, ∃ f ∈ pe.2.functions, f2 = g pe f := by
  rw [mem_allFunctions]
  constructor
  · intro ⟨pe2, hpe2, hf⟩
    obtain ⟨pe, hpe, hpe_eq⟩ := List.mem_map.mp hpe2
    subst hpe_eq
    obtain ⟨f, hf0, hf_eq⟩ := List.mem_map.mp hf
    exact ⟨pe, hpe, f, hf0, hf_eq.symm⟩
  · intro ⟨pe, hpe, f, hf, hf2⟩
    refine ⟨(pe.1, { pe.2 with functions := pe.2.functions.map (g pe) }),
      List.mem_map.mpr ⟨pe, hpe, rfl⟩, ?_⟩
    exact List.mem_map.mpr ⟨f, hf, hf2.symm⟩

/-- The first-pass transformer of one function, as used on the entry
`pe`. -/
def targetsFn (r : Resolver) (pe : String × FileEntry) (f : Function) :
    Function :=
  { f with calls := f.calls.map fun c =>
      { c with target := resolve_call r c.raw (entryPkg pe.2) } }

/-- The second-pass transformer of one function. -/
def calledByFn (pairs : List (String × String)) (_pe : String × FileEntry)
    (f : Function) : Function :=
  if (callersOf pairs f.qualified_name).isEmpty then f
  else { f with called_by := dedupAdj (sortStrings (callersOf pairs f.qualified_name)) }

theorem resolveTargets_eq_mapShape (r : Resolver) (files : Files) :
    resolveTargets r files = files.map fun pe =>
      (pe.1, { pe.2 with functions := pe.2.functions.map (targetsFn r pe) }) :=
  rfl

theorem applyCalledBy_eq_mapShape (pairs : List (String × String))
    (files : Files) :
    applyCalledBy pairs files = files.map fun pe =>
      (pe.1, { pe.2 with functions := pe.2.functions.map (calledByFn pairs pe) }) := by
  unfold applyCalledBy calledByFn
  rfl

theorem calledByFn_qualified_name (pairs : List (String × String))
    (pe : String × FileEntry) (f : Function) :
    (calledByFn pairs pe f).qualified_name = f.qualified_name := by
  unfold calledByFn
  split <;> rfl

theorem calledByFn_calls (pairs : List (String × String))
    (pe : String × FileEntry) (f : Function) :
    (calledByFn pairs pe f).calls = f.calls := by
  unfold calledByFn
  split <;> rfl

/-- Claim C2: after `Resolver::resolve` runs on an index whose symbol
table was built from that same index, every call-site target is either
the sentinel `[unresolved]` or the qualified name of a function present
in the index. -/
theorem resolve_targets_in_index (files : Files) :
    ∀ f ∈ allFunctions (resolveIndex files), ∀ c ∈ f.calls,
      c.target = "[unresolved]" ∨
        c.target ∈ qualifiedNames (resolveIndex files) := by
  intro f hf c hc
  have hqn : qualifiedNames (resolveIndex files) = qualifiedNames files := by
    show qualifiedNames (applyCalledBy _ (resolveTargets _ files)) = _
    rw [applyCalledBy_eq_mapShape, qualifiedNames_mapShape _ _
      (calledByFn_qualified_name _), resolveTargets_eq_mapShape,
      qualifiedNames_mapShape files (targetsFn (build_symbol_table files))
        (fun pe f2 => rfl)]
  rw [hqn]
  have hf2 : f ∈ allFunctions (applyCalledBy
      (calledPairs (resolveTargets (build_symbol_table files) files))
      (resolveTargets (build_symbol_table files) files)) := hf
  rw [applyCalledBy_eq_mapShape, mem_allFunctions_mapShape] at hf2
  obtain ⟨pe1, hpe1, f1, hf1, hfeq⟩ := hf2
  have hcalls : f.calls = f1.calls := by rw [hfeq, calledByFn_calls]
  rw [hcalls] at hc
  obtain ⟨pe, hpe, hpe1eq⟩ := List.mem_map.mp hpe1
  subst hpe1eq
  obtain ⟨f0, hf0, hf0eq⟩ := List.mem_map.mp hf1
  rw [← hf0eq] at hc
  obtain ⟨c0, hc0, hceq⟩ := List.mem_map.mp hc
  have ht : c.target = resolve_call (build_symbol_table files) c0.raw
      (entryPkg pe.2) := by rw [← hceq]
  rw [ht]
  exact resolve_call_ok _ _ (build_symbol_table_ok files) _ _

/-! ### `called_by` lemmas (claim C4) -/

theorem mem_dedupAdj (l : List String) (x : String) :
    x ∈ dedupAdj l ↔ x ∈ l := by
  induction l using dedupAdj.induct with
  | case1 => simp [dedupAdj]
  | case2 a => simp [dedupAdj]
  | case3 b rest ih =>
    rw [dedupAdj, if_pos rfl, ih]
    simp
  | case4 a b rest hab ih =>
    rw [dedupAdj, if_neg hab]
    simp only [List.mem_cons, ih]

theorem sorted_dedupAdj (l : List String)
    (h : List.Sorted (fun a b => a ≤ b) l) :
    List.Sorted (fun a b => a ≤ b) (dedupAdj l) := by
  induction l using dedupAdj.induct with
  | case1 => exact h
  | case2 a => exact h
  | case3 b rest ih =>
    rw [dedupAdj, if_pos rfl]
    exact ih (List.sorted_cons.mp h).2
  | case4 a b rest hab ih =>
    rw [dedupAdj, if_neg hab]
    rw [List.sorted_cons]
    obtain ⟨ha, hrest⟩ := List.sorted_cons.mp h
    exact ⟨fun y hy => ha y ((mem_dedupAdj _ y).mp hy), ih hrest⟩

theorem nodup_dedupAdj (l : List String)
    (h : List.Sorted (fun a b => a ≤ b) l) : (dedupAdj l).Nodup := by
  induction l using dedupAdj.induct with
  | case1 => exact List.nodup_nil
  | case2 a => exact List.nodup_singleton a
  | case3 b rest ih =>
    rw [dedupAdj, if_pos rfl]
    exact ih (List.sorted_cons.mp h).2
  | case4 a b rest hab ih =>
    rw [dedupAdj, if_neg hab]
    obtain ⟨ha, hrest⟩ := List.sorted_cons.mp h
    refine List.nodup_cons.mpr ⟨?_, ih hrest⟩
    intro hmem
    have hmem2 : a ∈ b :: rest := (mem_dedupAdj _ a).mp hmem
    rcases List.mem_cons.mp hmem2 with h1 | h2
    · exact hab h1
    · have h3 : b ≤ a := (List.sorted_cons.mp hrest).1 a h2
      have h4 : a ≤ b := ha b (by simp)
      exact hab (le_antisymm h4 h3)

theorem mem_sortStrings (l : List String) (x : String) :
    x ∈ sortStrings l ↔ x ∈ l :=
  (List.perm_insertionSort _ l).mem_iff

theorem sorted_sortStrings (l : List String) :
    List.Sorted (fun a b => a ≤ b) (sortStrings l) :=
  List.sorted_insertionSort _ l

theorem mem_calledPairs (files : Files) (t caller : String) :
    (t, caller) ∈ calledPairs files ↔
      ∃ pe ∈ files, ∃ f ∈ pe.2.functions, f.qualified_name = caller ∧
        ∃ c ∈ f.calls, c.target = t ∧ c.target ≠ "[unresolved]" := by
  unfold calledPairs
  rw [List.mem_flatMap]
  constructor
  · intro ⟨pe, hpe, hin⟩
    rw [List.mem_flatMap] at hin
    obtain ⟨f, hf, hc⟩ := hin
    rw [List.mem_filterMap] at hc
    obtain ⟨c, hc0, heq⟩ := hc
    by_cases hu : c.target = "[unresolved]"
    · rw [if_pos hu] at heq
      cases heq
    · rw [if_neg hu] at heq
      have h1 : c.target = t := congrArg Prod.fst (Option.some.inj heq)
      have h2 : f.qualified_name = caller :=
        congrArg Prod.snd (Option.some.inj heq)
      exact ⟨pe, hpe, f, hf, h2, c, hc0, h1, hu⟩
  · intro ⟨pe, hpe, f, hf, hqn, c, hc, ht, hu⟩
    refine ⟨pe, hpe, ?_⟩
    rw [List.mem_flatMap]
    refine ⟨f, hf, ?_⟩
    rw [List.mem_filterMap]
    refine ⟨c, hc, ?_⟩
    rw [if_neg hu, ht, hqn]

theorem mem_callersOf (pairs : List (String × String)) (t u : String) :
    u ∈ callersOf pairs t ↔ (t, u) ∈ pairs := by
  unfold callersOf
  rw [List.mem_map]
  constructor
  · intro ⟨p, hp, hsnd⟩
    have hfilt := List.mem_filter.mp hp
    have hfst : p.1 = t := by simpa using hfilt.2
    have hmem : p ∈ pairs := hfilt.1
    have : p = (t, u) := by
      cases p
      simp only at hfst hsnd
      rw [hfst, hsnd]
    exact this ▸ hmem
  · intro hp
    exact ⟨(t, u), List.mem_filter.mpr ⟨hp, by simp⟩, rfl⟩

/-- Claim C4 (amended): after `Resolver::resolve` on an index whose
functions start with empty `called_by` lists (as the parser produces
them), every resolved call edge `u → v` puts `u` into `called_by(v)`,
and every function's `called_by` list is sorted in ascending order with
no duplicates. -/
theorem resolve_called_by_complete (r : Resolver) (files : Files)
    (hcb : ∀ f ∈ allFunctions files, f.called_by = []) :
    (∀ f ∈ allFunctions (r.resolve files), ∀ c ∈ f.calls,
        c.target ≠ "[unresolved]" →
        ∀ g ∈ allFunctions (r.resolve files),
          g.qualified_name = c.target →
          f.qualified_name ∈ g.called_by) ∧
    (∀ g ∈ allFunctions (r.resolve files),
        List.Sorted (fun a b => a ≤ b) g.called_by ∧ g.called_by.Nodup) := by
  constructor
  · intro f hf c hc hne g hg hgqn
    have hf2 := hf
    rw [show r.resolve files = applyCalledBy
        (calledPairs (resolveTargets r files)) (resolveTargets r files)
      from rfl, applyCalledBy_eq_mapShape, mem_allFunctions_mapShape] at hf2
    obtain ⟨pe1, hpe1, f1, hf1, hfeq⟩ := hf2
    have hfc : f.calls = f1.calls := by rw [hfeq, calledByFn_calls]
    have hfqn : f.qualified_name = f1.qualified_name := by
      rw [hfeq, calledByFn_qualified_name]
    rw [hfc] at hc
    have hpair : (c.target, f1.qualified_name) ∈
        calledPairs (resolveTargets r files) :=
      (mem_calledPairs _ _ _).mpr ⟨pe1, hpe1, f1, hf1, rfl, c, hc, rfl, hne⟩
    have hg2 := hg
    rw [show r.resolve files = applyCalledBy
        (calledPairs (resolveTargets r files)) (resolveTargets r files)
      from rfl, applyCalledBy_eq_mapShape, mem_allFunctions_mapShape] at hg2
    obtain ⟨pe2, hpe2, g1, hg1, hgeq⟩ := hg2
    have hg1qn : g1.qualified_name = c.target := by
      rw [hgeq, calledByFn_qualified_name] at hgqn
      exact hgqn
    have hcallers : f1.qualified_name ∈
        callersOf (calledPairs (resolveTargets r files)) g1.qualified_name := by
      rw [hg1qn]
      exact (mem_callersOf _ _ _).mpr hpair
    have hnonempty : ¬((callersOf (calledPairs (resolveTargets r files))
        g1.qualified_name).isEmpty = true) := by
      intro hemp
      rw [List.isEmpty_iff.mp hemp] at hcallers
      cases hcallers
    rw [hfqn, hgeq]
    unfold calledByFn
    rw [if_neg hnonempty]
    exact (mem_dedupAdj _ _).mpr ((mem_sortStrings _ _).mpr hcallers)
  · intro g hg
    have hg2 := hg
    rw [show r.resolve files = applyCalledBy
        (calledPairs (resolveTargets r files)) (resolveTargets r files)
      from rfl, applyCalledBy_eq_mapShape, mem_allFunctions_mapShape] at hg2
    obtain ⟨pe2, hpe2, g1, hg1, hgeq⟩ := hg2
    obtain ⟨pe0, hpe0, hpe2eq⟩ := List.mem_map.mp hpe2
    subst hpe2eq
    obtain ⟨g0, hg0, hg0eq⟩ := List.mem_map.mp hg1
    have hg1cb : g1.called_by = [] := by
      rw [← hg0eq]
      exact hcb g0 ((mem_allFunctions files g0).mpr ⟨pe0, hpe0, hg0⟩)
    rw [hgeq]
    unfold calledByFn
    by_cases hemp : (callersOf (calledPairs (resolveTargets r files))
        g1.qualified_name).isEmpty = true
    · rw [if_pos hemp, hg1cb]
      exact ⟨List.sorted_nil, List.nodup_nil⟩
    · rw [if_neg hemp]
      exact ⟨sorted_dedupAdj _ (sorted_sortStrings _),
        nodup_dedupAdj _ (sorted_sortStrings _)⟩

/-! ### Concrete indexes for witnesses and counterexamples -/

/-- A minimal Go-style function record. -/
def mkFn (name qn : String) (calls : List CallSite) (cb : List String) :
    Function :=
  { name := name, qualified_name := qn, ast_hash := "h" ++ name,
    line_start := 1, line_end := 3, signature := "func " ++ name ++ "()",
    summary := none, embedding := none, receiver := none,
    scope := .internal, calls := calls, called_by := cb }

/-- Two functions in one package, `bar` calling `foo` by simple name. -/
def c2Files : Files :=
  [("./cmd/app/main.go",
    { ast_hash := "abc",
      functions := [mkFn "foo" "m.foo" [] [],
        mkFn "bar" "m.bar" [{ target := "[unresolved]", raw := "foo", line := 5 }] []],
      types := [] })]

/-- Witness for `resolve_targets_in_index`: the resolved `bar` call
targets `m.foo`, a function of the index. -/
theorem resolve_targets_in_index_witness :
    ∃ f, f ∈ allFunctions (resolveIndex c2Files) ∧ ∃ c, c ∈ f.calls ∧
      (c.target = "[unresolved]" ∨
        c.target ∈ qualifiedNames (resolveIndex c2Files)) :=
  ⟨mkFn "bar" "m.bar" [{ target := "m.foo", raw := "foo", line := 5 }] [],
    by decide,
    { target := "m.foo", raw := "foo", line := 5 },
    by decide,
    resolve_targets_in_index c2Files
      (mkFn "bar" "m.bar" [{ target := "m.foo", raw := "foo", line := 5 }] [])
      (by decide)
      { target := "m.foo", raw := "foo", line := 5 } (by decide)⟩

/-- An index whose single function carries a stale, unsorted `called_by`
and has no callers. -/
def c4Files : Files :=
  [("a.go",
    { ast_hash := "x",
      functions := [mkFn "v" "p.v" [] ["b", "a"]],
      types := [] })]

/-- Claim C4 counterexample: on an index whose function starts with the
unsorted `called_by` list `["b", "a"]` and receives no resolved callers,
`Resolver::resolve` leaves the list unsorted, so the claim fails as
stated for arbitrary indexes. -/
theorem resolve_called_by_counterexample :
    ∃ g, g ∈ allFunctions ((build_symbol_table c4Files).resolve c4Files) ∧
      ¬(List.Sorted (fun a b => a ≤ b) g.called_by ∧ g.called_by.Nodup) := by
  refine ⟨mkFn "v" "p.v" [] ["b", "a"], by decide, ?_⟩
  intro ⟨hs, _⟩
  have hba : ("b" : String) ≤ "a" := by
    have := (List.sorted_cons.mp hs).1
    exact this "a" (by simp [mkFn])
  rw [String.le_iff_toList_le] at hba
  exact absurd hba (by decide)

/-- Witness for `resolve_called_by_complete` on the `c2Files` index:
every hypothesis is discharged at this concrete input. -/
theorem resolve_called_by_complete_witness :
    (∀ f ∈ allFunctions ((build_symbol_table c2Files).resolve c2Files),
      ∀ c ∈ f.calls, c.target ≠ "[unresolved]" →
        ∀ g ∈ allFunctions ((build_symbol_table c2Files).resolve c2Files),
          g.qualified_name = c.target →
          f.qualified_name ∈ g.called_by) ∧
    (∀ g ∈ allFunctions ((build_symbol_table c2Files).resolve c2Files),
        List.Sorted (fun a b => a ≤ b) g.called_by ∧ g.called_by.Nodup) :=
  resolve_called_by_complete (build_symbol_table c2Files) c2Files (by decide)

/-! ### Claim C3: the namespace separator used by `resolve_call` -/

theorem splitSepChars_no_sep (sep : Char) (s : List Char) (h : sep ∉ s) :
    splitSepChars sep s = [s] := by
  induction s with
  | nil => rfl
  | cons c cs ih =>
    have hc : ¬c = sep := fun he => h (he ▸ List.mem_cons_self c cs)
    have hcs : sep ∉ cs := fun hm => h (List.mem_cons_of_mem c hm)
    rw [splitSepChars, ih hcs]
    show (if c = sep then [[], cs] else [c :: cs]) = [c :: cs]
    rw [if_neg hc]

theorem splitSep_no_dot (raw : String) (h : ¬ '.' ∈ raw.toList) :
    splitSep '.' raw = [raw] := by
  unfold splitSep
  rw [splitSepChars_no_sep '.' raw.toList h, List.map_cons, List.map_nil,
    String.asString_toList]

/-- Claim C3 (amended): `resolve_call` splits the raw call expression on
a dot for every call site of every language; the double-colon separator
of nested-module languages is never consulted, so a dotless raw (such as
a Rust `::` path) is processed as a single part. -/
theorem resolve_call_splits_on_dot (r : Resolver) (raw pkg : String)
    (h : ¬ '.' ∈ raw.toList) :
    resolve_call r raw pkg =
      if containsKV r.qualified_to_file (pkg ++ "." ++ raw) then
        pkg ++ "." ++ raw
      else find_single_match r raw := by
  unfold resolve_call
  rw [splitSep_no_dot raw h]
  rfl

/-- Fuel-indexed worker for `splitOnSepChars`; the fuel bounds the number
of consumed characters, so `s.length` is always enough. -/
def splitOnAux (sep : List Char) : Nat → List Char → List (List Char)
  | _, [] => [[]]
  | 0, s => [s]
  | fuel + 1, c :: cs =>
    if sep.isPrefixOf (c :: cs) then
      [] :: splitOnAux sep fuel ((c :: cs).drop sep.length)
    else
      match splitOnAux sep fuel cs with
      | [] => [[c]]
      | p :: r => (c :: p) :: r

/-- Split a character list on a non-overlapping multi-character
separator, leftmost-first: Rust `str::split` with a string pattern (only
used with a non-empty separator). -/
def splitOnSepChars (sep s : List Char) : List (List Char) :=
  if sep.isEmpty then [s] else splitOnAux sep s.length s

/-- `str::split` with a string separator. -/
def splitOnStr (sep s : String) : List String :=
  (splitOnSepChars sep.toList s.toList).map List.asString

/-- The resolution algorithm as the spec words it (§4.2), with the
language's namespace separator as a parameter: the comparison point for
claim C3.  For a nested-module language the separator is `::`. -/
def resolvePartsSpec (sep : String) (r : Resolver) (pkg : String)
    (parts : List String) : String :=
  match parts with
  | [name] =>
    if containsKV r.qualified_to_file (pkg ++ sep ++ name) then
      pkg ++ sep ++ name
    else find_single_match r name
  | [first, second] =>
    if containsKV r.qualified_to_file (first ++ sep ++ second) then
      first ++ sep ++ second
    else if containsKV r.qualified_to_file
        (pkg ++ sep ++ first ++ sep ++ second) then
      pkg ++ sep ++ first ++ sep ++ second
    else find_single_match r (first ++ sep ++ second)
  | _ =>
    find_single_match r
      ((parts.getD (parts.length - 2) "") ++ sep ++ ((parts.getLast?).getD ""))

/-- Spec-worded `resolve_call` over a configurable separator. -/
def resolve_call_spec (sep : String) (r : Resolver) (raw pkg : String) :
    String :=
  resolvePartsSpec sep r pkg (splitOnStr sep raw)

/-- A Rust-style index: module `m` with `f` and `g`, where `g` calls
`m::f`. -/
def c3Files : Files :=
  [("src/m.rs",
    { ast_hash := "r1",
      functions := [mkFn "f" "m::f" [] [],
        mkFn "g" "m::g" [{ target := "[unresolved]", raw := "m::f", line := 3 }] []],
      types := [] })]

/-- Claim C3 counterexample: the implemented resolver splits `m::f` on
dots (one part) and leaves it `[unresolved]`, while the spec's rule with
the nested-module separator `::` resolves it to `m::f`. -/
theorem resolve_separator_counterexample :
    (∃ f, f ∈ allFunctions (resolveIndex c3Files) ∧ ∃ c, c ∈ f.calls ∧
      c.raw = "m::f" ∧ c.target = "[unresolved]") ∧
    resolve_call_spec "::" (build_symbol_table c3Files) "m::f" "m" = "m::f" ∧
    ("m::f" : String) ≠ "[unresolved]" :=
  ⟨⟨mkFn "g" "m::g" [{ target := "[unresolved]", raw := "m::f", line := 3 }] [],
    by decide,
    { target := "[unresolved]", raw := "m::f", line := 3 },
    by decide, rfl, rfl⟩,
   by decide, by decide⟩

/-- Witness for `resolve_call_splits_on_dot` at the Rust-style call
`m::f`. -/
theorem resolve_call_splits_on_dot_witness :
    resolve_call (build_symbol_table c3Files) "m::f" "m" =
      if containsKV (build_symbol_table c3Files).qualified_to_file
          ("m" ++ "." ++ "m::f") then "m" ++ "." ++ "m::f"
      else find_single_match (build_symbol_table c3Files) "m::f" :=
  resolve_call_splits_on_dot (build_symbol_table c3Files) "m::f" "m"
    (by decide)

/-! ### Claim C8: ambiguity resolves to `[unresolved]` -/

/-- The `(qualified_name, file_path)` entries the symbol table holds for
a simple-name key. -/
def nameEntries (files : Files) (key : String) : List (String × String) :=
  ((allFunctionsWithPath files).filter fun pf => pf.2.name = key).map
    fun pf => (pf.2.qualified_name, pf.1)

theorem addFunction_symtab (r : Resolver) (p : String) (f : Function)
    (key : String) (hnd : ¬ '.' ∈ key.toList) :
    (lookupKV (addFunction r p f).symbol_table key).getD [] =
      (lookupKV r.symbol_table key).getD [] ++
        (if f.name = key then [(f.qualified_name, p)] else []) := by
  have hbase : ∀ (st : List (String × List (String × String))),
      (lookupKV (pushKV st f.name (f.qualified_name, p)) key).getD [] =
        (lookupKV st key).getD [] ++
          (if f.name = key then [(f.qualified_name, p)] else []) := by
    intro st
    rw [lookupKV_pushKV]
    by_cases he : f.name = key
    · rw [if_pos he, if_pos he, he]
      simp
    · rw [if_neg he, if_neg he]
      simp
  unfold addFunction
  cases hrecv : f.receiver with
  | none => exact hbase r.symbol_table
  | some recv =>
    have hne : ¬(recv ++ "." ++ f.name) = key := by
      intro he
      apply hnd
      rw [← he]
      simp [String.toList]
    show (lookupKV (pushKV _ (recv ++ "." ++ f.name) _) key).getD [] = _
    rw [lookupKV_pushKV, if_neg hne]
    exact hbase r.symbol_table

theorem foldAddFns_symtab (fns : List Function) (p : String) (r0 : Resolver)
    (key : String) (hnd : ¬ '.' ∈ key.toList) :
    (lookupKV (fns.foldl (fun r2 f => addFunction r2 p f) r0).symbol_table
      key).getD [] =
      (lookupKV r0.symbol_table key).getD [] ++
        ((fns.filter fun f => f.name = key).map
          fun f => (f.qualified_name, p)) := by
  induction fns generalizing r0 with
  | nil => simp
  | cons f fs ih =>
    rw [List.foldl_cons, ih (addFunction r0 p f),
      addFunction_symtab r0 p f key hnd]
    by_cases he : f.name = key
    · rw [if_pos he, List.filter_cons_of_pos (by simp [he]), List.map_cons,
        List.append_assoc]
      rfl
    · rw [if_neg he, List.filter_cons_of_neg (by simp [he]), List.append_nil]

theorem nameEntries_cons (pe : String × FileEntry) (rest : Files)
    (key : String) :
    nameEntries (pe :: rest) key =
      ((pe.2.functions.filter fun f => f.name = key).map
        fun f => (f.qualified_name, pe.1)) ++ nameEntries rest key := by
  unfold nameEntries allFunctionsWithPath
  rw [List.flatMap_cons, List.filter_append, List.map_append]
  congr 1
  rw [List.filter_map, List.map_map]
  rfl

theorem build_symtab_lookup (files : Files) (key : String)
    (hnd : ¬ '.' ∈ key.toList) :
    (lookupKV (build_symbol_table files).symbol_table key).getD [] =
      nameEntries files key := by
  unfold build_symbol_table
  suffices h : ∀ r0 : Resolver,
      (lookupKV (files.foldl
        (fun r pe => pe.2.functions.foldl (fun r2 f => addFunction r2 pe.1 f) r)
        r0).symbol_table key).getD [] =
      (lookupKV r0.symbol_table key).getD [] ++ nameEntries files key by
    have h2 := h Resolver.new
    rw [h2]
    rfl
  induction files with
  | nil =>
    intro r0
    simp [nameEntries, allFunctionsWithPath]
  | cons pe rest ih =>
    intro r0
    rw [List.foldl_cons, ih _, foldAddFns_symtab _ _ _ key hnd,
      nameEntries_cons, List.append_assoc]

theorem count_names_eq (files : Files) (key : String) :
    ((allFunctions files).filter fun f => f.name = key).length =
      (nameEntries files key).length := by
  unfold allFunctions nameEntries
  rw [List.filter_map, List.length_map, List.length_map]
  rfl

/-- Claim C8: a symbol-table key with two or more candidates always
resolves to `[unresolved]` through `find_single_match`; hence a
simple-name call with two or more functions of that name
repository-wide, none matching the caller's package, resolves to
`[unresolved]`. -/
theorem ambiguous_resolves_unresolved :
    (∀ (r : Resolver) (key : String) (ms : List (String × String)),
      lookupKV r.symbol_table key = some ms → 2 ≤ ms.length →
      find_single_match r key = "[unresolved]") ∧
    (∀ (files : Files) (raw pkg : String), ¬ '.' ∈ raw.toList →
      containsKV (build_symbol_table files).qualified_to_file
        (pkg ++ "." ++ raw) = false →
      2 ≤ ((allFunctions files).filter fun f => f.name = raw).length →
      resolve_call (build_symbol_table files) raw pkg = "[unresolved]") := by
  have part1 : ∀ (r : Resolver) (key : String) (ms : List (String × String)),
      lookupKV r.symbol_table key = some ms → 2 ≤ ms.length →
      find_single_match r key = "[unresolved]" := by
    intro r key ms hl hlen
    unfold find_single_match
    rw [hl]
    rcases ms with _ | ⟨m1, _ | ⟨m2, rest⟩⟩
    · simp only [List.length_nil] at hlen
      omega
    · simp only [List.length_cons, List.length_nil] at hlen
      omega
    · rfl
  refine ⟨part1, ?_⟩
  intro files raw pkg hdot hpkg hcount
  rw [resolve_call_splits_on_dot _ raw pkg hdot, if_neg (by rw [hpkg]; simp)]
  have hentries := build_symtab_lookup files raw hdot
  rw [count_names_eq files raw] at hcount
  cases hl : lookupKV (build_symbol_table files).symbol_table raw with
  | none =>
    rw [hl] at hentries
    simp only [Option.getD_none] at hentries
    rw [← hentries] at hcount
    simp only [List.length_nil] at hcount
    omega
  | some ms =>
    refine part1 _ raw ms hl ?_
    rw [hl] at hentries
    simp only [Option.getD_some] at hentries
    rw [hentries]
    exact hcount

/-- Two `Helper` functions in different packages and no same-package
match. -/
def c8Files : Files :=
  [("a/x.go",
    { ast_hash := "a1",
      functions := [mkFn "Helper" "a.Helper" [] []],
      types := [] }),
   ("b/y.go",
    { ast_hash := "b1",
      functions := [mkFn "Helper" "b.Helper" [] []],
      types := [] })]

/-- Witness for `ambiguous_resolves_unresolved`: the ambiguous simple
name `Helper` resolves to `[unresolved]` from package `cmd`. -/
theorem ambiguous_resolves_unresolved_witness :
    resolve_call (build_symbol_table c8Files) "Helper" "cmd" =
      "[unresolved]" :=
  ambiguous_resolves_unresolved.2 c8Files "Helper" "cmd" (by decide)
    (by decide) (by decide)

/-! ## Topology engine (`src/topo.rs`)

The vertex set is the set of qualified names (`functions`), the edges
the resolved-callee map (`calls`).  `BTreeSet` iteration is modelled by
sorting a deduplicated list with a computable character-wise comparison
(`strLe`, the codepoint order, which agrees with Rust byte order on
UTF-8).  Depth-first search returns its forest, from which the finish
order (postorder) and component collections are read off. -/

/-- Computable lexicographic comparison of character lists. -/
def listLeChar : List Char → List Char → Bool
  | [], _ => true
  | _ :: _, [] => false
  | a :: as, b :: bs =>
    if a < b then true else if b < a then false else listLeChar as bs

/-- Computable lexicographic string order (Rust `String` `Ord`). -/
def strLe (a b : String) : Prop := listLeChar a.toList b.toList = true

instance : DecidableRel strLe := fun a b =>
  inferInstanceAs (Decidable (_ = true))

/-- Sorted, duplicate-free vertex list: `BTreeSet` iteration order. -/
def sortedNodup (l : List String) : List String :=
  l.dedup.insertionSort strLe

/-- The callee list of one caller (`calls.get(u)`), empty when absent. -/
def calleesOf (calls : List (String × List String)) (u : String) :
    List String :=
  (lookupKV calls u).getD []

/-- A depth-first search tree. -/
inductive DTree : Type
  | node (label : String) (children : List DTree)
deriving Repr

/-- Depth-first search over a successor function.  `A` is the unvisited
("allowed") vertex set; the result is the remaining unvisited set and
the forest grown from `roots`, in order.  A vertex is emitted to the
finish order after its children (postorder), exactly as `dfs_first`
pushes after its recursion; `dfs_second` collects the same vertex sets. -/
def dfsList (succ : String → List String) (roots : List String)
    (A : List String) :
    {r : List String × List DTree // r.1.length ≤ A.length} :=
  match roots with
  | [] => ⟨(A, []), Nat.le_refl _⟩
  | u :: us =>
    if hu : u ∈ A then
      match dfsList succ (succ u) (A.erase u) with
      | ⟨(A1, F1), h1⟩ =>
        match dfsList succ us A1 with
        | ⟨(A2, F2), h2⟩ =>
          ⟨(A2, .node u F1 :: F2), by
            show A2.length ≤ A.length
            have h1b : A1.length ≤ (A.erase u).length := h1
            have h2b : A2.length ≤ A1.length := h2
            have h3 : (A.erase u).length + 1 = A.length :=
              List.length_erase_add_one hu
            omega⟩
    else
      dfsList succ us A
termination_by (A.length, roots.length)
decreasing_by
  · have h3 : (A.erase u).length + 1 = A.length :=
      List.length_erase_add_one hu
    exact Prod.Lex.left _ _ (by omega)
  · have h1b : A1.length ≤ (A.erase u).length := h1
    have h3 : (A.erase u).length + 1 = A.length :=
      List.length_erase_add_one hu
    exact Prod.Lex.left _ _ (by omega)
  · exact Prod.Lex.right _ (Nat.lt_succ_self _)

mutual

/-- Postorder (finish order) of one DFS tree. -/
def postT : DTree → List String
  | .node u ch => postF ch ++ [u]

/-- Postorder (finish order) of a DFS forest. -/
def postF : List DTree → List String
  | [] => []
  | t :: ts => postT t ++ postF ts

end

mutual

/-- Preorder (discovery order) of one DFS tree. -/
def preT : DTree → List String
  | .node u ch => u :: preF ch

/-- Preorder (discovery order) of a DFS forest. -/
def preF : List DTree → List String
  | [] => []
  | t :: ts => preT t ++ preF ts

end

/-- The second Kosaraju pass: walk the reverse finish order; each still
unvisited root contributes one strongly-connected component (the vertex
set of its reverse-DFS tree). -/
def sccLoop (rsucc : String → List String) (roots : List String)
    (A : List String) : List (List String) :=
  match roots with
  | [] => []
  | rt :: rts =>
    if rt ∈ A then
      match dfsList rsucc [rt] A with
      | ⟨(A1, F1), h1⟩ => preF F1 :: sccLoop rsucc rts A1
    else
      sccLoop rsucc rts A
termination_by (A.length, roots.length)
decreasing_by
  · have h1b : A1.length ≤ A.length := h1
    rcases Nat.lt_or_ge A1.length A.length with h | h
    · exact Prod.Lex.left _ _ h
    · have he : A1.length = A.length := Nat.le_antisymm h1b h
      rw [he]
      exact Prod.Lex.right _ (Nat.lt_succ_self _)
  · exact Prod.Lex.right _ (Nat.lt_succ_self _)

/-- The sorted callee list used by `dfs_first` (membership in
`functions` is checked at visit time through the allowed set). -/
def fsucc (calls : List (String × List String)) (u : String) :
    List String :=
  (calleesOf calls u).insertionSort strLe

/-- The sorted caller list of the reverse graph used by `dfs_second`:
all in-set callers with an edge to `v`. -/
def rsucc (calls : List (String × List String)) (sortedV : List String)
    (v : String) : List String :=
  sortedV.filter fun u => v ∈ calleesOf calls u

/-- `find_sccs` (Kosaraju): first pass computes the finish order, second
pass collects components on the reverse graph in reverse finish order. -/
def find_sccs (functions : List String)
    (calls : List (String × List String)) : List (List String) :=
  let sortedV := sortedNodup functions
  let pass1 := dfsList (fsucc calls) sortedV sortedV
  let forder := postF pass1.val.2
  sccLoop (rsucc calls sortedV) forder.reverse sortedV

/-- `func_to_scc`: insertion over the enumerated components (a later
component would overwrite an earlier one, as `HashMap::insert` does). -/
def funcToSccMap (sccs : List (List String)) : List (String × Nat) :=
  (sccs.enum).foldl
    (fun m p => p.2.foldl (fun m2 f => insertKV m2 f p.1) m) []

/-- The distinct callee components of component `i` (`scc_calls[i]`,
self-edges dropped). -/
def sccCallees (calls : List (String × List String))
    (fscc : String → Option Nat) (i : Nat) : List Nat :=
  (calls.flatMap fun p =>
    if fscc p.1 = some i then
      p.2.filterMap fun v =>
        match fscc v with
        | some j => if j = i then none else some j
        | none => none
    else []).dedup

/-- The caller components of component `j` (`reverse_edges[j]`). -/
def callersScc (calls : List (String × List String))
    (fscc : String → Option Nat) (n : Nat) (j : Nat) : List Nat :=
  (List.range n).filter fun i => j ∈ sccCallees calls fscc i

/-- State of the Kahn propagation: the queue, the out-degree array and
the level array (the level array starts all zero, which models both
`or_insert(0)` and the final `unwrap_or(0)`). -/
structure KState : Type where
  queue : List Nat
  outDeg : List Nat
  levels : List Nat
deriving Repr

/-- Processing of one popped component: decrement every caller's
out-degree, raise its level to `level(s) + 1` at least, and enqueue the
callers whose out-degree reached zero. -/
def kahnStep (revE : Nat → List Nat) (s : Nat) (st : KState) : KState :=
  let lvl := (st.levels[s]?).getD 0
  (revE s).foldl
    (fun st2 c =>
      let d2 := (st2.outDeg[c]?).getD 0 - 1
      let st3 : KState :=
        { st2 with
          outDeg := st2.outDeg.set c d2,
          levels := st2.levels.set c (max ((st2.levels[c]?).getD 0) (lvl + 1)) }
      if d2 = 0 then { st3 with queue := st3.queue ++ [c] } else st3)
    st

/-- The Kahn worklist loop, fuelled.  One unit of fuel per pop; the
number of pops never exceeds the component count (each component is
enqueued at most once), so `find_sccs`-sized fuel reproduces the Rust
`while let` loop exactly (the final queue is empty). -/
def kahnLoop (revE : Nat → List Nat) : Nat → KState → KState
  | 0, st => st
  | fuel + 1, st =>
    match st.queue with
    | [] => st
    | s :: rest => kahnLoop revE fuel (kahnStep revE s { st with queue := rest })

/-- `assign_levels` from `src/topo.rs`. -/
def assign_levels (functions : List String)
    (calls : List (String × List String)) : List (String × Nat) :=
  let sccs := find_sccs functions calls
  let fscc := fun f => lookupKV (funcToSccMap sccs) f
  let n := sccs.length
  let outDeg0 := (List.range n).map fun i => (sccCallees calls fscc i).length
  let queue0 := (List.range n).filter fun i => (sccCallees calls fscc i).length = 0
  let final := kahnLoop (callersScc calls fscc n) n
    { queue := queue0, outDeg := outDeg0, levels := List.replicate n 0 }
  functions.filterMap fun f =>
    (fscc f).map fun i => (f, (final.levels[i]?).getD 0)

/-- `group_by_level` from `src/topo.rs`. -/
def group_by_level (levels : List (String × Nat)) : List (List String) :=
  let max_level := ((levels.map Prod.snd).max?).getD 0
  (List.range (max_level + 1)).map fun l =>
    ((levels.filter fun p => p.2 = l).map Prod.fst).insertionSort strLe

/-! ## Summary carry-forward and scheduling (`src/commands/index.rs`) -/

/-- `old_summaries` of `preserve_summaries`: `ast_hash → summary` over
every prior function with a summary and a non-empty hash. -/
def old_summaries (old : Files) : List (String × String) :=
  (allFunctions old).foldl
    (fun m f =>
      match f.summary with
      | some s => if f.ast_hash = "" then m else insertKV m f.ast_hash s
      | none => m) []

/-- The per-function body of the `preserve_summaries` apply loop. -/
def carryFn (m : List (String × String)) (f : Function) : Function :=
  match f.summary with
  | some _ => f
  | none =>
    if f.ast_hash = "" then f
    else
      match lookupKV m f.ast_hash with
      | some s => { f with summary := some s }
      | none => f

/-- `preserve_summaries` from `src/commands/index.rs`. -/
def preserve_summaries (files : Files) (old : Option Files) : Files :=
  match old with
  | none => files
  | some o =>
    let m := old_summaries o
    if m.isEmpty then files
    else files.map fun pe =>
      (pe.1, { pe.2 with functions := pe.2.functions.map (carryFn m) })

/-- The summaries map pre-populated from the index before scheduling. -/
def summariesInit (files : Files) : List (String × String) :=
  (allFunctions files).foldl
    (fun m f =>
      match f.summary with
      | some s => insertKV m f.qualified_name s
      | none => m) []

/-- `func_locations`: qualified name to `(path, function index)`. -/
def func_locations (files : Files) : List (String × (String × Nat)) :=
  files.foldl
    (fun m pe => (pe.2.functions.enum).foldl
      (fun m2 p => insertKV m2 p.2.qualified_name (pe.1, p.1)) m) []

/-- `extract_body` from `src/commands/index.rs`. -/
def extract_body (lines : List String) (line_start line_end : Nat) :
    String :=
  let start := line_start - 1
  let e := min line_end lines.length
  if start ≥ e ∨ start ≥ lines.length then ""
  else String.intercalate "\n" ((lines.drop start).take (e - start))

/-- The simple name shown in callee context:
`target.rsplit('.').next()`. -/
def simpleName (qn : String) : String :=
  ((splitSep '.' qn).getLast?).getD qn

/-- Request collection for one level: skip functions that already have a
summary, locate the function and its source, extract its body, and build
the request with the already-available callee summaries as context. -/
def collectLevel (files : Files) (sources : List (String × String))
    (summaries : List (String × String)) (qns : List String) :
    List (String × SummaryRequest) :=
  qns.foldl
    (fun acc qn =>
      if containsKV summaries qn then acc
      else
        match lookupKV (func_locations files) qn with
        | none => acc
        | some loc =>
          match lookupKV sources loc.1 with
          | none => acc
          | some source =>
            match lookupKV files loc.1 with
            | none => acc
            | some entry =>
              match entry.functions[loc.2]? with
              | none => acc
              | some fn =>
                let body := extract_body (linesOf source) fn.line_start fn.line_end
                if body = "" then acc
                else
                  let ctx := (fn.calls.filter
                      fun c => ¬c.target = "[unresolved]").filterMap
                    fun c => (lookupKV summaries c.target).map
                      fun s => (simpleName c.target, s)
                  acc ++ [(qn,
                    { id := acc.length
                      signature := fn.signature
                      body := body
                      callee_context := ctx })])
    []

/-- After a level completes, write every `Ok` result's summary into the
summaries map, keyed through `request_qnames[result.id]`. -/
def applyResults (summaries : List (String × String))
    (reqPairs : List (String × SummaryRequest))
    (results : List SummaryResult) : List (String × String) :=
  results.foldl
    (fun m res =>
      match (reqPairs.map Prod.fst)[res.id]? with
      | none => m
      | some qn =>
        match res.summary with
        | .ok s => insertKV m qn s
        | .error _ => m) summaries

/-- The level loop of `run_summarization`, returning every qualified
name for which a `SummaryRequest` is composed (level by level, the
summaries map growing with each level's results). -/
def runLevels (sm : Summarizer)
    (claude : String → Except SummarizerError String) (files : Files)
    (sources : List (String × String)) :
    List (List String) → List (String × String) → List String
  | [], _ => []
  | g :: gs, summaries =>
    let reqPairs := collectLevel files sources summaries g
    let results := sm.summarize_batch claude (reqPairs.map Prod.snd)
    reqPairs.map Prod.fst ++
      runLevels sm claude files sources gs (applyResults summaries reqPairs results)

/-- All qualified names `run_summarization` composes an LLM request for:
the call graph is built from the resolved call sites, levels are
assigned bottom-up, and each level's requests skip functions already in
the summaries map. -/
def requestedQNames (sm : Summarizer)
    (claude : String → Except SummarizerError String) (files : Files)
    (sources : List (String × String)) : List String :=
  let functions := (allFunctions files).map fun f => f.qualified_name
  let calls_map : List (String × List String) :=
    (allFunctions files).filterMap fun f =>
      let callees := ((f.calls.filter fun c => ¬c.target = "[unresolved]").map
        fun c => c.target).dedup
      if callees.isEmpty then none else some (f.qualified_name, callees)
  let levels := assign_levels functions calls_map
  let groups := group_by_level levels
  runLevels sm claude files sources groups (summariesInit files)

/-! ### Lemmas for claim C5 -/

theorem containsKV_insertKV {β : Type} (m : List (String × β)) (k : String)
    (v : β) (k2 : String) :
    containsKV (insertKV m k v) k2 =
      if k = k2 then true else containsKV m k2 := by
  unfold containsKV
  rw [lookupKV_insertKV]
  by_cases h : k = k2 <;> simp [h]

/-- The step function of the `old_summaries` fold. -/
def oldStep (m : List (String × String)) (f : Function) :
    List (String × String) :=
  match f.summary with
  | some s => if f.ast_hash = "" then m else insertKV m f.ast_hash s
  | none => m

theorem old_summaries_eq_fold (old : Files) :
    old_summaries old = (allFunctions old).foldl oldStep [] := rfl

theorem oldStep_keeps (m : List (String × String)) (h : String) (s : String)
    (f : Function) (hm : lookupKV m h = some s)
    (hf : f.ast_hash = h → f.summary = none ∨ f.summary = some s) :
    lookupKV (oldStep m f) h = some s := by
  unfold oldStep
  split
  · next s2 heq =>
    split
    · exact hm
    · rw [lookupKV_insertKV]
      by_cases he : f.ast_hash = h
      · rw [if_pos he]
        rcases hf he with h1 | h1
        · rw [h1] at heq
          cases heq
        · rw [h1] at heq
          rw [Option.some.inj heq]
      · rw [if_neg he]
        exact hm
  · exact hm

theorem fold_oldStep_keeps (l : List Function) (m : List (String × String))
    (h : String) (s : String) (hm : lookupKV m h = some s)
    (hl : ∀ q ∈ l, q.ast_hash = h → q.summary = none ∨ q.summary = some s) :
    lookupKV (l.foldl oldStep m) h = some s := by
  induction l generalizing m with
  | nil => exact hm
  | cons q l2 ih =>
    rw [List.foldl_cons]
    exact ih (oldStep m q) (oldStep_keeps m h s q hm (hl q (by simp)))
      (fun q2 hq2 => hl q2 (by simp [hq2]))

theorem old_summaries_lookup (old : Files) (h : String) (s : String)
    (p : Function) (hp : p ∈ allFunctions old) (hph : p.ast_hash = h)
    (hh : ¬h = "") (hps : p.summary = some s)
    (hcons : ∀ q ∈ allFunctions old, q.ast_hash = h →
      q.summary = none ∨ q.summary = some s) :
    lookupKV (old_summaries old) h = some s := by
  obtain ⟨l1, l2, hsplit⟩ := List.append_of_mem hp
  rw [old_summaries_eq_fold, hsplit, List.foldl_append, List.foldl_cons]
  have hstep : lookupKV (oldStep (l1.foldl oldStep []) p) h = some s := by
    unfold oldStep
    split
    · next s2 heq =>
      rw [hps] at heq
      obtain rfl := Option.some.inj heq
      split
      · next hh2 => exact absurd hh2 (by rw [hph]; exact hh)
      · rw [lookupKV_insertKV, if_pos hph]
    · next heq =>
      rw [hps] at heq
      cases heq
  refine fold_oldStep_keeps l2 _ h s hstep ?_
  intro q hq
  exact hcons q (by rw [hsplit]; simp [hq])

theorem carryFn_carries (m : List (String × String)) (f : Function)
    (s : String) (hfs : f.summary = none) (hfh : ¬f.ast_hash = "")
    (hl : lookupKV m f.ast_hash = some s) :
    carryFn m f = { f with summary := some s } := by
  unfold carryFn
  split
  · next s2 heq =>
    rw [hfs] at heq
    cases heq
  · rw [if_neg hfh, hl]

/-- The step function of the `summariesInit` fold. -/
def initStep (m : List (String × String)) (f : Function) :
    List (String × String) :=
  match f.summary with
  | some s => insertKV m f.qualified_name s
  | none => m

theorem summariesInit_eq_fold (files : Files) :
    summariesInit files = (allFunctions files).foldl initStep [] := rfl

theorem initStep_preserves (m : List (String × String)) (f : Function)
    (qn : String) (h : containsKV m qn = true) :
    containsKV (initStep m f) qn = true := by
  unfold initStep
  cases f.summary with
  | none => exact h
  | some s =>
    rw [containsKV_insertKV]
    split <;> simp [h]

theorem summariesInit_contains (files : Files) (f2 : Function)
    (s2 : String) (hf : f2 ∈ allFunctions files)
    (hs : f2.summary = some s2) :
    containsKV (summariesInit files) f2.qualified_name = true := by
  obtain ⟨l1, l2, hsplit⟩ := List.append_of_mem hf
  rw [summariesInit_eq_fold, hsplit, List.foldl_append, List.foldl_cons]
  have hstep : containsKV (initStep (l1.foldl initStep []) f2)
      f2.qualified_name = true := by
    unfold initStep
    rw [hs, containsKV_insertKV, if_pos rfl]
  refine foldl_preserve
    (fun m => containsKV m f2.qualified_name = true) _ l2 _ hstep ?_
  intro b a _ hb
  exact initStep_preserves b a f2.qualified_name hb

theorem collectLevel_not_summarized (files : Files)
    (sources : List (String × String)) (summaries : List (String × String))
    (qns : List String) :
    ∀ pr ∈ collectLevel files sources summaries qns,
      containsKV summaries pr.1 = false := by
  unfold collectLevel
  refine foldl_preserve
    (fun acc : List (String × SummaryRequest) =>
      ∀ pr ∈ acc, containsKV summaries pr.1 = false) _ qns []
    (by intro pr hpr; cases hpr) ?_
  intro acc qn _ hacc
  by_cases hc : containsKV summaries qn = true
  · rw [if_pos hc]
    exact hacc
  · rw [if_neg hc]
    have hqn : containsKV summaries qn = false :=
      Bool.eq_false_iff.mpr hc
    split
    · exact hacc
    · next loc _ =>
      split
      · exact hacc
      · next source _ =>
        split
        · exact hacc
        · next entry _ =>
          split
          · exact hacc
          · next fn _ =>
            by_cases hbody :
                extract_body (linesOf source) fn.line_start fn.line_end = ""
            · rw [if_pos hbody]
              exact hacc
            · rw [if_neg hbody]
              intro pr hpr
              rcases List.mem_append.mp hpr with h1 | h2
              · exact hacc pr h1
              · rw [List.mem_singleton.mp h2]
                exact hqn

theorem applyResults_preserves (summaries : List (String × String))
    (reqPairs : List (String × SummaryRequest))
    (results : List SummaryResult) (qn : String)
    (h : containsKV summaries qn = true) :
    containsKV (applyResults summaries reqPairs results) qn = true := by
  unfold applyResults
  refine foldl_preserve (fun m => containsKV m qn = true) _ results
    summaries h ?_
  intro m res _ hm
  split
  · exact hm
  · split
    · rw [containsKV_insertKV]
      split <;> simp [hm]
    · exact hm

theorem not_mem_runLevels (sm : Summarizer)
    (claude : String → Except SummarizerError String) (files : Files)
    (sources : List (String × String)) (qn : String) :
    ∀ (groups : List (List String)) (summaries : List (String × String)),
      containsKV summaries qn = true →
      qn ∉ runLevels sm claude files sources groups summaries := by
  intro groups
  induction groups with
  | nil =>
    intro summaries _ hmem
    cases hmem
  | cons g gs ih =>
    intro summaries hsum hmem
    rcases List.mem_append.mp hmem with h1 | h2
    · obtain ⟨pr, hpr, hfst⟩ := List.mem_map.mp h1
      have hfalse := collectLevel_not_summarized files sources summaries g pr hpr
      rw [hfst] at hfalse
      rw [hfalse] at hsum
      cases hsum
    · exact ih _ (applyResults_preserves _ _ _ qn hsum) h2

/-- Claim C5: on a re-index run, a current function `f` whose content
hash matches a prior function carrying summary `s` receives `s` during
carry-forward, and the summarizer composes no LLM request for `f`.  The
hypotheses state what a re-index run guarantees: parser hashes are
non-empty, freshly parsed functions carry no summary, and prior
functions of equal hash do not carry conflicting summaries. -/
theorem carry_forward_and_skip (files old : Files)
    (sources : List (String × String)) (sm : Summarizer)
    (claude : String → Except SummarizerError String)
    (f p : Function) (s : String)
    (hf : f ∈ allFunctions files)
    (hfh : ¬f.ast_hash = "")
    (hfs : f.summary = none)
    (hp : p ∈ allFunctions old)
    (hph : p.ast_hash = f.ast_hash)
    (hps : p.summary = some s)
    (hcons : ∀ q ∈ allFunctions old, q.ast_hash = f.ast_hash →
      q.summary = none ∨ q.summary = some s) :
    carryFn (old_summaries old) f = { f with summary := some s } ∧
    f.qualified_name ∉ requestedQNames sm claude
      (preserve_summaries files (some old)) sources := by
  have hlook : lookupKV (old_summaries old) f.ast_hash = some s :=
    old_summaries_lookup old f.ast_hash s p hp hph hfh hps hcons
  have hcarry : carryFn (old_summaries old) f = { f with summary := some s } :=
    carryFn_carries _ f s hfs hfh hlook
  refine ⟨hcarry, ?_⟩
  have hne : ¬(old_summaries old).isEmpty = true := by
    intro he
    rw [List.isEmpty_iff.mp he] at hlook
    cases hlook
  have hpres : preserve_summaries files (some old) =
      files.map fun pe =>
        (pe.1, { pe.2 with
          functions := pe.2.functions.map (carryFn (old_summaries old)) }) := by
    show (if (old_summaries old).isEmpty = true then files else _) = _
    rw [if_neg hne]
  have hmem2 : { f with summary := some s } ∈
      allFunctions (preserve_summaries files (some old)) := by
    rw [hpres]
    obtain ⟨pe, hpe, hfin⟩ := (mem_allFunctions files f).mp hf
    exact (mem_allFunctions_mapShape files
      (fun _ f2 => carryFn (old_summaries old) f2) _).mpr
      ⟨pe, hpe, f, hfin, hcarry.symm⟩
  have hinit : containsKV
      (summariesInit (preserve_summaries files (some old)))
      f.qualified_name = true :=
    summariesInit_contains _ { f with summary := some s } s hmem2 rfl
  exact not_mem_runLevels sm claude _ sources f.qualified_name _ _ hinit

/-- A freshly parsed function with a non-empty hash and no summary. -/
def c5Fn : Function := mkFn "v" "m.v" [] []

/-- The same function as seen in the prior index, already summarized. -/
def c5FnOld : Function := { c5Fn with summary := some "prior summary" }

/-- Current index of the re-index run. -/
def c5New : Files := [("m.go", { ast_hash := "fh", functions := [c5Fn], types := [] })]

/-- Prior index loaded from disk. -/
def c5Old : Files := [("m.go", { ast_hash := "fh", functions := [c5FnOld], types := [] })]

/-- Witness for `carry_forward_and_skip`: on a concrete re-index run the
unchanged function inherits the prior summary and is not re-requested. -/
theorem carry_forward_and_skip_witness :
    c5Fn ∈ allFunctions c5New ∧
    ¬c5Fn.ast_hash = "" ∧
    c5Fn.summary = none ∧
    c5FnOld ∈ allFunctions c5Old ∧
    c5FnOld.ast_hash = c5Fn.ast_hash ∧
    c5FnOld.summary = some "prior summary" ∧
    (∀ q ∈ allFunctions c5Old, q.ast_hash = c5Fn.ast_hash →
      q.summary = none ∨ q.summary = some "prior summary") ∧
    (carryFn (old_summaries c5Old) c5Fn =
        { c5Fn with summary := some "prior summary" } ∧
      c5Fn.qualified_name ∉ requestedQNames (Summarizer.new 1 1 false)
        (fun _ => Except.ok "s") (preserve_summaries c5New (some c5Old)) []) := by
  refine ⟨by decide, by decide, rfl, by decide, rfl, rfl, by decide, ?_⟩
  exact carry_forward_and_skip c5New c5Old [] (Summarizer.new 1 1 false)
    (fun _ => Except.ok "s") c5Fn c5FnOld "prior summary"
    (by decide) (by decide) rfl (by decide) rfl rfl (by decide)

/-- A prior function summarized as `"s1"`. -/
def c5P1 : Function :=
  { mkFn "g1" "m.g1" [] [] with ast_hash := "hsame", summary := some "s1" }

/-- A byte-identical prior function (same content hash) summarized as
`"s2"` by a separate LLM request. -/
def c5P2 : Function :=
  { mkFn "g2" "m.g2" [] [] with ast_hash := "hsame", summary := some "s2" }

/-- The current function whose content hash matches both prior ones. -/
def c5FnB : Function := { mkFn "g" "m.g" [] [] with ast_hash := "hsame" }

/-- Prior index holding the two conflicting summaries. -/
def c5Old2 : Files :=
  [("m.go", { ast_hash := "fh", functions := [c5P1, c5P2], types := [] })]

/-- Current index of the re-index run. -/
def c5New2 : Files :=
  [("m.go", { ast_hash := "fh", functions := [c5FnB], types := [] })]

/-- Claim C5 counterexample: two prior functions share the content hash
`"hsame"` but carry different summaries `"s1"` and `"s2"`;
`old_summaries` keeps only the summary inserted last in iteration order,
so after `preserve_summaries` the matching current function carries
`"s2"`, not the summary `"s1"` of the prior function `c5P1` — refuting
the claim that it receives the summary of every hash-matching prior
function. -/
theorem carry_forward_counterexample :
    c5FnB ∈ allFunctions c5New2 ∧
    ¬c5FnB.ast_hash = "" ∧
    c5FnB.summary = none ∧
    c5P1 ∈ allFunctions c5Old2 ∧
    c5P1.ast_hash = c5FnB.ast_hash ∧
    c5P1.summary = some "s1" ∧
    (∃ g ∈ allFunctions (preserve_summaries c5New2 (some c5Old2)),
      g.qualified_name = c5FnB.qualified_name ∧ g.summary = some "s2") ∧
    (∀ g ∈ allFunctions (preserve_summaries c5New2 (some c5Old2)),
      g.qualified_name = c5FnB.qualified_name → ¬g.summary = some "s1") ∧
    ¬carryFn (old_summaries c5Old2) c5FnB =
      { c5FnB with summary := some "s1" } := by
  decide

/-! ## Claim C1: depth-first forest order theory

The correctness of `assign_levels` rests on the structure of the two
depth-first passes of `find_sccs`.  This section develops the order
theory of the forests that `dfsList` produces: discovery (preorder) and
finish (postorder) positions, the ancestor relation, and the interval
lemmas relating them. -/

theorem idx_append_left {l1 l2 : List String} {a : String} (h : a ∈ l1) :
    List.indexOf a (l1 ++ l2) = List.indexOf a l1 :=
  List.indexOf_append_of_mem h

theorem idx_append_lt {l1 l2 : List String} {a b : String} (ha : a ∈ l1)
    (hb1 : b ∉ l1) (hb2 : b ∈ l2) :
    List.indexOf a (l1 ++ l2) < List.indexOf b (l1 ++ l2) := by
  rw [List.indexOf_append_of_mem ha, List.indexOf_append_of_not_mem hb1]
  have h1 : List.indexOf a l1 < l1.length := List.indexOf_lt_length.mpr ha
  omega

theorem idx_append_shift {l1 l2 : List String} {a : String} (ha : a ∉ l1) :
    List.indexOf a (l1 ++ l2) = l1.length + List.indexOf a l2 :=
  List.indexOf_append_of_not_mem ha

/-- Root label of a DFS tree. -/
def rootL : DTree → String
  | .node u _ => u

/-- Well-formedness of a DFS tree with respect to the successor
function: every child's root is a successor of its parent. -/
inductive TreeWF (succ : String → List String) : DTree → Prop
  | node : ∀ u ch, (∀ c ∈ ch, TreeWF succ c) →
      (∀ c ∈ ch, rootL c ∈ succ u) → TreeWF succ (.node u ch)

mutual

theorem preT_perm_postT (t : DTree) : (preT t).Perm (postT t) :=
  match t with
  | .node u ch => by
    rw [preT, postT]
    exact ((preF_perm_postF ch).cons u).trans
      (@List.perm_append_comm String [u] (postF ch))

theorem preF_perm_postF (F : List DTree) : (preF F).Perm (postF F) :=
  match F with
  | [] => List.Perm.refl _
  | t :: ts => by
    rw [preF, postF]
    exact (preT_perm_postT t).append (preF_perm_postF ts)

end

theorem mem_postT_iff {x : String} {t : DTree} :
    x ∈ postT t ↔ x ∈ preT t := ((preT_perm_postT t).mem_iff).symm

theorem mem_postF_iff {x : String} {F : List DTree} :
    x ∈ postF F ↔ x ∈ preF F := ((preF_perm_postF F).mem_iff).symm

theorem rootL_mem_preT (t : DTree) : rootL t ∈ preT t := by
  cases t with
  | node u ch => rw [rootL, preT]; exact List.mem_cons_self u _

theorem preT_sub_preF {t : DTree} : {F : List DTree} → t ∈ F →
    ∀ x ∈ preT t, x ∈ preF F
  | [], h, _, _ => absurd h (List.not_mem_nil t)
  | t2 :: ts, h, x, hx => by
    rw [preF]
    rcases List.mem_cons.mp h with rfl | h
    · exact List.mem_append_left _ hx
    · exact List.mem_append_right _ (preT_sub_preF h x hx)

mutual

/-- `u` is an ancestor (or equal) of `v` inside tree `t`. -/
def ancT (u v : String) : DTree → Prop
  | .node w ch => (u = w ∧ v ∈ preT (.node w ch)) ∨ ancIn u v ch

/-- `u` is an ancestor (or equal) of `v` inside some tree of `F`. -/
def ancIn (u v : String) : List DTree → Prop
  | [] => False
  | t :: ts => ancT u v t ∨ ancIn u v ts

end

mutual

theorem ancT_mem {u v : String} : {t : DTree} → ancT u v t →
    u ∈ preT t ∧ v ∈ preT t
  | .node w ch, h => by
    rw [ancT] at h
    rcases h with ⟨rfl, hv⟩ | h
    · exact ⟨rootL_mem_preT _, hv⟩
    · have h2 := ancIn_mem h
      rw [preT]
      exact ⟨List.mem_cons_of_mem _ h2.1, List.mem_cons_of_mem _ h2.2⟩

theorem ancIn_mem {u v : String} : {F : List DTree} → ancIn u v F →
    u ∈ preF F ∧ v ∈ preF F
  | [], h => by cases h
  | t :: ts, h => by
    rw [ancIn] at h
    rw [preF]
    rcases h with h | h
    · have h2 := ancT_mem h
      exact ⟨List.mem_append_left _ h2.1, List.mem_append_left _ h2.2⟩
    · have h2 := ancIn_mem h
      exact ⟨List.mem_append_right _ h2.1, List.mem_append_right _ h2.2⟩

end

theorem ancT_root {v : String} {t : DTree} (hv : v ∈ preT t) :
    ancT (rootL t) v t := by
  cases t with
  | node u ch => rw [rootL, ancT]; exact Or.inl ⟨rfl, hv⟩

mutual

theorem ancT_self {u : String} : {t : DTree} → u ∈ preT t → ancT u u t
  | .node w ch, hv => by
    rw [preT] at hv
    rw [ancT]
    rcases List.mem_cons.mp hv with rfl | hv
    · exact Or.inl ⟨rfl, rootL_mem_preT _⟩
    · exact Or.inr (ancIn_self hv)

theorem ancIn_self {u : String} : {F : List DTree} → u ∈ preF F →
    ancIn u u F
  | [], hv => by cases hv
  | t :: ts, hv => by
    rw [preF] at hv
    rw [ancIn]
    rcases List.mem_append.mp hv with h | h
    · exact Or.inl (ancT_self h)
    · exact Or.inr (ancIn_self h)

end

theorem mem_preF_split {x : String} : {F : List DTree} → x ∈ preF F →
    ∃ t ∈ F, x ∈ preT t
  | [], h => absurd h (List.not_mem_nil x)
  | t :: ts, h => by
    rw [preF] at h
    rcases List.mem_append.mp h with h | h
    · exact ⟨t, List.mem_cons_self _ _, h⟩
    · obtain ⟨t2, ht2, hx⟩ := mem_preF_split h
      exact ⟨t2, List.mem_cons_of_mem _ ht2, hx⟩

theorem nodup_preT_parts {w : String} {ch : List DTree}
    (h : (preT (.node w ch)).Nodup) :
    w ∉ preF ch ∧ (preF ch).Nodup := by
  rw [preT] at h
  exact ⟨(List.nodup_cons.mp h).1, (List.nodup_cons.mp h).2⟩

theorem nodup_preF_parts {t : DTree} {ts : List DTree}
    (h : (preF (t :: ts)).Nodup) :
    (preT t).Nodup ∧ (preF ts).Nodup ∧ ∀ x ∈ preT t, x ∉ preF ts := by
  rw [preF] at h
  rcases List.nodup_append.mp h with ⟨h1, h2, h3⟩
  exact ⟨h1, h2, fun x hx => h3 hx⟩

mutual

theorem ancT_trans {u v w : String} : {t : DTree} → (preT t).Nodup →
    ancT u v t → ancT v w t → ancT u w t
  | .node r ch, hN, h1, h2 => by
    obtain ⟨hr, hch⟩ := nodup_preT_parts hN
    simp only [ancT] at h1 h2 ⊢
    rcases h1 with ⟨rfl, _⟩ | h1
    · rcases h2 with ⟨rfl, hw⟩ | h2
      · exact Or.inl ⟨rfl, hw⟩
      · refine Or.inl ⟨rfl, ?_⟩
        rw [preT]
        exact List.mem_cons_of_mem _ (ancIn_mem h2).2
    · rcases h2 with ⟨rfl, _⟩ | h2
      · exact absurd (ancIn_mem h1).2 hr
      · exact Or.inr (ancIn_trans hch h1 h2)

theorem ancIn_trans {u v w : String} : {F : List DTree} →
    (preF F).Nodup → ancIn u v F → ancIn v w F → ancIn u w F
  | [], _, h1, _ => absurd h1 id
  | t :: ts, hN, h1, h2 => by
    obtain ⟨ht, hts, hdis⟩ := nodup_preF_parts hN
    simp only [ancIn] at h1 h2 ⊢
    rcases h1 with h1 | h1
    · rcases h2 with h2 | h2
      · exact Or.inl (ancT_trans ht h1 h2)
      · exact absurd (ancIn_mem h2).1 (hdis v (ancT_mem h1).2)
    · rcases h2 with h2 | h2
      · exact absurd (ancIn_mem h1).2 (hdis v (ancT_mem h2).1)
      · exact Or.inr (ancIn_trans hts h1 h2)

end

mutual

theorem ancT_comp {u v w : String} : {t : DTree} → (preT t).Nodup →
    ancT u v t → ancT w v t → ancT u w t ∨ ancT w u t
  | .node r ch, hN, h1, h2 => by
    obtain ⟨hr, hch⟩ := nodup_preT_parts hN
    simp only [ancT] at h1 h2 ⊢
    rcases h1 with ⟨rfl, _⟩ | h1
    · rcases h2 with ⟨rfl, _⟩ | h2
      · exact Or.inl (Or.inl ⟨rfl, rootL_mem_preT _⟩)
      · refine Or.inl (Or.inl ⟨rfl, ?_⟩)
        rw [preT]
        exact List.mem_cons_of_mem _ (ancIn_mem h2).1
    · rcases h2 with ⟨rfl, _⟩ | h2
      · refine Or.inr (Or.inl ⟨rfl, ?_⟩)
        rw [preT]
        exact List.mem_cons_of_mem _ (ancIn_mem h1).1
      · rcases ancIn_comp hch h1 h2 with h | h
        · exact Or.inl (Or.inr h)
        · exact Or.inr (Or.inr h)

theorem ancIn_comp {u v w : String} : {F : List DTree} →
    (preF F).Nodup → ancIn u v F → ancIn w v F →
    ancIn u w F ∨ ancIn w u F
  | [], _, h1, _ => absurd h1 id
  | t :: ts, hN, h1, h2 => by
    obtain ⟨ht, hts, hdis⟩ := nodup_preF_parts hN
    simp only [ancIn] at h1 h2 ⊢
    rcases h1 with h1 | h1
    · rcases h2 with h2 | h2
      · rcases ancT_comp ht h1 h2 with h | h
        · exact Or.inl (Or.inl h)
        · exact Or.inr (Or.inl h)
      · exact absurd (ancIn_mem h2).2 (hdis v (ancT_mem h1).2)
    · rcases h2 with h2 | h2
      · exact absurd (ancIn_mem h1).2 (hdis v (ancT_mem h2).2)
      · rcases ancIn_comp hts h1 h2 with h | h
        · exact Or.inl (Or.inr h)
        · exact Or.inr (Or.inr h)

end

/-- One step along `succ` whose target lies in `S`. -/
def EdgeIn (succ : String → List String) (S : List String)
    (a b : String) : Prop :=
  b ∈ succ a ∧ b ∈ S

/-- Reachability along `succ` with all intermediate targets in `S`. -/
def ReachIn (succ : String → List String) (S : List String) :
    String → String → Prop :=
  Relation.ReflTransGen (EdgeIn succ S)

theorem ReachIn_mono {succ : String → List String} {S S2 : List String}
    (hS : ∀ x ∈ S, x ∈ S2) {a b : String} (h : ReachIn succ S a b) :
    ReachIn succ S2 a b :=
  Relation.ReflTransGen.mono (fun _ _ e => ⟨e.1, hS _ e.2⟩) h

mutual

theorem ancT_reach {succ : String → List String} {S : List String}
    {u v : String} : {t : DTree} → TreeWF succ t →
    (∀ x ∈ preT t, x ∈ S) → ancT u v t → ReachIn succ S u v
  | .node r ch, hwf, hS, h => by
    rcases hwf with @⟨_, _, hwfc, hroots⟩
    simp only [ancT] at h
    rcases h with ⟨rfl, hv⟩ | h
    · rw [preT] at hv
      rcases List.mem_cons.mp hv with rfl | hv
      · exact Relation.ReflTransGen.refl
      · obtain ⟨c, hc, hvc⟩ := mem_preF_split hv
        have hsub : ∀ x ∈ preT c, x ∈ S := by
          intro x hx
          refine hS x ?_
          rw [preT]
          exact List.mem_cons_of_mem _ (preT_sub_preF hc x hx)
        refine Relation.ReflTransGen.head
          ⟨hroots c hc, hsub _ (rootL_mem_preT c)⟩ ?_
        exact ancT_reach (hwfc c hc) hsub (ancT_root hvc)
    · exact ancIn_reach hwfc
        (fun x hx => hS x (by rw [preT]; exact List.mem_cons_of_mem _ hx)) h

theorem ancIn_reach {succ : String → List String} {S : List String}
    {u v : String} : {F : List DTree} → (∀ c ∈ F, TreeWF succ c) →
    (∀ x ∈ preF F, x ∈ S) → ancIn u v F → ReachIn succ S u v
  | [], _, _, h => absurd h id
  | t :: ts, hwf, hS, h => by
    simp only [ancIn] at h
    rcases h with h | h
    · exact ancT_reach (hwf t (List.mem_cons_self _ _))
        (fun x hx => hS x (by rw [preF]; exact List.mem_append_left _ hx)) h
    · exact ancIn_reach (fun c hc => hwf c (List.mem_cons_of_mem _ hc))
        (fun x hx => hS x (by rw [preF]; exact List.mem_append_right _ hx)) h

end

theorem nodup_postT {t : DTree} (hN : (preT t).Nodup) :
    (postT t).Nodup := ((preT_perm_postT t).nodup_iff).mp hN

theorem nodup_postF {F : List DTree} (hN : (preF F).Nodup) :
    (postF F).Nodup := ((preF_perm_postF F).nodup_iff).mp hN

theorem root_post_idx {r : String} {ch : List DTree}
    (hN : (preT (.node r ch)).Nodup) :
    List.indexOf r (postT (.node r ch)) = (postF ch).length := by
  obtain ⟨hr, _⟩ := nodup_preT_parts hN
  have hr2 : r ∉ postF ch := fun h => hr (mem_postF_iff.mp h)
  rw [postT, idx_append_shift hr2, List.indexOf_cons_self]
  omega

mutual

theorem ancT_pre_le {u v : String} : {t : DTree} → (preT t).Nodup →
    ancT u v t →
    List.indexOf u (preT t) ≤ List.indexOf v (preT t)
  | .node r ch, hN, h => by
    obtain ⟨hr, hch⟩ := nodup_preT_parts hN
    simp only [ancT] at h
    rcases h with ⟨rfl, _⟩ | h
    · rw [preT, List.indexOf_cons_self]
      exact Nat.zero_le _
    · have hu := (ancIn_mem h).1
      have hv := (ancIn_mem h).2
      have hru : r ≠ u := fun he => hr (he ▸ hu)
      have hrv : r ≠ v := fun he => hr (he ▸ hv)
      rw [preT, List.indexOf_cons_ne _ hru, List.indexOf_cons_ne _ hrv]
      exact Nat.succ_le_succ (ancIn_pre_le hch h)

theorem ancIn_pre_le {u v : String} : {F : List DTree} →
    (preF F).Nodup → ancIn u v F →
    List.indexOf u (preF F) ≤ List.indexOf v (preF F)
  | [], _, h => absurd h id
  | t :: ts, hN, h => by
    obtain ⟨ht, hts, hdis⟩ := nodup_preF_parts hN
    simp only [ancIn] at h
    rcases h with h | h
    · rw [preF, idx_append_left (ancT_mem h).1, idx_append_left (ancT_mem h).2]
      exact ancT_pre_le ht h
    · have hu := (ancIn_mem h).1
      have hv := (ancIn_mem h).2
      have hu2 : u ∉ preT t := fun h2 => hdis u h2 hu
      have hv2 : v ∉ preT t := fun h2 => hdis v h2 hv
      rw [preF, idx_append_shift hu2, idx_append_shift hv2]
      exact Nat.add_le_add_left (ancIn_pre_le hts h) _

end

mutual

theorem ancT_post_le {u v : String} : {t : DTree} → (preT t).Nodup →
    ancT u v t →
    List.indexOf v (postT t) ≤ List.indexOf u (postT t)
  | .node r ch, hN, h => by
    obtain ⟨hr, hch⟩ := nodup_preT_parts hN
    simp only [ancT] at h
    rcases h with ⟨rfl, hv⟩ | h
    · rw [root_post_idx hN]
      have hv2 : v ∈ postT (.node u ch) := mem_postT_iff.mpr hv
      have h3 := List.indexOf_lt_length.mpr hv2
      have h4 : (postT (DTree.node u ch)).length = (postF ch).length + 1 := by
        rw [postT, List.length_append, List.length_singleton]
      omega
    · have hu : u ∈ postF ch := mem_postF_iff.mpr (ancIn_mem h).1
      have hv : v ∈ postF ch := mem_postF_iff.mpr (ancIn_mem h).2
      rw [postT, idx_append_left hu, idx_append_left hv]
      exact ancIn_post_le hch h

theorem ancIn_post_le {u v : String} : {F : List DTree} →
    (preF F).Nodup → ancIn u v F →
    List.indexOf v (postF F) ≤ List.indexOf u (postF F)
  | [], _, h => absurd h id
  | t :: ts, hN, h => by
    obtain ⟨ht, hts, hdis⟩ := nodup_preF_parts hN
    simp only [ancIn] at h
    rcases h with h | h
    · rw [postF, idx_append_left (mem_postT_iff.mpr (ancT_mem h).1),
        idx_append_left (mem_postT_iff.mpr (ancT_mem h).2)]
      exact ancT_post_le ht h
    · have hu : u ∉ postT t :=
        fun h2 => hdis u (mem_postT_iff.mp h2) (ancIn_mem h).1
      have hv : v ∉ postT t :=
        fun h2 => hdis v (mem_postT_iff.mp h2) (ancIn_mem h).2
      rw [postF, idx_append_shift hu, idx_append_shift hv]
      exact Nat.add_le_add_left (ancIn_post_le hts h) _

end

mutual

theorem pre_le_cases_T {u v : String} : {t : DTree} → (preT t).Nodup →
    u ∈ preT t → v ∈ preT t →
    List.indexOf u (preT t) ≤ List.indexOf v (preT t) →
    ancT u v t ∨ List.indexOf u (postT t) < List.indexOf v (postT t)
  | .node r ch, hN, hu, hv, hle => by
    obtain ⟨hr, hch⟩ := nodup_preT_parts hN
    by_cases hur : u = r
    · subst hur
      refine Or.inl ?_
      rw [ancT]
      exact Or.inl ⟨rfl, hv⟩
    · have hru : r ≠ u := fun he => hur he.symm
      by_cases hvr : v = r
      · subst hvr
        rw [preT, List.indexOf_cons_ne _ hru, List.indexOf_cons_self] at hle
        omega
      · have hrv : r ≠ v := fun he => hvr he.symm
        have hu2 : u ∈ preF ch := by
          rcases List.mem_cons.mp (by rw [preT] at hu; exact hu) with he | he
          · exact absurd he hur
          · exact he
        have hv2 : v ∈ preF ch := by
          rcases List.mem_cons.mp (by rw [preT] at hv; exact hv) with he | he
          · exact absurd he hvr
          · exact he
        rw [preT, List.indexOf_cons_ne _ hru, List.indexOf_cons_ne _ hrv] at hle
        rcases pre_le_cases_F hch hu2 hv2 (Nat.le_of_succ_le_succ hle) with h | h
        · exact Or.inl (by simp only [ancT]; exact Or.inr h)
        · refine Or.inr ?_
          rw [postT, idx_append_left (mem_postF_iff.mpr hu2),
            idx_append_left (mem_postF_iff.mpr hv2)]
          exact h

theorem pre_le_cases_F {u v : String} : {F : List DTree} →
    (preF F).Nodup → u ∈ preF F → v ∈ preF F →
    List.indexOf u (preF F) ≤ List.indexOf v (preF F) →
    ancIn u v F ∨ List.indexOf u (postF F) < List.indexOf v (postF F)
  | [], _, hu, _, _ => absurd hu (List.not_mem_nil u)
  | t :: ts, hN, hu, hv, hle => by
    obtain ⟨ht, hts, hdis⟩ := nodup_preF_parts hN
    rw [preF] at hu hv
    rcases List.mem_append.mp hu with hu1 | hu1 <;>
      rcases List.mem_append.mp hv with hv1 | hv1
    · rw [preF, idx_append_left hu1, idx_append_left hv1] at hle
      rcases pre_le_cases_T ht hu1 hv1 hle with h | h
      · exact Or.inl (by simp only [ancIn]; exact Or.inl h)
      · refine Or.inr ?_
        rw [postF, idx_append_left (mem_postT_iff.mpr hu1),
          idx_append_left (mem_postT_iff.mpr hv1)]
        exact h
    · refine Or.inr ?_
      rw [postF]
      refine idx_append_lt (mem_postT_iff.mpr hu1) ?_ (mem_postF_iff.mpr hv1)
      exact fun h2 => hdis v (mem_postT_iff.mp h2) hv1
    · exfalso
      have h1 : u ∉ preT t := fun h2 => hdis u h2 hu1
      rw [preF, idx_append_shift h1, idx_append_left hv1] at hle
      have h3 := List.indexOf_lt_length.mpr hv1
      omega
    · have hu2 : u ∉ preT t := fun h2 => hdis u h2 hu1
      have hv2 : v ∉ preT t := fun h2 => hdis v h2 hv1
      rw [preF, idx_append_shift hu2, idx_append_shift hv2] at hle
      rcases pre_le_cases_F hts hu1 hv1 (by omega) with h | h
      · exact Or.inl (by simp only [ancIn]; exact Or.inr h)
      · refine Or.inr ?_
        have hu3 : u ∉ postT t := fun h2 => hu2 (mem_postT_iff.mp h2)
        have hv3 : v ∉ postT t := fun h2 => hv2 (mem_postT_iff.mp h2)
        rw [postF, idx_append_shift hu3, idx_append_shift hv3]
        omega

end

/-- Remaining unvisited set of a DFS run. -/
def dfsA (succ : String → List String) (roots A : List String) :
    List String :=
  (dfsList succ roots A).val.1

/-- Forest grown by a DFS run. -/
def dfsF (succ : String → List String) (roots A : List String) :
    List DTree :=
  (dfsList succ roots A).val.2

theorem dfs_nil {succ : String → List String} {A : List String} :
    dfsA succ [] A = A ∧ dfsF succ [] A = [] := by
  unfold dfsA dfsF
  rw [dfsList]
  exact ⟨rfl, rfl⟩

theorem dfs_cons_mem {succ : String → List String} {u : String}
    {us A : List String} (hu : u ∈ A) :
    dfsA succ (u :: us) A = dfsA succ us (dfsA succ (succ u) (A.erase u)) ∧
    dfsF succ (u :: us) A =
      DTree.node u (dfsF succ (succ u) (A.erase u)) ::
        dfsF succ us (dfsA succ (succ u) (A.erase u)) := by
  unfold dfsA dfsF
  rw [dfsList]
  rcases he1 : dfsList succ (succ u) (A.erase u) with ⟨⟨A1, F1⟩, h1⟩
  rcases he2 : dfsList succ us A1 with ⟨⟨A2, F2⟩, h2⟩
  simp only [dif_pos hu, he1, he2]
  exact ⟨trivial, trivial⟩

theorem dfs_cons_skip {succ : String → List String} {u : String}
    {us A : List String} (hu : u ∉ A) :
    dfsA succ (u :: us) A = dfsA succ us A ∧
    dfsF succ (u :: us) A = dfsF succ us A := by
  unfold dfsA dfsF
  rw [dfsList]
  rw [dif_neg hu]
  exact ⟨rfl, rfl⟩

theorem perm_split_mem {A P A2 : List String} (hN : A.Nodup)
    (hperm : A.Perm (P ++ A2)) (y : String) :
    y ∈ P ↔ y ∈ A ∧ y ∉ A2 := by
  have hN2 : (P ++ A2).Nodup := hN.perm hperm
  have hdis := List.disjoint_of_nodup_append hN2
  constructor
  · intro hy
    exact ⟨hperm.mem_iff.mpr (List.mem_append_left _ hy), hdis hy⟩
  · rintro ⟨hyA, hyA2⟩
    rcases List.mem_append.mp (hperm.mem_iff.mp hyA) with h | h
    · exact h
    · exact absurd h hyA2

/-- What one call of `dfsList` guarantees: the unvisited set shrinks to
a sublist, the visited vertices are exactly the forest labels, trees are
well-formed and rooted at roots, every visited vertex is reached from a
root inside `A`, every root in `A` is visited, successors of visited
vertices that lie in `A` are visited, and a visited successor is either
a descendant or was discovered earlier. -/
structure DfsSpec (succ : String → List String) (roots A A2 : List String)
    (F : List DTree) : Prop where
  sub : A2.Sublist A
  perm : A.Perm (preF F ++ A2)
  wf : ∀ t ∈ F, TreeWF succ t
  rootsF : ∀ t ∈ F, rootL t ∈ roots
  reachSrc : ∀ x ∈ preF F, ∃ r ∈ roots, r ∈ A ∧ ReachIn succ A r x
  compl : ∀ r ∈ roots, r ∈ A → r ∉ A2
  clos : ∀ x ∈ preF F, ∀ w ∈ succ x, w ∈ A → w ∉ A2
  ord : ∀ x ∈ preF F, ∀ w ∈ succ x, w ∈ A →
    ancIn x w F ∨ List.indexOf w (preF F) < List.indexOf x (preF F)

theorem dfs_spec (succ : String → List String) (roots A : List String) :
    A.Nodup → DfsSpec succ roots A (dfsA succ roots A) (dfsF succ roots A) := by
  induction roots, A using dfsList.induct succ with
  | case1 A =>
    intro hN
    rw [dfs_nil.1, dfs_nil.2]
    refine ⟨List.Sublist.refl A, by rw [preF]; exact List.Perm.refl A,
      ?_, ?_, ?_, ?_, ?_, ?_⟩
    · intro t ht; cases ht
    · intro t ht; cases ht
    · intro x hx; cases hx
    · intro r hr; cases hr
    · intro x hx; cases hx
    · intro x hx; cases hx
  | case2 A u us hu A1 F1 h1 he1 A2 F2 h2 he2 ih1 ih2 =>
    intro hN
    have ha1 : dfsA succ (succ u) (A.erase u) = A1 := by unfold dfsA; rw [he1]
    have hf1 : dfsF succ (succ u) (A.erase u) = F1 := by unfold dfsF; rw [he1]
    have ha2 : dfsA succ us A1 = A2 := by unfold dfsA; rw [he2]
    have hf2 : dfsF succ us A1 = F2 := by unfold dfsF; rw [he2]
    have hNe : (A.erase u).Nodup := hN.erase u
    have S1 : DfsSpec succ (succ u) (A.erase u) A1 F1 := by
      have h3 := ih1 hNe
      rwa [ha1, hf1] at h3
    have hN1 : A1.Nodup := S1.sub.nodup hNe
    have S2 : DfsSpec succ us A1 A2 F2 := by
      have h3 := ih2 hN1
      rwa [ha2, hf2] at h3
    obtain ⟨hA, hF⟩ := @dfs_cons_mem succ u us A hu
    rw [ha1, ha2] at hA
    rw [ha1, hf1, hf2] at hF
    rw [hA, hF]
    have huA1 : u ∉ A1 := fun h => hN.not_mem_erase (S1.sub.subset h)
    have huA2 : u ∉ A2 := fun h => huA1 (S2.sub.subset h)
    have hchar1 : ∀ y, y ∈ preF F1 ↔ y ∈ A.erase u ∧ y ∉ A1 :=
      perm_split_mem hNe S1.perm
    have hchar2 : ∀ y, y ∈ preF F2 ↔ y ∈ A1 ∧ y ∉ A2 :=
      perm_split_mem hN1 S2.perm
    have hpre1A : ∀ y ∈ preF F1, y ∈ A.erase u := fun y h => ((hchar1 y).mp h).1
    have hpre2A1 : ∀ y ∈ preF F2, y ∈ A1 := fun y h => ((hchar2 y).mp h).1
    have hu_np1 : u ∉ preF F1 := fun h => hN.not_mem_erase (hpre1A u h)
    have hu_np2 : u ∉ preF F2 :=
      fun h => hN.not_mem_erase (S1.sub.subset (hpre2A1 u h))
    have hd12 : ∀ y ∈ preF F1, y ∉ preF F2 :=
      fun y h1 h2 => ((hchar1 y).mp h1).2 (hpre2A1 y h2)
    have hpreF : preF (DTree.node u F1 :: F2) = u :: (preF F1 ++ preF F2) := by
      rw [preF, preT]
      rfl
    refine ⟨?_, ?_, ?_, ?_, ?_, ?_, ?_, ?_⟩
    · exact S2.sub.trans (S1.sub.trans (List.erase_sublist u A))
    · have he3 : preF (DTree.node u F1 :: F2) ++ A2 =
          u :: (preF F1 ++ (preF F2 ++ A2)) := by
        rw [hpreF]
        simp [List.append_assoc]
      rw [he3]
      exact (List.perm_cons_erase hu).trans
        ((S1.perm.trans ((S2.perm).append_left (preF F1))).cons u)
    · intro t ht
      rcases List.mem_cons.mp ht with rfl | ht
      · exact TreeWF.node u F1 S1.wf S1.rootsF
      · exact S2.wf t ht
    · intro t ht
      rcases List.mem_cons.mp ht with rfl | ht
      · exact List.mem_cons_self _ _
      · exact List.mem_cons_of_mem _ (S2.rootsF t ht)
    · intro x hx
      rw [hpreF] at hx
      rcases List.mem_cons.mp hx with rfl | hx
      · exact ⟨x, List.mem_cons_self _ _, hu, Relation.ReflTransGen.refl⟩
      · rcases List.mem_append.mp hx with hx1 | hx2
        · obtain ⟨r, hr, hrA, hp⟩ := S1.reachSrc x hx1
          exact ⟨u, List.mem_cons_self _ _, hu,
            Relation.ReflTransGen.head ⟨hr, List.mem_of_mem_erase hrA⟩
              (ReachIn_mono (fun z hz => List.mem_of_mem_erase hz) hp)⟩
        · obtain ⟨r, hr, hrA, hp⟩ := S2.reachSrc x hx2
          exact ⟨r, List.mem_cons_of_mem _ hr,
            List.mem_of_mem_erase (S1.sub.subset hrA),
            ReachIn_mono
              (fun z hz => List.mem_of_mem_erase (S1.sub.subset hz)) hp⟩
    · intro r hr hrA
      rcases List.mem_cons.mp hr with rfl | hr
      · exact huA2
      · by_cases hrA1 : r ∈ A1
        · exact S2.compl r hr hrA1
        · exact fun h => hrA1 (S2.sub.subset h)
    · intro x hx w hw hwA
      rw [hpreF] at hx
      rcases List.mem_cons.mp hx with rfl | hx
      · by_cases hwu : w = x
        · subst hwu
          exact huA2
        · have hwe : w ∈ A.erase x := (List.mem_erase_of_ne hwu).mpr hwA
          exact fun h => (S1.compl w hw hwe) (S2.sub.subset h)
      · rcases List.mem_append.mp hx with hx1 | hx2
        · by_cases hwu : w = u
          · subst hwu
            exact huA2
          · have hwe : w ∈ A.erase u := (List.mem_erase_of_ne hwu).mpr hwA
            exact fun h => (S1.clos x hx1 w hw hwe) (S2.sub.subset h)
        · by_cases hwA1 : w ∈ A1
          · exact S2.clos x hx2 w hw hwA1
          · exact fun h => hwA1 (S2.sub.subset h)
    · intro x hx w hw hwA
      rw [hpreF] at hx ⊢
      rcases List.mem_cons.mp hx with rfl | hx
      · by_cases hwu : w = x
        · subst hwu
          refine Or.inl (ancIn_self ?_)
          rw [hpreF]
          exact List.mem_cons_self _ _
        · have hwe : w ∈ A.erase x := (List.mem_erase_of_ne hwu).mpr hwA
          have hw1 : w ∈ preF F1 :=
            (hchar1 w).mpr ⟨hwe, S1.compl w hw hwe⟩
          refine Or.inl ?_
          rw [ancIn]
          refine Or.inl ?_
          rw [ancT]
          refine Or.inl ⟨rfl, ?_⟩
          rw [preT]
          exact List.mem_cons_of_mem _ hw1
      · rcases List.mem_append.mp hx with hx1 | hx2
        · have hux : u ≠ x := fun he => hu_np1 (he ▸ hx1)
          by_cases hwu : w = u
          · subst hwu
            refine Or.inr ?_
            rw [List.indexOf_cons_self, List.indexOf_cons_ne _ hux]
            exact Nat.succ_pos _
          · have huw : u ≠ w := fun he => hwu he.symm
            have hwe : w ∈ A.erase u := (List.mem_erase_of_ne hwu).mpr hwA
            rcases S1.ord x hx1 w hw hwe with h | h
            · refine Or.inl ?_
              rw [ancIn]
              refine Or.inl ?_
              rw [ancT]
              exact Or.inr h
            · have hw1 : w ∈ preF F1 := List.indexOf_lt_length.mp
                (h.trans (List.indexOf_lt_length.mpr hx1))
              refine Or.inr ?_
              rw [List.indexOf_cons_ne _ huw, List.indexOf_cons_ne _ hux,
                idx_append_left hw1, idx_append_left hx1]
              exact Nat.succ_lt_succ h
        · have hux : u ≠ x := fun he => hu_np2 (he ▸ hx2)
          have hx_np1 : x ∉ preF F1 := fun h => hd12 x h hx2
          by_cases hwu : w = u
          · subst hwu
            refine Or.inr ?_
            rw [List.indexOf_cons_self, List.indexOf_cons_ne _ hux]
            exact Nat.succ_pos _
          · have huw : u ≠ w := fun he => hwu he.symm
            have hwe : w ∈ A.erase u := (List.mem_erase_of_ne hwu).mpr hwA
            by_cases hwA1 : w ∈ A1
            · rcases S2.ord x hx2 w hw hwA1 with h | h
              · refine Or.inl ?_
                rw [ancIn]
                exact Or.inr h
              · have hw2 : w ∈ preF F2 := List.indexOf_lt_length.mp
                  (h.trans (List.indexOf_lt_length.mpr hx2))
                have hw_np1 : w ∉ preF F1 := fun h3 => hd12 w h3 hw2
                refine Or.inr ?_
                rw [List.indexOf_cons_ne _ huw, List.indexOf_cons_ne _ hux,
                  idx_append_shift hw_np1, idx_append_shift hx_np1]
                omega
            · have hw1 : w ∈ preF F1 := (hchar1 w).mpr ⟨hwe, hwA1⟩
              refine Or.inr ?_
              rw [List.indexOf_cons_ne _ huw, List.indexOf_cons_ne _ hux,
                idx_append_left hw1, idx_append_shift hx_np1]
              have h3 := List.indexOf_lt_length.mpr hw1
              omega
  | case3 A u us hu ih =>
    intro hN
    have S := ih hN
    rw [(@dfs_cons_skip succ u us A hu).1, (@dfs_cons_skip succ u us A hu).2]
    refine ⟨S.sub, S.perm, S.wf, ?_, ?_, ?_, S.clos, S.ord⟩
    · exact fun t ht => List.mem_cons_of_mem _ (S.rootsF t ht)
    · intro x hx
      obtain ⟨r, hr, hrA, hp⟩ := S.reachSrc x hx
      exact ⟨r, List.mem_cons_of_mem _ hr, hrA, hp⟩
    · intro r hr hrA
      rcases List.mem_cons.mp hr with rfl | hr
      · exact absurd hrA hu
      · exact S.compl r hr hrA

/-! ### The first Kosaraju pass over the whole vertex list -/

/-- Forest of the first DFS pass (roots and unvisited set both `V`). -/
def passF (succ : String → List String) (V : List String) : List DTree :=
  dfsF succ V V

/-- Discovery index of a vertex in the first pass. -/
def dIdx (succ : String → List String) (V : List String) (x : String) :
    Nat :=
  List.indexOf x (preF (passF succ V))

/-- Finish index of a vertex in the first pass. -/
def fIdx (succ : String → List String) (V : List String) (x : String) :
    Nat :=
  List.indexOf x (postF (passF succ V))

/-- Reachability inside the vertex set `V`. -/
def RInV (succ : String → List String) (V : List String)
    (a b : String) : Prop :=
  ReachIn succ V a b

/-- Mutual reachability inside `V` (same strongly connected component). -/
def MutV (succ : String → List String) (V : List String)
    (a b : String) : Prop :=
  RInV succ V a b ∧ RInV succ V b a

theorem MutV_refl {succ : String → List String} {V : List String}
    (a : String) : MutV succ V a a :=
  ⟨Relation.ReflTransGen.refl, Relation.ReflTransGen.refl⟩

theorem MutV_symm {succ : String → List String} {V : List String}
    {a b : String} (h : MutV succ V a b) : MutV succ V b a :=
  ⟨h.2, h.1⟩

theorem MutV_trans {succ : String → List String} {V : List String}
    {a b c : String} (h1 : MutV succ V a b) (h2 : MutV succ V b c) :
    MutV succ V a c :=
  ⟨h1.1.trans h2.1, h2.2.trans h1.2⟩

theorem pass_end_nil {succ : String → List String} {V : List String}
    (hN : V.Nodup) : dfsA succ V V = [] := by
  have S := dfs_spec succ V V hN
  rw [List.eq_nil_iff_forall_not_mem]
  intro x hx
  exact S.compl x (S.sub.subset hx) (S.sub.subset hx) hx

theorem passF_perm {succ : String → List String} {V : List String}
    (hN : V.Nodup) : V.Perm (preF (passF succ V)) := by
  have S := dfs_spec succ V V hN
  have h1 := S.perm
  rw [pass_end_nil hN, List.append_nil] at h1
  exact h1

theorem mem_passF {succ : String → List String} {V : List String}
    (hN : V.Nodup) (x : String) : x ∈ preF (passF succ V) ↔ x ∈ V :=
  (passF_perm hN).mem_iff.symm

theorem nodup_passF {succ : String → List String} {V : List String}
    (hN : V.Nodup) : (preF (passF succ V)).Nodup :=
  hN.perm (passF_perm hN)

theorem pass_ord {succ : String → List String} {V : List String}
    (hN : V.Nodup) {x w : String} (hx : x ∈ preF (passF succ V))
    (hw : w ∈ succ x) (hwV : w ∈ V) :
    ancIn x w (passF succ V) ∨ dIdx succ V w < dIdx succ V x := by
  have S := dfs_spec succ V V hN
  exact S.ord x hx w hw hwV

theorem pass_anc_reach {succ : String → List String} {V : List String}
    (hN : V.Nodup) {u v : String} (h : ancIn u v (passF succ V)) :
    RInV succ V u v := by
  have S := dfs_spec succ V V hN
  refine ancIn_reach S.wf ?_ h
  intro x hx
  exact (mem_passF hN x).mp hx

/-- One step of a white path: a successor edge whose target was
discovered no earlier than the fixed vertex `d`. -/
def WEdge (succ : String → List String) (V : List String) (d : String)
    (a b : String) : Prop :=
  b ∈ succ a ∧ b ∈ V ∧ dIdx succ V d ≤ dIdx succ V b

/-- The white-path theorem: a path from `d` all of whose vertices were
discovered no earlier than `d` stays inside the subtree of `d`. -/
theorem white_path {succ : String → List String} {V : List String}
    (hN : V.Nodup) {d w : String} (hd : d ∈ preF (passF succ V))
    (hp : Relation.ReflTransGen (WEdge succ V d) d w) :
    ancIn d w (passF succ V) := by
  induction hp with
  | refl => exact ancIn_self hd
  | tail hdy hedge ih =>
    rcases hedge with ⟨hsucc, hzV, hdle⟩
    rename_i y z
    have hy : y ∈ preF (passF succ V) := (ancIn_mem ih).2
    have hz : z ∈ preF (passF succ V) := (mem_passF hN z).mpr hzV
    rcases pass_ord hN hy hsucc hzV with h | h
    · exact ancIn_trans (nodup_passF hN) ih h
    · rcases pre_le_cases_F (nodup_passF hN) hd hz hdle with h2 | h2
      · exact h2
      · have hdy_pre := ancIn_pre_le (nodup_passF hN) ih
        have hdy_post := ancIn_post_le (nodup_passF hN) ih
        rcases pre_le_cases_F (nodup_passF hN) hz hy (Nat.le_of_lt h) with h3 | h3
        · rcases ancIn_comp (nodup_passF hN) ih h3 with h4 | h4
          · exact h4
          · have h5 := ancIn_pre_le (nodup_passF hN) h4
            have h6 : z = d :=
              (List.indexOf_inj hz hd).mp (Nat.le_antisymm h5 hdle)
            subst h6
            exact ancIn_self hd
        · omega

theorem exists_min_P {l : List String} {P : String → Prop}
    {f : String → Nat} :
    (∃ w ∈ l, P w) → ∃ d ∈ l, P d ∧ ∀ w ∈ l, P w → f d ≤ f w := by
  induction l with
  | nil => rintro ⟨w, hw, _⟩; cases hw
  | cons a l ih =>
    rintro ⟨w, hw, hPw⟩
    by_cases hex : ∃ w2 ∈ l, P w2
    · obtain ⟨d, hd, hPd, hmin⟩ := ih hex
      by_cases hPa : P a
      · by_cases hfa : f a ≤ f d
        · refine ⟨a, List.mem_cons_self _ _, hPa, ?_⟩
          intro w2 hw2 hPw2
          rcases List.mem_cons.mp hw2 with rfl | hw2
          · exact Nat.le_refl _
          · exact hfa.trans (hmin w2 hw2 hPw2)
        · refine ⟨d, List.mem_cons_of_mem _ hd, hPd, ?_⟩
          intro w2 hw2 hPw2
          rcases List.mem_cons.mp hw2 with rfl | hw2
          · omega
          · exact hmin w2 hw2 hPw2
      · refine ⟨d, List.mem_cons_of_mem _ hd, hPd, ?_⟩
        intro w2 hw2 hPw2
        rcases List.mem_cons.mp hw2 with rfl | hw2
        · exact absurd hPw2 hPa
        · exact hmin w2 hw2 hPw2
    · rcases List.mem_cons.mp hw with rfl | hw
      · refine ⟨w, List.mem_cons_self _ _, hPw, ?_⟩
        intro w2 hw2 hPw2
        rcases List.mem_cons.mp hw2 with rfl | hw2
        · exact Nat.le_refl _
        · exact absurd ⟨w2, hw2, hPw2⟩ hex
      · exact absurd ⟨w, hw, hPw⟩ hex

theorem strengthen_path {succ : String → List String} {V : List String}
    {d start w : String} (hp : RInV succ V start w)
    (hcond : ∀ z ∈ V, RInV succ V start z → RInV succ V z w →
      dIdx succ V d ≤ dIdx succ V z) :
    Relation.ReflTransGen (WEdge succ V d) start w := by
  suffices h2 : ∀ a, Relation.ReflTransGen (EdgeIn succ V) a w →
      RInV succ V start a →
      Relation.ReflTransGen (WEdge succ V d) a w by
    exact h2 start hp Relation.ReflTransGen.refl
  intro a ha
  induction ha using Relation.ReflTransGen.head_induction_on with
  | refl => intro _; exact Relation.ReflTransGen.refl
  | head hedge htail ih =>
    intro hsa
    have hsc := hsa.tail hedge
    have hb := hcond _ hedge.2 hsc htail
    exact Relation.ReflTransGen.head ⟨hedge.1, hedge.2, hb⟩ (ih hsc)

/-- CLRS Lemma D for a single edge `x → y` leaving the component of
`x`: some member of `x`'s component finishes after every member of
`y`'s component. -/
theorem lemD_edge {succ : String → List String} {V : List String}
    (hN : V.Nodup) {x y : String} (hx : x ∈ V) (hy : y ∈ V)
    (hxy : y ∈ succ x) (hn : ¬RInV succ V y x) :
    ∃ x2 ∈ V, MutV succ V x x2 ∧
      ∀ y2 ∈ V, MutV succ V y y2 →
        fIdx succ V y2 < fIdx succ V x2 := by
  obtain ⟨d, hdV, hdP, hdmin⟩ := @exists_min_P V
    (fun w => MutV succ V x w ∨ MutV succ V y w)
    (dIdx succ V) ⟨x, hx, Or.inl (MutV_refl x)⟩
  have hdpre : d ∈ preF (passF succ V) := (mem_passF hN d).mpr hdV
  rcases hdP with hdx | hdy
  · refine ⟨d, hdV, hdx, ?_⟩
    intro y2 hy2V hy2
    have p1 : Relation.ReflTransGen (WEdge succ V d) d x := by
      refine strengthen_path hdx.2 ?_
      intro z hzV hdz hzx
      exact hdmin z hzV (Or.inl ⟨hdx.1.trans hdz, hzx⟩)
    have p2 : WEdge succ V d x y :=
      ⟨hxy, hy, hdmin y hy (Or.inr (MutV_refl y))⟩
    have p3 : Relation.ReflTransGen (WEdge succ V d) y y2 := by
      refine strengthen_path hy2.1 ?_
      intro z hzV hyz hzy2
      exact hdmin z hzV (Or.inr ⟨hyz, hzy2.trans hy2.2⟩)
    have anc := white_path hN hdpre ((p1.tail p2).trans p3)
    have hle := ancIn_post_le (nodup_passF hN) anc
    have hne : y2 ≠ d := by
      intro he
      subst he
      exact hn (hy2.1.trans hdx.2)
    have hy2post : y2 ∈ postF (passF succ V) :=
      mem_postF_iff.mpr ((mem_passF hN y2).mpr hy2V)
    have hdpost : d ∈ postF (passF succ V) := mem_postF_iff.mpr hdpre
    exact Nat.lt_of_le_of_ne hle
      (fun he => hne ((List.indexOf_inj hy2post hdpost).mp he))
  · refine ⟨x, hx, MutV_refl x, ?_⟩
    intro y2 hy2V hy2
    have p1 : Relation.ReflTransGen (WEdge succ V d) d y2 := by
      refine strengthen_path (hdy.2.trans hy2.1) ?_
      intro z hzV hdz hzy2
      exact hdmin z hzV (Or.inr ⟨hdy.1.trans hdz, hzy2.trans hy2.2⟩)
    have anc := white_path hN hdpre p1
    have hle := ancIn_post_le (nodup_passF hN) anc
    have hnanc : ¬ancIn d x (passF succ V) := by
      intro h
      exact hn (hdy.1.trans (pass_anc_reach hN h))
    have hxpre : x ∈ preF (passF succ V) := (mem_passF hN x).mpr hx
    rcases pre_le_cases_F (nodup_passF hN) hdpre hxpre
      (hdmin x hx (Or.inl (MutV_refl x))) with h | h
    · exact absurd h hnanc
    · exact Nat.lt_of_le_of_lt hle h

/-- CLRS Lemma D along a path: if `x` reaches `y` but not conversely,
some member of `x`'s component finishes after every member of `y`'s. -/
theorem lemD {succ : String → List String} {V : List String}
    (hN : V.Nodup) {x y : String} (hx : x ∈ V)
    (hp : RInV succ V x y) (hn : ¬RInV succ V y x) :
    ∃ x2 ∈ V, MutV succ V x x2 ∧
      ∀ y2 ∈ V, MutV succ V y y2 →
        fIdx succ V y2 < fIdx succ V x2 := by
  suffices h2 : ∀ a, Relation.ReflTransGen (EdgeIn succ V) a y →
      ¬RInV succ V y a → a ∈ V →
      ∃ x2 ∈ V, MutV succ V a x2 ∧
        ∀ y2 ∈ V, MutV succ V y y2 →
          fIdx succ V y2 < fIdx succ V x2 by
    exact h2 x hp hn hx
  intro a ha
  induction ha using Relation.ReflTransGen.head_induction_on with
  | refl => intro hn2 _; exact absurd Relation.ReflTransGen.refl hn2
  | head hedge htail ih =>
    rename_i a2 c
    intro hn2 haV
    by_cases hyc : RInV succ V y c
    · have hncx : ¬RInV succ V c a2 := fun h => hn2 (hyc.trans h)
      obtain ⟨x2, hx2V, hx2m, hbound⟩ :=
        lemD_edge hN haV hedge.2 hedge.1 hncx
      refine ⟨x2, hx2V, hx2m, ?_⟩
      intro y2 hy2V hy2m
      exact hbound y2 hy2V (MutV_trans ⟨htail, hyc⟩ hy2m)
    · obtain ⟨c2, hc2V, hc2m, hbound⟩ := ih hyc hedge.2
      by_cases hca : RInV succ V c a2
      · exact ⟨c2, hc2V,
          MutV_trans ⟨Relation.ReflTransGen.single hedge, hca⟩ hc2m, hbound⟩
      · obtain ⟨x2, hx2V, hx2m, hbound2⟩ :=
          lemD_edge hN haV hedge.2 hedge.1 hca
        refine ⟨x2, hx2V, hx2m, ?_⟩
        intro y2 hy2V hy2m
        exact (hbound y2 hy2V hy2m).trans (hbound2 c2 hc2V hc2m)

theorem indexOf_rev {l : List String} (hN : l.Nodup) {x : String}
    (hx : x ∈ l) :
    List.indexOf x l.reverse = l.length - 1 - List.indexOf x l := by
  have hk : List.indexOf x l < l.length := List.indexOf_lt_length.mpr hx
  have hNr : l.reverse.Nodup := List.nodup_reverse.mpr hN
  have hlen : l.length - 1 - List.indexOf x l < l.reverse.length := by
    rw [List.length_reverse]
    omega
  have hget : l.reverse.get ⟨l.length - 1 - List.indexOf x l, hlen⟩ = x :=
    (List.get_reverse l (List.indexOf x l) hlen hk).trans
      (List.indexOf_get hk)
  have h3 := List.get_indexOf hNr ⟨l.length - 1 - List.indexOf x l, hlen⟩
  rw [hget] at h3
  exact h3

theorem suffix_idx_lt {l pre post : List String} {r a : String}
    (hN : l.Nodup) (hsplit : l.reverse = pre ++ r :: post)
    (ha : a ∈ post) :
    List.indexOf a l < List.indexOf r l := by
  have hNr : l.reverse.Nodup := List.nodup_reverse.mpr hN
  have hNr2 := hNr
  rw [hsplit] at hNr2
  rcases List.nodup_append.mp hNr2 with ⟨hpre, hrp, hdis⟩
  have hr_np : r ∉ pre := fun h => hdis h (List.mem_cons_self _ _)
  have hra : r ≠ a := by
    intro he
    subst he
    exact (List.nodup_cons.mp hrp).1 ha
  have ha_np : a ∉ pre :=
    fun h => hdis h (List.mem_cons_of_mem _ ha)
  have hrl : r ∈ l := by
    rw [← List.mem_reverse, hsplit]
    exact List.mem_append_right _ (List.mem_cons_self _ _)
  have hal : a ∈ l := by
    rw [← List.mem_reverse, hsplit]
    exact List.mem_append_right _ (List.mem_cons_of_mem _ ha)
  have hir : List.indexOf r l.reverse = pre.length := by
    rw [hsplit, idx_append_shift hr_np, List.indexOf_cons_self]
    omega
  have hia : List.indexOf a l.reverse = pre.length + 1 + List.indexOf a post := by
    rw [hsplit, idx_append_shift ha_np, List.indexOf_cons_ne _ hra]
    omega
  have h1 := indexOf_rev hN hrl
  have h2 := indexOf_rev hN hal
  have h3 : List.indexOf r l < l.length := List.indexOf_lt_length.mpr hrl
  have h4 : List.indexOf a l < l.length := List.indexOf_lt_length.mpr hal
  omega

theorem reach_visited {succ : String → List String}
    {roots A A2 : List String} {F : List DTree} (hNA : A.Nodup)
    (S : DfsSpec succ roots A A2 F) {r x : String} (hr : r ∈ roots)
    (hrA : r ∈ A) (hp : ReachIn succ A r x) : x ∈ preF F := by
  have hchar := perm_split_mem hNA S.perm
  induction hp with
  | refl => exact (hchar r).mpr ⟨hrA, S.compl r hr hrA⟩
  | tail hp2 hedge ih =>
    rename_i y z
    exact (hchar z).mpr ⟨hedge.2, S.clos y ih z hedge.1 hedge.2⟩

theorem rev_to_fwd {fwd rev : String → List String} {V : List String}
    (hrev : ∀ a b, a ∈ rev b ↔ (a ∈ V ∧ b ∈ fwd a)) {r x : String}
    (hrV : r ∈ V) (hp : Relation.ReflTransGen (EdgeIn rev V) r x) :
    RInV fwd V x r ∧ x ∈ V := by
  induction hp with
  | refl => exact ⟨Relation.ReflTransGen.refl, hrV⟩
  | tail hp2 hedge ih =>
    rename_i y z
    have h2 := (hrev z y).mp hedge.1
    exact ⟨Relation.ReflTransGen.head ⟨h2.2, ih.2⟩ ih.1, h2.1⟩

theorem fwd_to_rev {fwd rev : String → List String} {V A : List String}
    (hrev : ∀ a b, a ∈ rev b ↔ (a ∈ V ∧ b ∈ fwd a))
    (hAV : ∀ a ∈ A, a ∈ V) {q rt : String} (hp : RInV fwd V q rt)
    (hcond : ∀ z, RInV fwd V q z → RInV fwd V z rt → z ∈ A) :
    ReachIn rev A rt q := by
  suffices h2 : ∀ a, Relation.ReflTransGen (EdgeIn fwd V) a rt →
      RInV fwd V q a → ReachIn rev A rt a by
    exact h2 q hp Relation.ReflTransGen.refl
  intro a ha
  induction ha using Relation.ReflTransGen.head_induction_on with
  | refl => intro _; exact Relation.ReflTransGen.refl
  | head hedge htail ih =>
    rename_i a2 c
    intro hqa
    have hqc : RInV fwd V q c := hqa.tail hedge
    have ha2A : a2 ∈ A :=
      hcond a2 hqa (Relation.ReflTransGen.head hedge htail)
    have ha2V : a2 ∈ V := hAV _ ha2A
    exact (ih hqc).tail ⟨(hrev a2 c).mpr ⟨ha2V, hedge.1⟩, ha2A⟩

theorem sccLoop_nil {rev : String → List String} {A : List String} :
    sccLoop rev [] A = [] := by
  rw [sccLoop]

theorem sccLoop_cons_mem {rev : String → List String} {rt : String}
    {rts A : List String} (hrt : rt ∈ A) :
    sccLoop rev (rt :: rts) A =
      preF (dfsF rev [rt] A) :: sccLoop rev rts (dfsA rev [rt] A) := by
  rw [sccLoop]
  rcases he : dfsList rev [rt] A with ⟨⟨A1, F1⟩, h1⟩
  simp only [if_pos hrt, he]
  unfold dfsA dfsF
  rw [he]

theorem sccLoop_cons_skip {rev : String → List String} {rt : String}
    {rts A : List String} (hrt : rt ∉ A) :
    sccLoop rev (rt :: rts) A = sccLoop rev rts A := by
  rw [sccLoop]
  simp only [if_neg hrt]

theorem reach_last_mem {succ : String → List String} {V : List String}
    {a b : String} (hp : RInV succ V a b) : a = b ∨ b ∈ V := by
  induction hp with
  | refl => exact Or.inl rfl
  | tail hp2 hedge _ => exact Or.inr hedge.2

/-- What the second Kosaraju pass returns: the components partition the
unvisited set, each component is a full strongly connected component,
and every in-`A` caller of a component member lies in that component or
an earlier one. -/
structure SccsOut (fwd rev : String → List String) (V A : List String)
    (L : List (List String)) : Prop where
  permA : A.Perm L.flatten
  sound : ∀ C ∈ L, ∀ p ∈ C, ∀ q ∈ C, MutV fwd V p q
  absorb : ∀ C ∈ L, ∀ p ∈ C, ∀ q, MutV fwd V p q → q ∈ C
  callers : ∀ L1 C L2, L = L1 ++ C :: L2 → ∀ b ∈ C, ∀ a, a ∈ rev b →
    a ∈ A → a ∈ C ∨ a ∈ L1.flatten

theorem sccLoop_spec (fwd rev : String → List String) (V : List String)
    (hN : V.Nodup)
    (hrev : ∀ a b, a ∈ rev b ↔ (a ∈ V ∧ b ∈ fwd a))
    (rts A : List String) :
    (∃ pre, (postF (passF fwd V)).reverse = pre ++ rts) →
    A.Sublist V →
    (∀ a ∈ A, a ∈ rts) →
    (∀ a ∈ V, a ∉ A → ∀ b, MutV fwd V a b → b ∉ A) →
    SccsOut fwd rev V A (sccLoop rev rts A) := by
  induction rts, A using sccLoop.induct rev with
  | case1 A =>
    rintro ⟨pre, hsuf⟩ hsub hcov hclosed
    rw [sccLoop_nil]
    have hA : A = [] := List.eq_nil_iff_forall_not_mem.mpr
      (fun a ha => List.not_mem_nil a (hcov a ha))
    refine ⟨by rw [hA]; exact List.Perm.refl _, ?_, ?_, ?_⟩
    · intro C hC; cases hC
    · intro C hC; cases hC
    · intro L1 C L2 heq
      exfalso
      cases L1 <;> simp at heq
  | case2 A rt rts hrt A1 F1 h1 he ih =>
    rintro ⟨pre, hsuf⟩ hsub hcov hclosed
    have ha1 : dfsA rev [rt] A = A1 := by unfold dfsA; rw [he]
    have hf1 : dfsF rev [rt] A = F1 := by unfold dfsF; rw [he]
    rw [sccLoop_cons_mem hrt, ha1, hf1]
    have hNA : A.Nodup := hsub.nodup hN
    have hAV : ∀ a ∈ A, a ∈ V := fun a ha => hsub.subset ha
    have hrtV : rt ∈ V := hAV rt hrt
    have S : DfsSpec rev [rt] A A1 F1 := by
      have h3 := dfs_spec rev [rt] A hNA
      rwa [ha1, hf1] at h3
    have hchar : ∀ y, y ∈ preF F1 ↔ y ∈ A ∧ y ∉ A1 :=
      perm_split_mem hNA S.perm
    have hreach : ∀ y ∈ preF F1, ReachIn rev A rt y := by
      intro y hy
      obtain ⟨r, hr, hrA, hp⟩ := S.reachSrc y hy
      rcases List.mem_cons.mp hr with rfl | hr2
      · exact hp
      · cases hr2
    have hfwd : ∀ y ∈ preF F1, RInV fwd V y rt ∧ y ∈ V := by
      intro y hy
      exact rev_to_fwd hrev hrtV (ReachIn_mono hAV (hreach y hy))
    have hmax : ∀ a ∈ A, a ≠ rt → fIdx fwd V a < fIdx fwd V rt := by
      intro a ha hne
      rcases List.mem_cons.mp (hcov a ha) with rfl | h3
      · exact absurd rfl hne
      · exact suffix_idx_lt (nodup_postF (nodup_passF hN)) hsuf h3
    have hroot : ∀ y ∈ preF F1, RInV fwd V rt y := by
      intro y hy
      have hp := hreach y hy
      clear hy
      induction hp with
      | refl => exact Relation.ReflTransGen.refl
      | tail hp2 hedge ih2 =>
        rename_i y2 z
        have hzA : z ∈ A := hedge.2
        have hzV : z ∈ V := hAV z hzA
        have h2 := (hrev z y2).mp hedge.1
        have hy2pair := rev_to_fwd hrev hrtV (ReachIn_mono hAV hp2)
        have hz_rt : RInV fwd V z rt :=
          Relation.ReflTransGen.head ⟨h2.2, hy2pair.2⟩ hy2pair.1
        by_contra hnrz
        obtain ⟨z2, hz2V, hz2m, hbound⟩ := lemD hN hzV hz_rt hnrz
        have hfrt := hbound rt hrtV (MutV_refl rt)
        by_cases hz2A : z2 ∈ A
        · have hne : z2 ≠ rt := by
            intro heq
            rw [heq] at hfrt
            omega
          have := hmax z2 hz2A hne
          omega
        · exact absurd hzA (hclosed z2 hz2V hz2A z (MutV_symm hz2m))
    have hSCCA : ∀ z, MutV fwd V rt z → z ∈ A := by
      intro z hz
      by_contra hzA
      have hzV : z ∈ V := by
        rcases reach_last_mem hz.1 with rfl | h2
        · exact absurd hrt hzA
        · exact h2
      exact absurd hrt (hclosed z hzV hzA rt (MutV_symm hz))
    have hscc : ∀ q, q ∈ preF F1 ↔ MutV fwd V rt q := by
      intro q
      constructor
      · intro hq
        exact ⟨hroot q hq, (hfwd q hq).1⟩
      · intro hq
        have hrp : ReachIn rev A rt q := by
          refine fwd_to_rev hrev hAV hq.2 ?_
          intro z hqz hzrt
          exact hSCCA z ⟨hq.1.trans hqz, hzrt⟩
        exact reach_visited hNA S (List.mem_cons_self _ _) hrt hrp
    have hrtC : rt ∈ preF F1 := (hscc rt).mpr (MutV_refl rt)
    have hsub1 : A1.Sublist V := S.sub.trans hsub
    have hcov1 : ∀ a ∈ A1, a ∈ rts := by
      intro a ha
      have haA : a ∈ A := S.sub.subset ha
      rcases List.mem_cons.mp (hcov a haA) with rfl | h2
      · exact absurd ha ((hchar a).mp hrtC).2
      · exact h2
    have hsuf1 : ∃ pre2, (postF (passF fwd V)).reverse = pre2 ++ rts :=
      ⟨pre ++ [rt], by rw [hsuf, List.append_assoc, List.singleton_append]⟩
    have hclosed1 : ∀ a ∈ V, a ∉ A1 → ∀ b, MutV fwd V a b → b ∉ A1 := by
      intro a haV ha1 b hab
      by_cases haA : a ∈ A
      · have haC : a ∈ preF F1 := (hchar a).mpr ⟨haA, ha1⟩
        have hb : MutV fwd V rt b := MutV_trans ((hscc a).mp haC) hab
        have hbC : b ∈ preF F1 := (hscc b).mpr hb
        exact ((hchar b).mp hbC).2
      · have hb := hclosed a haV haA b hab
        exact fun h2 => hb (S.sub.subset h2)
    have IH := ih hsuf1 hsub1 hcov1 hclosed1
    refine ⟨?_, ?_, ?_, ?_⟩
    · rw [List.flatten_cons]
      exact S.perm.trans (IH.permA.append_left (preF F1))
    · intro C hC p hp q hq
      rcases List.mem_cons.mp hC with rfl | hC2
      · exact MutV_trans (MutV_symm ((hscc p).mp hp)) ((hscc q).mp hq)
      · exact IH.sound C hC2 p hp q hq
    · intro C hC p hp q hpq
      rcases List.mem_cons.mp hC with rfl | hC2
      · exact (hscc q).mpr (MutV_trans ((hscc p).mp hp) hpq)
      · exact IH.absorb C hC2 p hp q hpq
    · intro L1 C L2 heq b hb a harev haA
      cases L1 with
      | nil =>
        rw [List.nil_append] at heq
        injection heq with hC1 hC2
        refine Or.inl ?_
        rw [← hC1] at hb ⊢
        exact (hchar a).mpr ⟨haA, S.clos b hb a harev haA⟩
      | cons C0 L1b =>
        rw [List.cons_append] at heq
        injection heq with hC1 hC2
        by_cases ha1 : a ∈ A1
        · rcases IH.callers L1b C L2 hC2 b hb a harev ha1 with h | h
          · exact Or.inl h
          · refine Or.inr ?_
            rw [List.flatten_cons]
            exact List.mem_append_right _ h
        · refine Or.inr ?_
          rw [List.flatten_cons]
          refine List.mem_append_left _ ?_
          rw [← hC1]
          exact (hchar a).mpr ⟨haA, ha1⟩
  | case3 A rt rts hrt ih =>
    rintro ⟨pre, hsuf⟩ hsub hcov hclosed
    rw [sccLoop_cons_skip hrt]
    refine ih ⟨pre ++ [rt], by rw [hsuf, List.append_assoc, List.singleton_append]⟩ hsub ?_ hclosed
    intro a ha
    rcases List.mem_cons.mp (hcov a ha) with rfl | h2
    · exact absurd ha hrt
    · exact h2

theorem mem_of_lookupKV {β : Type} : {m : List (String × β)} →
    {k : String} → {v : β} → lookupKV m k = some v → (k, v) ∈ m
  | [], _, _, h => by cases h
  | (k0, v0) :: rest, k, v, h => by
    rw [lookupKV] at h
    by_cases h2 : k0 = k
    · rw [if_pos h2] at h
      subst h2
      rw [Option.some.inj h]
      exact List.mem_cons_self _ _
    · rw [if_neg h2] at h
      exact List.mem_cons_of_mem _ (mem_of_lookupKV h)

theorem nodup_sortedNodup (l : List String) : (sortedNodup l).Nodup :=
  (List.nodup_dedup l).perm (List.perm_insertionSort strLe l.dedup).symm

theorem mem_sortedNodup (l : List String) (x : String) :
    x ∈ sortedNodup l ↔ x ∈ l :=
  (List.perm_insertionSort strLe l.dedup).mem_iff.trans List.mem_dedup

theorem mem_fsucc (calls : List (String × List String)) (a b : String) :
    b ∈ fsucc calls a ↔ b ∈ calleesOf calls a :=
  (List.perm_insertionSort strLe (calleesOf calls a)).mem_iff

theorem mem_rsucc (calls : List (String × List String)) (V : List String)
    (a b : String) :
    a ∈ rsucc calls V b ↔ (a ∈ V ∧ b ∈ fsucc calls a) := by
  rw [rsucc, List.mem_filter, mem_fsucc]
  constructor
  · rintro ⟨h1, h2⟩
    exact ⟨h1, by simpa using h2⟩
  · rintro ⟨h1, h2⟩
    exact ⟨h1, by simpa using h2⟩

theorem find_sccs_eq (functions : List String)
    (calls : List (String × List String)) :
    find_sccs functions calls =
      sccLoop (rsucc calls (sortedNodup functions))
        (postF (passF (fsucc calls) (sortedNodup functions))).reverse
        (sortedNodup functions) := rfl

/-- The components computed by `find_sccs` are the strongly connected
components of the call graph restricted to the (deduplicated) vertex
set, listed so that callers never precede their callees. -/
theorem find_sccs_spec (functions : List String)
    (calls : List (String × List String)) :
    SccsOut (fsucc calls) (rsucc calls (sortedNodup functions))
      (sortedNodup functions) (sortedNodup functions)
      (find_sccs functions calls) := by
  rw [find_sccs_eq]
  have hN := nodup_sortedNodup functions
  refine sccLoop_spec (fsucc calls) _ _ hN
    (mem_rsucc calls (sortedNodup functions)) _ _ ⟨[], rfl⟩
    (List.Sublist.refl _) ?_ ?_
  · intro a ha
    rw [List.mem_reverse, mem_postF_iff, mem_passF hN]
    exact ha
  · intro a haV haA
    exact absurd haV haA

/-! ### The function-to-component index map -/

/-- Lookup after inserting every member of one component with value `k`. -/
theorem comp_fold_lookup (C : List String) (k : Nat)
    (m : List (String × Nat)) (x : String) :
    lookupKV (C.foldl (fun m2 f => insertKV m2 f k) m) x =
      if x ∈ C then some k else lookupKV m x := by
  induction C generalizing m with
  | nil => simp
  | cons f C2 ih =>
    rw [List.foldl_cons, ih]
    by_cases hx : x ∈ C2
    · rw [if_pos hx, if_pos (List.mem_cons_of_mem _ hx)]
    · rw [if_neg hx, lookupKV_insertKV]
      by_cases hf : f = x
      · subst hf
        rw [if_pos rfl, if_pos (List.mem_cons_self _ _)]
      · rw [if_neg hf, if_neg ?_]
        intro h2
        rcases List.mem_cons.mp h2 with h3 | h3
        · exact hf h3.symm
        · exact hx h3

/-- The enumerated fold of `funcToSccMap`, with an arbitrary base index. -/
theorem ftsm_fold_not_mem (rest : List (List String)) (n : Nat)
    (m : List (String × Nat)) (x : String) (hx : x ∉ rest.flatten) :
    lookupKV ((rest.enumFrom n).foldl
      (fun m p => p.2.foldl (fun m2 f => insertKV m2 f p.1) m) m) x =
      lookupKV m x := by
  induction rest generalizing n m with
  | nil => rfl
  | cons C rest2 ih =>
    rw [List.flatten_cons] at hx
    have hx1 : x ∉ C := fun h => hx (List.mem_append_left _ h)
    have hx2 : x ∉ rest2.flatten := fun h => hx (List.mem_append_right _ h)
    rw [List.enumFrom_cons, List.foldl_cons, ih _ _ hx2, comp_fold_lookup,
      if_neg hx1]

theorem ftsm_fold_mem (rest : List (List String)) (n : Nat)
    (m : List (String × Nat)) (x : String) (i : Nat) (C : List String)
    (hN : rest.flatten.Nodup) (hiC : rest[i]? = some C) (hx : x ∈ C) :
    lookupKV ((rest.enumFrom n).foldl
      (fun m p => p.2.foldl (fun m2 f => insertKV m2 f p.1) m) m) x =
      some (n + i) := by
  induction rest generalizing n m i with
  | nil => cases hiC
  | cons C0 rest2 ih =>
    rw [List.flatten_cons] at hN
    rcases List.nodup_append.mp hN with ⟨hN0, hN2, hdis⟩
    rw [List.enumFrom_cons, List.foldl_cons]
    cases i with
    | zero =>
      rw [List.getElem?_cons_zero] at hiC
      obtain rfl := Option.some.inj hiC
      have hx2 : x ∉ rest2.flatten := hdis hx
      rw [ftsm_fold_not_mem rest2 _ _ x hx2, comp_fold_lookup, if_pos hx]
      simp
    | succ i2 =>
      rw [List.getElem?_cons_succ] at hiC
      rw [ih (n + 1) _ i2 hN2 hiC]
      congr 1
      omega

theorem funcToSccMap_eq_fold (sccs : List (List String)) :
    funcToSccMap sccs = (sccs.enumFrom 0).foldl
      (fun m p => p.2.foldl (fun m2 f => insertKV m2 f p.1) m) [] := by
  rw [funcToSccMap, List.enum_eq_enumFrom]

theorem funcToSccMap_mem (sccs : List (List String)) (i : Nat)
    (C : List String) (x : String) (hN : sccs.flatten.Nodup)
    (hiC : sccs[i]? = some C) (hx : x ∈ C) :
    lookupKV (funcToSccMap sccs) x = some i := by
  rw [funcToSccMap_eq_fold, ftsm_fold_mem sccs 0 [] x i C hN hiC hx]
  congr 1
  omega

theorem funcToSccMap_lookup (sccs : List (List String)) (x : String)
    (i : Nat) (hN : sccs.flatten.Nodup)
    (h : lookupKV (funcToSccMap sccs) x = some i) :
    ∃ C, sccs[i]? = some C ∧ x ∈ C := by
  by_cases hx : x ∈ sccs.flatten
  · obtain ⟨C, hC, hxC⟩ := List.mem_flatten.mp hx
    obtain ⟨j, hj⟩ := List.mem_iff_getElem?.mp hC
    have h2 := funcToSccMap_mem sccs j C x hN hj hxC
    rw [h2] at h
    obtain rfl := Option.some.inj h
    exact ⟨C, hj, hxC⟩
  · rw [funcToSccMap_eq_fold, ftsm_fold_not_mem sccs 0 [] x hx] at h
    cases h

theorem mem_sccCallees {calls : List (String × List String)}
    {fscc : String → Option Nat} {i j : Nat}
    (h : j ∈ sccCallees calls fscc i) :
    ¬j = i ∧ ∃ p ∈ calls, ∃ v ∈ p.2, fscc p.1 = some i ∧ fscc v = some j := by
  rw [sccCallees, List.mem_dedup, List.mem_flatMap] at h
  obtain ⟨p, hp, hj⟩ := h
  by_cases hpi : fscc p.1 = some i
  · rw [if_pos hpi, List.mem_filterMap] at hj
    obtain ⟨v, hv, hfv⟩ := hj
    cases hfv2 : fscc v with
    | none =>
      rw [hfv2] at hfv
      cases hfv
    | some j2 =>
      simp only [hfv2] at hfv
      by_cases hji : j2 = i
      · rw [if_pos hji] at hfv
        cases hfv
      · rw [if_neg hji] at hfv
        obtain rfl := Option.some.inj hfv
        exact ⟨hji, p, hp, v, hv, hpi, hfv2⟩
  · rw [if_neg hpi] at hj
    cases hj

theorem sccCallees_intro {calls : List (String × List String)}
    {fscc : String → Option Nat} {u v : String} {i j : Nat}
    (hu : fscc u = some i) (hv : fscc v = some j) (hij : ¬j = i)
    (hedge : v ∈ calleesOf calls u) : j ∈ sccCallees calls fscc i := by
  rw [sccCallees, List.mem_dedup, List.mem_flatMap]
  have hl : ∃ l, lookupKV calls u = some l ∧ v ∈ l := by
    unfold calleesOf at hedge
    cases he : lookupKV calls u with
    | none =>
      rw [he] at hedge
      exact absurd hedge (List.not_mem_nil v)
    | some l =>
      rw [he] at hedge
      exact ⟨l, rfl, hedge⟩
  obtain ⟨l, hlk, hvl⟩ := hl
  refine ⟨(u, l), mem_of_lookupKV hlk, ?_⟩
  rw [if_pos hu, List.mem_filterMap]
  exact ⟨v, hvl, by simp only [hv, if_neg hij]⟩

/-- In the component list of `find_sccs`, an edge of the condensation
always goes from an earlier component to a later one: a caller
component has the smaller index. -/
theorem sccCallees_lt (functions : List String)
    (calls : List (String × List String))
    (hkeys : (calls.map Prod.fst).Nodup) {i j : Nat}
    (h : j ∈ sccCallees calls
      (fun f => lookupKV (funcToSccMap (find_sccs functions calls)) f) i) :
    i < j := by
  have SC := find_sccs_spec functions calls
  have hN := nodup_sortedNodup functions
  have hNflat : (find_sccs functions calls).flatten.Nodup :=
    hN.perm SC.permA
  obtain ⟨hij, p, hp, v, hv, hpi, hvj⟩ := mem_sccCallees h
  have hedge : v ∈ calleesOf calls p.1 := by
    unfold calleesOf
    rw [lookupKV_of_mem calls p.1 p.2 hkeys (by cases p; exact hp)]
    exact hv
  obtain ⟨Ci, hCi, haCi⟩ := funcToSccMap_lookup _ _ _ hNflat hpi
  obtain ⟨Cj, hCj, hbCj⟩ := funcToSccMap_lookup _ _ _ hNflat hvj
  have haV : p.1 ∈ sortedNodup functions := by
    rw [SC.permA.mem_iff, List.mem_flatten]
    exact ⟨Ci, List.getElem?_mem hCi, haCi⟩
  by_contra hnlt
  have hji : j < i := by
    rcases Nat.lt_or_ge i j with h2 | h2
    · exact absurd h2 hnlt
    · rcases Nat.lt_or_ge j i with h3 | h3
      · exact h3
      · exact absurd (Nat.le_antisymm h2 h3) hij
  -- split the component list at index j
  have hjlen : j < (find_sccs functions calls).length := by
    rcases List.getElem?_eq_some_iff.mp hCj with ⟨h2, _⟩
    exact h2
  have hsplit : find_sccs functions calls =
      (find_sccs functions calls).take j ++
        Cj :: (find_sccs functions calls).drop (j + 1) := by
    rcases List.getElem?_eq_some_iff.mp hCj with ⟨h4, h5⟩
    conv_lhs => rw [← List.take_append_drop j (find_sccs functions calls)]
    rw [List.drop_eq_getElem_cons hjlen, h5]
  have hcall := SC.callers _ Cj _ hsplit v hbCj p.1
    ((mem_rsucc calls _ p.1 v).mpr ⟨haV, (mem_fsucc calls p.1 v).mpr hedge⟩)
    haV
  rcases hcall with h2 | h2
  · have := funcToSccMap_mem _ j Cj p.1 hNflat hCj h2
    rw [hpi] at this
    exact hij (Option.some.inj this).symm
  · -- p.1 lies in an earlier component, but its component index i > j
    have hCiIn : Ci ∈ Cj :: (find_sccs functions calls).drop (j + 1) := by
      have hlen : ((find_sccs functions calls).take j).length = j := by
        rw [List.length_take]
        omega
      have h3 : (find_sccs functions calls)[i]? =
          (Cj :: (find_sccs functions calls).drop (j + 1))[i - j]? := by
        conv_lhs => rw [hsplit]
        rw [List.getElem?_append_right (by omega)]
        rw [hlen]
      rw [hCi] at h3
      exact List.getElem?_mem h3.symm
    have hmem1 : p.1 ∈ ((find_sccs functions calls).take j).flatten := h2
    have hmem2 : p.1 ∈
        (Cj :: (find_sccs functions calls).drop (j + 1)).flatten := by
      rw [List.mem_flatten]
      exact ⟨Ci, hCiIn, haCi⟩
    have hNflat2 : (((find_sccs functions calls).take j).flatten ++
        (Cj :: (find_sccs functions calls).drop (j + 1)).flatten).Nodup := by
      rw [← List.flatten_append, ← hsplit]
      exact hNflat
    exact (List.disjoint_of_nodup_append hNflat2) hmem1 hmem2

/-! ### Kahn propagation over the condensation -/

theorem mem_filter_notmem {l P : List Nat} {x : Nat} :
    x ∈ l.filter (fun y => decide (¬y ∈ P)) ↔ (x ∈ l ∧ x ∉ P) := by
  rw [List.mem_filter]
  simp

theorem filter_notmem_snoc_length {l P : List Nat} {s : Nat}
    (hnd : l.Nodup) (hs : s ∈ l) (hsP : s ∉ P) :
    (l.filter fun x => decide (¬x ∈ P ++ [s])).length =
      (l.filter fun x => decide (¬x ∈ P)).length - 1 := by
  induction l with
  | nil => cases hs
  | cons a l2 ih =>
    rw [List.nodup_cons] at hnd
    rcases List.mem_cons.mp hs with rfl | hs2
    · rw [List.filter_cons, List.filter_cons]
      have h1 : (decide (¬s ∈ P ++ [s])) = false := by simp
      have h2 : (decide (¬s ∈ P)) = true := by simp [hsP]
      rw [h1, h2]
      have h3 : (l2.filter fun x => decide (¬x ∈ P ++ [s])) =
          l2.filter fun x => decide (¬x ∈ P) := by
        refine List.filter_congr ?_
        intro x hx
        have hxa : x ≠ s := fun he => hnd.1 (he ▸ hx)
        simp [List.mem_append, hxa]
      simp only [Bool.false_eq_true, if_false, if_true]
      rw [h3, List.length_cons]
      omega
    · have has : a ≠ s := fun he => hnd.1 (he ▸ hs2)
      have hslen : 0 < (l2.filter fun x => decide (¬x ∈ P)).length := by
        have : s ∈ l2.filter fun x => decide (¬x ∈ P) :=
          mem_filter_notmem.mpr ⟨hs2, hsP⟩
        exact List.length_pos.mpr (List.ne_nil_of_mem this)
      rw [List.filter_cons, List.filter_cons]
      have hcongr : (decide (¬a ∈ P ++ [s])) = (decide (¬a ∈ P)) := by
        simp [List.mem_append, has]
      rw [hcongr]
      by_cases hp : a ∈ P
      · have h2 : (decide (¬a ∈ P)) = false := by simp [hp]
        rw [h2]
        simp only [Bool.false_eq_true, if_false]
        exact ih hnd.2 hs2
      · have h2 : (decide (¬a ∈ P)) = true := by simp [hp]
        rw [h2]
        simp only [if_true]
        rw [List.length_cons, List.length_cons, ih hnd.2 hs2]
        omega

theorem nodup_all_eq_singleton {l : List Nat} {s : Nat} (hnd : l.Nodup)
    (hall : ∀ x ∈ l, x = s) (hs : s ∈ l) : l = [s] := by
  cases l with
  | nil => cases hs
  | cons a l2 =>
    have ha : a = s := hall a (List.mem_cons_self _ _)
    subst ha
    rw [List.nodup_cons] at hnd
    cases l2 with
    | nil => rfl
    | cons b l3 =>
      have hb : b = a := hall b (by simp)
      exfalso
      refine hnd.1 ?_
      rw [← hb]
      exact List.mem_cons_self b l3

/-- One caller update of the Kahn loop, with the popped component's
level fixed. -/
def kbody (lvl : Nat) (st2 : KState) (c : Nat) : KState :=
  if (st2.outDeg[c]?).getD 0 - 1 = 0 then
    { queue := st2.queue ++ [c],
      outDeg := st2.outDeg.set c ((st2.outDeg[c]?).getD 0 - 1),
      levels := st2.levels.set c (max ((st2.levels[c]?).getD 0) (lvl + 1)) }
  else
    { queue := st2.queue,
      outDeg := st2.outDeg.set c ((st2.outDeg[c]?).getD 0 - 1),
      levels := st2.levels.set c (max ((st2.levels[c]?).getD 0) (lvl + 1)) }

theorem kahnStep_eq (revE : Nat → List Nat) (s : Nat) (st : KState) :
    kahnStep revE s st =
      (revE s).foldl (kbody ((st.levels[s]?).getD 0)) st := rfl

theorem kbody_outDeg (lvl : Nat) (st0 : KState) (c0 : Nat) :
    (kbody lvl st0 c0).outDeg =
      st0.outDeg.set c0 ((st0.outDeg[c0]?).getD 0 - 1) := by
  unfold kbody
  split <;> rfl

theorem kbody_levels (lvl : Nat) (st0 : KState) (c0 : Nat) :
    (kbody lvl st0 c0).levels =
      st0.levels.set c0 (max ((st0.levels[c0]?).getD 0) (lvl + 1)) := by
  unfold kbody
  split <;> rfl

theorem kbody_queue (lvl : Nat) (st0 : KState) (c0 : Nat) :
    (kbody lvl st0 c0).queue = st0.queue ++
      (if (st0.outDeg[c0]?).getD 0 - 1 = 0 then [c0] else []) := by
  unfold kbody
  split
  · rfl
  · rw [List.append_nil]

theorem kfold_spec (n lvl : Nat) :
    ∀ (L : List Nat), L.Nodup → (∀ c ∈ L, c < n) →
    ∀ st0 : KState, st0.outDeg.length = n → st0.levels.length = n →
    (L.foldl (kbody lvl) st0).outDeg.length = n ∧
    (L.foldl (kbody lvl) st0).levels.length = n ∧
    (∀ c, c < n → ((L.foldl (kbody lvl) st0).outDeg[c]?).getD 0 =
      if c ∈ L then (st0.outDeg[c]?).getD 0 - 1
      else (st0.outDeg[c]?).getD 0) ∧
    (∀ c, c < n → ((L.foldl (kbody lvl) st0).levels[c]?).getD 0 =
      if c ∈ L then max ((st0.levels[c]?).getD 0) (lvl + 1)
      else (st0.levels[c]?).getD 0) ∧
    (L.foldl (kbody lvl) st0).queue = st0.queue ++
      L.filter (fun c => decide ((st0.outDeg[c]?).getD 0 - 1 = 0))
  | [], _, _, st0, hO, hL => by
    refine ⟨hO, hL, ?_, ?_, ?_⟩
    · intro c _
      rw [if_neg (List.not_mem_nil c)]
      rfl
    · intro c _
      rw [if_neg (List.not_mem_nil c)]
      rfl
    · rw [List.filter_nil, List.append_nil]
      rfl
  | c0 :: L2, hnd, hb, st0, hO, hL => by
    rw [List.nodup_cons] at hnd
    have hc0n : c0 < n := hb c0 (List.mem_cons_self _ _)
    rw [List.foldl_cons]
    have hO1 : (kbody lvl st0 c0).outDeg.length = n := by
      rw [kbody_outDeg, List.length_set]
      exact hO
    have hL1 : (kbody lvl st0 c0).levels.length = n := by
      rw [kbody_levels, List.length_set]
      exact hL
    obtain ⟨k1, k2, k3, k4, k5⟩ := kfold_spec n lvl L2 hnd.2
      (fun c hc => hb c (List.mem_cons_of_mem _ hc)) (kbody lvl st0 c0)
      hO1 hL1
    refine ⟨k1, k2, ?_, ?_, ?_⟩
    · intro c hc
      rw [k3 c hc]
      by_cases hcc : c = c0
      · subst hcc
        rw [if_neg hnd.1, if_pos (List.mem_cons_self _ _), kbody_outDeg,
          List.getElem?_set_self (by rw [hO]; exact hc0n)]
        rfl
      · rw [kbody_outDeg, List.getElem?_set_ne (fun he => hcc he.symm)]
        by_cases hcl : c ∈ L2
        · rw [if_pos hcl, if_pos (List.mem_cons_of_mem _ hcl)]
        · rw [if_neg hcl, if_neg ?_]
          intro h2
          rcases List.mem_cons.mp h2 with h3 | h3
          · exact hcc h3
          · exact hcl h3
    · intro c hc
      rw [k4 c hc]
      by_cases hcc : c = c0
      · subst hcc
        rw [if_neg hnd.1, if_pos (List.mem_cons_self _ _), kbody_levels,
          List.getElem?_set_self (by rw [hL]; exact hc0n)]
        rfl
      · rw [kbody_levels, List.getElem?_set_ne (fun he => hcc he.symm)]
        by_cases hcl : c ∈ L2
        · rw [if_pos hcl, if_pos (List.mem_cons_of_mem _ hcl)]
        · rw [if_neg hcl, if_neg ?_]
          intro h2
          rcases List.mem_cons.mp h2 with h3 | h3
          · exact hcc h3
          · exact hcl h3
    · rw [k5, kbody_queue, List.filter_cons]
      have hfc : L2.filter
          (fun c => decide (((kbody lvl st0 c0).outDeg[c]?).getD 0 - 1 = 0)) =
          L2.filter (fun c => decide ((st0.outDeg[c]?).getD 0 - 1 = 0)) := by
        refine List.filter_congr ?_
        intro x hx
        have hxc : c0 ≠ x := fun he => hnd.1 (he ▸ hx)
        rw [kbody_outDeg, List.getElem?_set_ne hxc]
      rw [hfc]
      by_cases hd : (st0.outDeg[c0]?).getD 0 - 1 = 0
      · rw [if_pos (by simpa using hd), if_pos (by simpa using hd),
          List.append_assoc]
        rfl
      · rw [if_neg (by simpa using hd), if_neg (by simpa using hd),
          List.append_nil]

theorem eq_singleton_of_length_one_mem {l : List Nat} {s : Nat}
    (h1 : l.length = 1) (hs : s ∈ l) : l = [s] := by
  cases l with
  | nil => cases hs
  | cons a t =>
    cases t with
    | nil =>
      rw [List.mem_singleton.mp hs]
    | cons b t2 => simp at h1

/-- Shape of the condensation graph handed to the Kahn loop: edges go
to strictly larger indices, callee lists have no duplicates, and
`revE` lists exactly the in-range callers. -/
structure KGraph (n : Nat) (cal revE : Nat → List Nat) : Prop where
  cal_lt : ∀ i j, j ∈ cal i → i < j ∧ j < n ∧ i < n
  cal_nd : ∀ i, (cal i).Nodup
  revE_iff : ∀ c s, c ∈ revE s ↔ (c < n ∧ s ∈ cal c)
  revE_nd : ∀ s, (revE s).Nodup

/-- Loop invariant of the Kahn propagation; `P` is the list of popped
components. -/
structure KInv (n : Nat) (cal : Nat → List Nat) (P : List Nat)
    (st : KState) : Prop where
  lenOut : st.outDeg.length = n
  lenLev : st.levels.length = n
  nd : (P ++ st.queue).Nodup
  bound : ∀ c ∈ P ++ st.queue, c < n
  deg : ∀ c, c < n → (st.outDeg[c]?).getD 0 =
    ((cal c).filter fun x => decide (¬x ∈ P)).length
  done : ∀ c ∈ P ++ st.queue, ∀ s ∈ cal c, s ∈ P
  compl : ∀ c, c < n → (∀ s ∈ cal c, s ∈ P) → c ∈ P ++ st.queue
  lev : ∀ c, c < n → ∀ s ∈ cal c, s ∈ P →
    (st.levels[s]?).getD 0 + 1 ≤ (st.levels[c]?).getD 0

theorem kahn_step_inv {n : Nat} {cal revE : Nat → List Nat}
    (G : KGraph n cal revE) {P : List Nat} {st : KState} {s : Nat}
    {rest : List Nat} (hq : st.queue = s :: rest)
    (inv : KInv n cal P st) :
    KInv n cal (P ++ [s]) (kahnStep revE s { st with queue := rest }) := by
  have hstF : kahnStep revE s { st with queue := rest } =
      List.foldl (kbody ((st.levels[s]?).getD 0))
        { st with queue := rest } (revE s) := rfl
  have hLnd := G.revE_nd s
  have hLb : ∀ c ∈ revE s, c < n := fun c hc => ((G.revE_iff c s).mp hc).1
  obtain ⟨k1, k2, k3, k4, k5⟩ := kfold_spec n ((st.levels[s]?).getD 0)
    (revE s) hLnd hLb { st with queue := rest } inv.lenOut inv.lenLev
  have hndold : (P ++ s :: rest).Nodup := by
    have h2 := inv.nd
    rwa [hq] at h2
  have hsP : s ∉ P := by
    intro h
    exact (List.disjoint_of_nodup_append hndold) h (List.mem_cons_self _ _)
  have hsn : s < n := inv.bound s
    (by rw [hq]; exact List.mem_append_right _ (List.mem_cons_self _ _))
  have hsrev : s ∉ revE s := by
    intro h
    have h2 := ((G.revE_iff s s).mp h).2
    exact absurd (G.cal_lt s s h2).1 (Nat.lt_irrefl s)
  have hLnotPQ : ∀ c ∈ revE s, c ∉ P ∧ c ∉ s :: rest := by
    intro c hc
    have hcs : s ∈ cal c := ((G.revE_iff c s).mp hc).2
    constructor
    · intro hcP
      exact hsP (inv.done c
        (by rw [hq]; exact List.mem_append_left _ hcP) s hcs)
    · intro hcQ
      exact hsP (inv.done c
        (by rw [hq]; exact List.mem_append_right _ hcQ) s hcs)
  have hmemQ : ∀ c, c ∈ (kahnStep revE s { st with queue := rest }).queue ↔
      (c ∈ rest ∨ (c ∈ revE s ∧ (st.outDeg[c]?).getD 0 - 1 = 0)) := by
    intro c
    rw [hstF, k5]
    rw [List.mem_append, List.mem_filter]
    constructor
    · rintro (h | ⟨h1, h2⟩)
      · exact Or.inl h
      · exact Or.inr ⟨h1, by simpa using h2⟩
    · rintro (h | ⟨h1, h2⟩)
      · exact Or.inl h
      · exact Or.inr ⟨h1, by simpa using h2⟩
  have hdegF : ∀ c, c < n →
      ((kahnStep revE s { st with queue := rest }).outDeg[c]?).getD 0 =
      ((cal c).filter fun x => decide (¬x ∈ P ++ [s])).length := by
    intro c hc
    rw [hstF, k3 c hc]
    by_cases hcL : c ∈ revE s
    · rw [if_pos hcL]
      have hcs : s ∈ cal c := ((G.revE_iff c s).mp hcL).2
      have h2 := inv.deg c hc
      rw [filter_notmem_snoc_length (G.cal_nd c) hcs hsP]
      rw [h2]
    · rw [if_neg hcL]
      have hns : s ∉ cal c := by
        intro h2
        exact hcL ((G.revE_iff c s).mpr ⟨hc, h2⟩)
      rw [inv.deg c hc]
      congr 1
      refine (List.filter_congr ?_).symm
      intro x hx
      have hxs : x ≠ s := fun he => hns (he ▸ hx)
      simp [List.mem_append, hxs]
  have hlevF : ∀ c, c < n →
      ((kahnStep revE s { st with queue := rest }).levels[c]?).getD 0 =
      if c ∈ revE s then max ((st.levels[c]?).getD 0)
        ((st.levels[s]?).getD 0 + 1)
      else (st.levels[c]?).getD 0 := by
    intro c hc
    rw [hstF, k4 c hc]
  refine ⟨by rw [hstF]; exact k1, by rw [hstF]; exact k2, ?_, ?_,
    hdegF, ?_, ?_, ?_⟩
  · -- nodup
    rw [hstF, k5]
    have h1 : ((P ++ [s]) ++ rest).Nodup := by
      have h2 : (P ++ [s]) ++ rest = P ++ s :: rest := by simp
      rw [h2]
      exact hndold
    have hnQ : ((revE s).filter
        (fun c => decide (((st.outDeg[c]?).getD 0 - 1 = 0)))).Nodup :=
      hLnd.filter _
    show ((P ++ [s]) ++ (rest ++ _)).Nodup
    rw [← List.append_assoc]
    refine List.Nodup.append h1 hnQ ?_
    intro x hx hx2
    have hxrev : x ∈ revE s := (List.mem_filter.mp hx2).1
    obtain ⟨hxP, hxQ⟩ := hLnotPQ x hxrev
    rcases List.mem_append.mp hx with h3 | h3
    · rcases List.mem_append.mp h3 with h4 | h4
      · exact hxP h4
      · exact hxQ (by rw [List.mem_singleton.mp h4]; exact List.mem_cons_self _ _)
    · exact hxQ (List.mem_cons_of_mem _ h3)
  · -- bound
    intro c hc
    rcases List.mem_append.mp hc with h1 | h1
    · rcases List.mem_append.mp h1 with h2 | h2
      · exact inv.bound c (List.mem_append_left _ h2)
      · rw [List.mem_singleton.mp h2]
        exact hsn
    · rcases (hmemQ c).mp h1 with h2 | h2
      · refine inv.bound c ?_
        rw [hq]
        exact List.mem_append_right _ (List.mem_cons_of_mem _ h2)
      · exact hLb c h2.1
  · -- done
    intro c hc s2 hs2
    have hcold : c ∈ P ++ st.queue → s2 ∈ P :=
      fun h => inv.done c h s2 hs2
    rcases List.mem_append.mp hc with h1 | h1
    · rcases List.mem_append.mp h1 with h2 | h2
      · exact List.mem_append_left _ (hcold (List.mem_append_left _ h2))
      · obtain rfl := List.mem_singleton.mp h2
        refine List.mem_append_left _ (hcold ?_)
        rw [hq]
        exact List.mem_append_right _ (List.mem_cons_self _ _)
    · rcases (hmemQ c).mp h1 with h2 | h2
      · refine List.mem_append_left _ (hcold ?_)
        rw [hq]
        exact List.mem_append_right _ (List.mem_cons_of_mem _ h2)
      · -- c is newly enqueued: its remaining callees were exactly [s]
        have hcn : c < n := hLb c h2.1
        have hcs : s ∈ cal c := ((G.revE_iff c s).mp h2.1).2
        have hlen1 : ((cal c).filter fun x => decide (¬x ∈ P)).length = 1 := by
          have h3 := inv.deg c hcn
          have h4 := h2.2
          have h5 : 0 < ((cal c).filter fun x => decide (¬x ∈ P)).length := by
            have h6 : s ∈ (cal c).filter fun x => decide (¬x ∈ P) :=
              mem_filter_notmem.mpr ⟨hcs, hsP⟩
            exact List.length_pos.mpr (List.ne_nil_of_mem h6)
          omega
        have hfs : ((cal c).filter fun x => decide (¬x ∈ P)) = [s] :=
          eq_singleton_of_length_one_mem hlen1
            (mem_filter_notmem.mpr ⟨hcs, hsP⟩)
        by_cases hs2P : s2 ∈ P
        · exact List.mem_append_left _ hs2P
        · have h7 : s2 ∈ (cal c).filter fun x => decide (¬x ∈ P) :=
            mem_filter_notmem.mpr ⟨hs2, hs2P⟩
          rw [hfs] at h7
          rw [List.mem_singleton.mp h7]
          exact List.mem_append_right _ (List.mem_singleton.mpr rfl)
  · -- complete
    intro c hc hall
    by_cases hallP : ∀ s2 ∈ cal c, s2 ∈ P
    · have h1 := inv.compl c hc hallP
      rw [hq] at h1
      rcases List.mem_append.mp h1 with h2 | h2
      · exact List.mem_append_left _ (List.mem_append_left _ h2)
      · rcases List.mem_cons.mp h2 with rfl | h3
        · exact List.mem_append_left _
            (List.mem_append_right _ (List.mem_singleton.mpr rfl))
        · refine List.mem_append_right _ ?_
          exact (hmemQ c).mpr (Or.inl h3)
    · push_neg at hallP
      obtain ⟨s2, hs2c, hs2P⟩ := hallP
      have hs2s : s2 = s := by
        rcases List.mem_append.mp (hall s2 hs2c) with h3 | h3
        · exact absurd h3 hs2P
        · exact List.mem_singleton.mp h3
      rw [hs2s] at hs2c hs2P
      have hcL : c ∈ revE s := (G.revE_iff c s).mpr ⟨hc, hs2c⟩
      have hfs : ((cal c).filter fun x => decide (¬x ∈ P)) = [s] := by
        refine nodup_all_eq_singleton ((G.cal_nd c).filter _) ?_
          (mem_filter_notmem.mpr ⟨hs2c, hs2P⟩)
        intro x hx
        obtain ⟨hx1, hx2⟩ := mem_filter_notmem.mp hx
        rcases List.mem_append.mp (hall x hx1) with h3 | h3
        · exact absurd h3 hx2
        · exact List.mem_singleton.mp h3
      refine List.mem_append_right _ ?_
      refine (hmemQ c).mpr (Or.inr ⟨hcL, ?_⟩)
      rw [inv.deg c hc, hfs]
      rfl
  · -- levels
    intro c hc s2 hs2 hs2P
    have hs2notL : s2 ∈ P → s2 ∉ revE s := by
      intro hp hrev
      have h2 := ((G.revE_iff s2 s).mp hrev).2
      exact hsP (inv.done s2 (List.mem_append_left _ hp) s h2)
    rcases List.mem_append.mp hs2P with hs2P1 | hs2P1
    · -- s2 was already popped: its level is unchanged
      have hs2n : s2 < n := inv.bound s2 (List.mem_append_left _ hs2P1)
      have hl2 := hlevF s2 hs2n
      rw [if_neg (hs2notL hs2P1)] at hl2
      have hl3 := hlevF c hc
      have hold := inv.lev c hc s2 hs2 hs2P1
      by_cases hcL : c ∈ revE s
      · rw [if_pos hcL] at hl3
        rw [hl2, hl3]
        omega
      · rw [if_neg hcL] at hl3
        rw [hl2, hl3]
        exact hold
    · -- s2 = s: c is a caller of s and was raised past level s
      rw [List.mem_singleton.mp hs2P1] at hs2 ⊢
      have hcL : c ∈ revE s := (G.revE_iff c s).mpr ⟨hc, hs2⟩
      have hl2 := hlevF s hsn
      rw [if_neg hsrev] at hl2
      have hl3 := hlevF c hc
      rw [if_pos hcL] at hl3
      rw [hl2, hl3]
      omega

theorem kahn_loop_inv {n : Nat} {cal revE : Nat → List Nat}
    (G : KGraph n cal revE) :
    ∀ (fuel : Nat) (P : List Nat) (st : KState), KInv n cal P st →
    n ≤ P.length + fuel →
    ∃ P2, KInv n cal P2 (kahnLoop revE fuel st) ∧ ∀ c, c < n → c ∈ P2 := by
  intro fuel
  induction fuel with
  | zero =>
    intro P st inv hn
    refine ⟨P, inv, ?_⟩
    have hndP : P.Nodup := (List.nodup_append.mp inv.nd).1
    have hsub : ∀ x ∈ P, x < n :=
      fun x hx => inv.bound x (List.mem_append_left _ hx)
    intro c hc
    have h1 : List.Subperm P (List.range n) :=
      List.subperm_of_subset hndP
        (fun x hx => List.mem_range.mpr (hsub x hx))
    have h4 : P.Perm (List.range n) :=
      h1.perm_of_length_le (by rw [List.length_range]; omega)
    rw [h4.mem_iff]
    exact List.mem_range.mpr hc
  | succ fuel ih =>
    intro P st inv hn
    cases hq : st.queue with
    | nil =>
      have heq : kahnLoop revE (fuel + 1) st = st := by
        rw [kahnLoop, hq]
      rw [heq]
      refine ⟨P, inv, ?_⟩
      have hall : ∀ k c, c < n → n - c ≤ k → c ∈ P := by
        intro k
        induction k with
        | zero =>
          intro c hc h0
          exact absurd hc (by omega)
        | succ k2 ihk =>
          intro c hc hk
          have hcal : ∀ s ∈ cal c, s ∈ P := by
            intro s hs
            obtain ⟨h1, h2, _⟩ := G.cal_lt c s hs
            exact ihk s h2 (by omega)
          have h2 := inv.compl c hc hcal
          rwa [hq, List.append_nil] at h2
      intro c hc
      exact hall n c hc (by omega)
    | cons s rest =>
      have heq : kahnLoop revE (fuel + 1) st =
          kahnLoop revE fuel (kahnStep revE s { st with queue := rest }) := by
        rw [kahnLoop, hq]
      rw [heq]
      refine ih (P ++ [s]) _ (kahn_step_inv G hq inv) ?_
      rw [List.length_append, List.length_singleton]
      omega

theorem kahn_init_inv {n : Nat} {cal : Nat → List Nat} :
    KInv n cal []
      { queue := (List.range n).filter fun i => decide ((cal i).length = 0),
        outDeg := (List.range n).map fun i => (cal i).length,
        levels := List.replicate n 0 } := by
  refine ⟨?_, ?_, ?_, ?_, ?_, ?_, ?_, ?_⟩
  · simp
  · simp
  · rw [List.nil_append]
    exact (List.nodup_range n).filter _
  · intro c hc
    rw [List.nil_append, List.mem_filter] at hc
    exact List.mem_range.mp hc.1
  · intro c hc
    rw [List.getElem?_map, List.getElem?_range hc]
    have h2 : ((cal c).filter fun x => decide (¬x ∈ ([] : List Nat))) =
        cal c := by
      refine List.filter_eq_self.mpr ?_
      intro a _
      simp
    rw [h2]
    rfl
  · intro c hc s hs
    rw [List.nil_append, List.mem_filter] at hc
    have h2 : cal c = [] :=
      List.length_eq_zero.mp (by simpa using hc.2)
    rw [h2] at hs
    cases hs
  · intro c hc hall
    rw [List.nil_append, List.mem_filter]
    have h2 : cal c = [] := by
      rw [List.eq_nil_iff_forall_not_mem]
      intro s hs
      cases hall s hs
    refine ⟨List.mem_range.mpr hc, by simp [h2]⟩
  · intro c hc s hs hsP
    cases hsP

/-! ### Assembling `assign_levels` -/

/-- The function-to-component map of `assign_levels`. -/
def alFscc (functions : List String)
    (calls : List (String × List String)) : String → Option Nat :=
  fun f => lookupKV (funcToSccMap (find_sccs functions calls)) f

/-- Number of components. -/
def alN (functions : List String)
    (calls : List (String × List String)) : Nat :=
  (find_sccs functions calls).length

/-- Condensation callee lists. -/
def alCal (functions : List String)
    (calls : List (String × List String)) : Nat → List Nat :=
  fun i => sccCallees calls (alFscc functions calls) i

/-- Condensation caller lists. -/
def alRevE (functions : List String)
    (calls : List (String × List String)) : Nat → List Nat :=
  callersScc calls (alFscc functions calls) (alN functions calls)

/-- The initial Kahn state of `assign_levels`. -/
def alState (functions : List String)
    (calls : List (String × List String)) : KState :=
  { queue := (List.range (alN functions calls)).filter
      fun i => (alCal functions calls i).length = 0,
    outDeg := (List.range (alN functions calls)).map
      fun i => (alCal functions calls i).length,
    levels := List.replicate (alN functions calls) 0 }

/-- The final Kahn state of `assign_levels`. -/
def alFinal (functions : List String)
    (calls : List (String × List String)) : KState :=
  kahnLoop (alRevE functions calls) (alN functions calls)
    (alState functions calls)

theorem assign_levels_eq (functions : List String)
    (calls : List (String × List String)) :
    assign_levels functions calls = functions.filterMap fun f =>
      (alFscc functions calls f).map fun i =>
        (f, ((alFinal functions calls).levels[i]?).getD 0) := rfl

theorem alKGraph (functions : List String)
    (calls : List (String × List String))
    (hkeys : (calls.map Prod.fst).Nodup) :
    KGraph (alN functions calls) (alCal functions calls)
      (alRevE functions calls) := by
  have SC := find_sccs_spec functions calls
  have hN := nodup_sortedNodup functions
  have hNflat : (find_sccs functions calls).flatten.Nodup :=
    hN.perm SC.permA
  refine ⟨?_, ?_, ?_, ?_⟩
  · intro i j hj
    refine ⟨sccCallees_lt functions calls hkeys hj, ?_, ?_⟩
    · obtain ⟨_, p, _, v2, _, _, hvj⟩ := mem_sccCallees hj
      obtain ⟨C, hC, _⟩ := funcToSccMap_lookup _ _ _ hNflat hvj
      rcases List.getElem?_eq_some_iff.mp hC with ⟨h2, _⟩
      exact h2
    · obtain ⟨_, p, _, v2, _, hpi, _⟩ := mem_sccCallees hj
      obtain ⟨C, hC, _⟩ := funcToSccMap_lookup _ _ _ hNflat hpi
      rcases List.getElem?_eq_some_iff.mp hC with ⟨h2, _⟩
      exact h2
  · intro i
    exact List.nodup_dedup _
  · intro c s
    show c ∈ (List.range (alN functions calls)).filter _ ↔ _
    rw [List.mem_filter, List.mem_range]
    constructor
    · rintro ⟨h1, h2⟩
      exact ⟨h1, by simpa using h2⟩
    · rintro ⟨h1, h2⟩
      exact ⟨h1, by simpa using h2⟩
  · intro s
    exact (List.nodup_range _).filter _

/-- A resolved call edge between functions of the index. -/
def EdgeF (functions : List String)
    (calls : List (String × List String)) (a b : String) : Prop :=
  a ∈ functions ∧ b ∈ functions ∧ b ∈ calleesOf calls a

/-- Two functions lie in the same strongly connected component of the
call graph: each reaches the other through resolved call edges. -/
def SameSCC (functions : List String)
    (calls : List (String × List String)) (u v : String) : Prop :=
  Relation.ReflTransGen (EdgeF functions calls) u v ∧
  Relation.ReflTransGen (EdgeF functions calls) v u

theorem reachF_iff (functions : List String)
    (calls : List (String × List String)) {u v : String}
    (hu : u ∈ functions) :
    Relation.ReflTransGen (EdgeF functions calls) u v ↔
      RInV (fsucc calls) (sortedNodup functions) u v := by
  constructor
  · intro h
    refine Relation.ReflTransGen.mono ?_ h
    intro a b hab
    exact ⟨(mem_fsucc calls a b).mpr hab.2.2,
      (mem_sortedNodup functions b).mpr hab.2.1⟩
  · intro h
    induction h with
    | refl => exact Relation.ReflTransGen.refl
    | tail hp hedge ih =>
      rename_i y z
      have hy : y ∈ functions := by
        rcases reach_last_mem hp with rfl | h2
        · exact hu
        · exact (mem_sortedNodup functions y).mp h2
      exact ih.tail ⟨hy, (mem_sortedNodup functions z).mp hedge.2,
        (mem_fsucc calls y z).mp hedge.1⟩

theorem sameSCC_iff_MutV (functions : List String)
    (calls : List (String × List String)) {u v : String}
    (hu : u ∈ functions) (hv : v ∈ functions) :
    SameSCC functions calls u v ↔
      MutV (fsucc calls) (sortedNodup functions) u v := by
  constructor
  · intro h
    exact ⟨(reachF_iff functions calls hu).mp h.1,
      (reachF_iff functions calls hv).mp h.2⟩
  · intro h
    exact ⟨(reachF_iff functions calls hu).mpr h.1,
      (reachF_iff functions calls hv).mpr h.2⟩

theorem alFscc_total (functions : List String)
    (calls : List (String × List String)) {u : String}
    (hu : u ∈ functions) :
    ∃ i, alFscc functions calls u = some i ∧ i < alN functions calls := by
  have SC := find_sccs_spec functions calls
  have hN := nodup_sortedNodup functions
  have hNflat : (find_sccs functions calls).flatten.Nodup :=
    hN.perm SC.permA
  have huV : u ∈ sortedNodup functions := (mem_sortedNodup functions u).mpr hu
  have hflat : u ∈ (find_sccs functions calls).flatten :=
    SC.permA.mem_iff.mp huV
  obtain ⟨C, hC, hxC⟩ := List.mem_flatten.mp hflat
  obtain ⟨j, hj⟩ := List.mem_iff_getElem?.mp hC
  refine ⟨j, funcToSccMap_mem _ j C u hNflat hj hxC, ?_⟩
  rcases List.getElem?_eq_some_iff.mp hj with ⟨h2, _⟩
  exact h2

theorem alFscc_ne (functions : List String)
    (calls : List (String × List String)) {u v : String} {i j : Nat}
    (hu : u ∈ functions) (hv : v ∈ functions)
    (hi : alFscc functions calls u = some i)
    (hj : alFscc functions calls v = some j)
    (hns : ¬SameSCC functions calls u v) : ¬j = i := by
  intro he
  subst he
  have SC := find_sccs_spec functions calls
  have hN := nodup_sortedNodup functions
  have hNflat : (find_sccs functions calls).flatten.Nodup :=
    hN.perm SC.permA
  obtain ⟨C1, hC1, huC⟩ := funcToSccMap_lookup _ _ _ hNflat hi
  obtain ⟨C2, hC2, hvC⟩ := funcToSccMap_lookup _ _ _ hNflat hj
  rw [hC1] at hC2
  obtain rfl := Option.some.inj hC2
  have hmut := SC.sound C1 (List.getElem?_mem hC1) u huC v hvC
  exact hns ((sameSCC_iff_MutV functions calls hu hv).mpr hmut)

theorem lookupKV_filterMap_level (g : String → Option Nat)
    (h : Nat → Nat) :
    ∀ (l : List String) (u : String), u ∈ l → ∀ i, g u = some i →
    lookupKV (l.filterMap fun f => (g f).map fun k => (f, h k)) u =
      some (h i)
  | [], u, hu, _, _ => absurd hu (List.not_mem_nil u)
  | f :: l2, u, hu, i, hgu => by
    rw [List.filterMap_cons]
    cases hgf : g f with
    | none =>
      show lookupKV (l2.filterMap fun f2 => (g f2).map fun k2 => (f2, h k2))
        u = some (h i)
      rcases List.mem_cons.mp hu with rfl | h2
      · rw [hgf] at hgu
        cases hgu
      · exact lookupKV_filterMap_level g h l2 u h2 i hgu
    | some k =>
      show lookupKV ((f, h k) ::
        l2.filterMap fun f2 => (g f2).map fun k2 => (f2, h k2)) u = some (h i)
      rw [lookupKV]
      by_cases hf : f = u
      · subst hf
        rw [if_pos rfl]
        rw [hgf] at hgu
        rw [Option.some.inj hgu]
      · rw [if_neg hf]
        rcases List.mem_cons.mp hu with rfl | h2
        · exact absurd rfl hf
        · exact lookupKV_filterMap_level g h l2 u h2 i hgu

/-- Claim C1: for every input to `assign_levels` and every resolved
edge `u → v` (with unique caller keys, as a `HashMap` guarantees) whose
endpoints lie in the function set and in distinct strongly connected
components, the returned level map assigns both functions a level and
`level(u) > level(v)`. -/
theorem assign_levels_cross_scc (functions : List String)
    (calls : List (String × List String))
    (hkeys : (calls.map Prod.fst).Nodup)
    (u v : String) (hu : u ∈ functions) (hv : v ∈ functions)
    (hedge : v ∈ calleesOf calls u)
    (hns : ¬SameSCC functions calls u v) :
    ∃ lu lv, lookupKV (assign_levels functions calls) u = some lu ∧
      lookupKV (assign_levels functions calls) v = some lv ∧ lv < lu := by
  obtain ⟨i, hi, hin⟩ := alFscc_total functions calls hu
  obtain ⟨j, hj, hjn⟩ := alFscc_total functions calls hv
  have hne : ¬j = i := alFscc_ne functions calls hu hv hi hj hns
  have hcond : j ∈ alCal functions calls i :=
    sccCallees_intro hi hj hne hedge
  have G := alKGraph functions calls hkeys
  obtain ⟨P2, invF, hall⟩ := kahn_loop_inv G (alN functions calls) []
    (alState functions calls) kahn_init_inv (by simp)
  have hlev : ((alFinal functions calls).levels[j]?).getD 0 + 1 ≤
      ((alFinal functions calls).levels[i]?).getD 0 :=
    invF.lev i hin j hcond (hall j hjn)
  refine ⟨((alFinal functions calls).levels[i]?).getD 0,
    ((alFinal functions calls).levels[j]?).getD 0, ?_, ?_, ?_⟩
  · rw [assign_levels_eq]
    exact lookupKV_filterMap_level (alFscc functions calls) _
      functions u hu i hi
  · rw [assign_levels_eq]
    exact lookupKV_filterMap_level (alFscc functions calls) _
      functions v hv j hj
  · omega

/-- Two functions, a single one-way call edge. -/
def c1Functions : List String := ["a", "b"]

/-- The call map: `b` calls `a`. -/
def c1Calls : List (String × List String) := [("b", ["a"])]

/-- Witness for `assign_levels_cross_scc`: on the index where `b`
calls `a` one way, the caller `b` receives a strictly larger level. -/
theorem assign_levels_cross_scc_witness :
    (c1Calls.map Prod.fst).Nodup ∧
    ("b" ∈ c1Functions ∧ "a" ∈ c1Functions ∧
      "a" ∈ calleesOf c1Calls "b" ∧
      ¬SameSCC c1Functions c1Calls "b" "a") ∧
    (∃ lu lv, lookupKV (assign_levels c1Functions c1Calls) "b" = some lu ∧
      lookupKV (assign_levels c1Functions c1Calls) "a" = some lv ∧
      lv < lu) := by
  have hns : ¬SameSCC c1Functions c1Calls "b" "a" := by
    rintro ⟨h1, h2⟩
    rcases Relation.ReflTransGen.cases_head h2 with heq | ⟨c, hc, _⟩
    · exact absurd heq (by decide)
    · have h3 : c ∈ calleesOf c1Calls "a" := hc.2.2
      have h4 : calleesOf c1Calls "a" = [] := by decide
      rw [h4] at h3
      cases h3
  refine ⟨by decide, ⟨by decide, by decide, by decide, hns⟩, ?_⟩
  exact assign_levels_cross_scc c1Functions c1Calls (by decide) "b" "a"
    (by decide) (by decide) (by decide) hns

end Aria
